import Mathlib

/-!
# PwdGen: a verification development for `pgen/pgen.go`

The password generator is embedded shallowly.

* A Go `string` is the list of its bytes (`GoString`); `len` is `List.length`,
  `s[i]` is byte indexing and `s[a:b]` is byte slicing.
* Go `int` is a 64-bit signed integer: values are `Int`, and the one place
  where the source subtracts (`length - numDigits - numSymbols`) wraps through
  `wrap64`.
* `crypto/rand` is an explicit list of outcomes (`RNG`): every call of
  `rand.Int` consumes the head of the list. An outcome is either raw entropy
  `value v`, from which `rand.Int(_, max)` returns `v % max` (so every value
  of `[0, max)` can be returned and nothing else), or `failure e`, the reader
  failing with error `e`.
* A call of `Generate` either returns its pair `(string, error)`, or panics,
  or needs a draw when the outcome list is exhausted (`starved`, which records
  the loop, the draw, the loop variable and the accumulator at that point).
* `main` is embedded with its flags and its host (display, clipboard); the
  i-th call of `pgen.Generate` sees its own outcome list.
-/

namespace PwdGen

/-- A Go string, as its sequence of bytes. -/
abbrev GoString := List Nat

/-- The bytes of an ASCII string literal. -/
def ascii (s : String) : GoString := s.toList.map Char.toNat

/-- `Lowercase = "abcdefghijklmnopqrstuvwxyz"` (pgen.go:12). -/
def Lowercase : GoString := ascii "abcdefghijklmnopqrstuvwxyz"

/-- `Uppercase = "ABCDEFGHIJKLMNOPQRSTUVWXYZ"` (pgen.go:14). -/
def Uppercase : GoString := ascii "ABCDEFGHIJKLMNOPQRSTUVWXYZ"

/-- `Digits = "1234567890"` (pgen.go:16). -/
def Digits : GoString := ascii "1234567890"

/-- The constant `Symbols` of pgen.go:18, the thirty punctuation characters
from `~` to `/` (the two braces are written as escapes here). -/
def Symbols : GoString := ascii "~!@#$%^&*()_+`-=\x7b\x7d|[]\\:\"<>?,./"

/-- Go error values: the four package errors of pgen.go:22-34 and the error a
failing `crypto/rand` reader hands back. -/
inductive GoError where
  | ErrExceedsTotalLength
  | ErrLettersExceedsAvailable
  | ErrDigitsExceedsAvailable
  | ErrSymbolsExceedsAvailable
  | randErr (e : Nat)
  deriving DecidableEq, Repr

/-- The struct `Generator` (pgen.go:38-43). -/
structure Generator where
  lowercase : GoString
  uppercase : GoString
  digits : GoString
  symbols : GoString
  deriving DecidableEq, Repr

/-- The struct `GenInput` (pgen.go:45-50). -/
structure GenInput where
  lowercase_input : GoString
  uppercase_input : GoString
  digits_input : GoString
  symbols_input : GoString
  deriving DecidableEq, Repr

/-- `NewGenerator` (pgen.go:52-75); a nil pointer is `none`. -/
def NewGenerator (i : Option GenInput) : Generator × Option GoError :=
  let i : GenInput := match i with
    | none => { lowercase_input := [], uppercase_input := [], digits_input := [], symbols_input := [] }
    | some x => x
  let g : Generator :=
    { lowercase := i.lowercase_input, uppercase := i.uppercase_input,
      digits := i.digits_input, symbols := i.symbols_input }
  let g := if g.lowercase = [] then { g with lowercase := Lowercase } else g
  let g := if g.uppercase = [] then { g with uppercase := Uppercase } else g
  let g := if g.digits = [] then { g with digits := Digits } else g
  let g := if g.symbols = [] then { g with symbols := Symbols } else g
  (g, none)

/-- One outcome of the random source: raw entropy, or a read failure. -/
inductive RandOutcome where
  | value (v : Nat)
  | failure (e : Nat)
  deriving DecidableEq, Repr

/-- The random source: the outcomes of the draws still to come. -/
abbrev RNG := List RandOutcome

/-- The result of a call that may draw: it returns `a` and leaves the source
in state `rng`, or it panics, or the source is exhausted at a draw. -/
inductive Call (α : Type) where
  | ret (a : α) (rng : RNG)
  | panic
  | starved
  deriving Repr

/-- `rand.Int(rand.Reader, big.NewInt(max))`: panics when `max ≤ 0`, otherwise
consumes one outcome and returns a value of `[0, max)` or the reader error.
The list holds one outcome per call. The library answers a call with
`max = 1` by 0 without reading the reader: that is the outcome `value v`
(`v % 1 = 0`), and a `failure` outcome at such a call belongs to no real run. -/
def randInt (max : Int) (rng : RNG) : Call (Except GoError Nat) :=
  if max ≤ 0 then .panic
  else match rng with
    | [] => .starved
    | .failure e :: rest => .ret (.error (.randErr e)) rest
    | .value v :: rest => .ret (.ok (v % max.toNat)) rest

/-- The conversion `string(b)` of a byte: the UTF-8 encoding of the code point
`b` (one byte below 0x80, two bytes from 0x80 to 0xFF). -/
def byteToString (b : Nat) : GoString :=
  if b < 128 then [b] else [192 + b / 64, 128 + b % 64]

/-- `randomElement` (pgen.go:185-191). -/
def randomElement (s : GoString) (rng : RNG) : Call (GoString × Option GoError) :=
  match randInt (s.length : Int) rng with
  | .panic => .panic
  | .starved => .starved
  | .ret (.error err) rng1 => .ret ([], some err) rng1
  | .ret (.ok n) rng1 =>
    match s[n]? with
    | none => .panic
    | some b => .ret (byteToString b, none) rng1

/-- `randomInsert` (pgen.go:194-204). -/
def randomInsert (s ch : GoString) (rng : RNG) : Call (GoString × Option GoError) :=
  if s = [] then .ret (ch, none) rng
  else match randInt (1 + (s.length : Int)) rng with
    | .panic => .panic
    | .starved => .starved
    | .ret (.error err) rng1 => .ret ([], some err) rng1
    | .ret (.ok i) rng1 =>
      if i ≤ s.length then .ret (s.take i ++ ch ++ s.drop i, none) rng1 else .panic

/-- `strings.Contains(s, substr)`: `substr` occurs in `s` as a run of
consecutive bytes. -/
def Contains : GoString → GoString → Bool
  | [], substr => substr.isPrefixOf []
  | a :: s, substr => substr.isPrefixOf (a :: s) || Contains s substr

/-- Two's-complement wrap of a mathematical integer into the range of `int`. -/
def wrap64 (x : Int) : Int := (x + 9223372036854775808) % 18446744073709551616 - 9223372036854775808

/-- The three loops of `Generate`. -/
inductive Phase where
  | letters
  | digits
  | symbols
  deriving DecidableEq, Repr

/-- The two draws of a loop iteration: the character (`randomElement`) and
the position (`randomInsert`). -/
inductive DrawKind where
  | element
  | position
  deriving DecidableEq, Repr

/-- How a call of `Generate` ends on a given outcome list: it returns, it
panics, or it needs the draw `k` of loop `p` when the list is exhausted, the
loop variable being `i` and the accumulator `acc`. -/
inductive Outcome where
  | returned (s : GoString) (err : Option GoError)
  | panicked
  | starved (p : Phase) (k : DrawKind) (i : Int) (acc : GoString)
  | fuelOut
  deriving DecidableEq, Repr

/-- What a loop hands on: control falls through to the next statement with the
accumulator `result`, or `Generate` is left. -/
inductive Flow where
  | next (result : GoString) (rng : RNG)
  | exit (o : Outcome)
  deriving DecidableEq, Repr

/-- The error `Generate` returns when `randomElement` fails: the letter loop
returns `err` (pgen.go:107), the digit and symbol loops return `nil`
(pgen.go:122, pgen.go:137). -/
def elementFailure : Phase → GoError → Option GoError
  | .letters, err => some err
  | .digits, _ => none
  | .symbols, _ => none

/-- One of the three loops `for i := 0; i < count; i++ { ... }` of `Generate`
(pgen.go:104-117, 119-132, 134-147), from the state `(i, result, rng)`. The
loops differ in the class drawn from, in the count, and in `elementFailure`.
The first argument bounds the number of iterations; every iteration consumes
an outcome, so `rng.length + 1` is never exhausted (`phaseLoop_fuel`). -/
def phaseLoop (ph : Phase) (pool : GoString) (count : Int) (allowRepeat : Bool) :
    Nat → Int → GoString → RNG → Flow
  | 0, _, _, _ => .exit .fuelOut
  | fuel + 1, i, result, rng =>
    if i < count then
      match randomElement pool rng with
      | .panic => .exit .panicked
      | .starved => .exit (.starved ph .element i result)
      | .ret (_, some err) _ => .exit (.returned [] (elementFailure ph err))
      | .ret (ch, none) rng1 =>
        if !allowRepeat && Contains result ch then
          phaseLoop ph pool count allowRepeat fuel (i - 1 + 1) result rng1
        else
          match randomInsert result ch rng1 with
          | .panic => .exit .panicked
          | .starved => .exit (.starved ph .position i result)
          | .ret (_, some err) _ => .exit (.returned [] (some err))
          | .ret (result1, none) rng2 =>
            phaseLoop ph pool count allowRepeat fuel (i + 1) result1 rng2
    else .next result rng

/-- The method `Generator.Generate` (pgen.go:77-149). -/
def Generator.Generate (g : Generator) (length numDigits numSymbols : Int)
    (noUppercase allowRepeat : Bool) (rng : RNG) : Outcome :=
  let letters := if !noUppercase then g.lowercase ++ g.uppercase else g.lowercase
  let chars := wrap64 (wrap64 (length - numDigits) - numSymbols)
  if chars < 0 then .returned [] (some .ErrExceedsTotalLength)
  else if !allowRepeat && chars > (letters.length : Int) then
    .returned [] (some .ErrLettersExceedsAvailable)
  else if !allowRepeat && numDigits > (g.digits.length : Int) then
    .returned [] (some .ErrDigitsExceedsAvailable)
  else if !allowRepeat && numSymbols > (g.symbols.length : Int) then
    .returned [] (some .ErrSymbolsExceedsAvailable)
  else
    match phaseLoop .letters letters chars allowRepeat (rng.length + 1) 0 [] rng with
    | .exit o => o
    | .next result rng1 =>
      match phaseLoop .digits g.digits numDigits allowRepeat (rng1.length + 1) 0 result rng1 with
      | .exit o => o
      | .next result rng2 =>
        match phaseLoop .symbols g.symbols numSymbols allowRepeat (rng2.length + 1) 0 result rng2 with
        | .exit o => o
        | .next result _ => .returned result none

/-- The package function `Generate` (pgen.go:167-173). -/
def Generate (length numDigits numSymbols : Int) (noUppercase allowRepeat : Bool)
    (rng : RNG) : Outcome :=
  match NewGenerator none with
  | (_, some err) => .returned [] (some err)
  | (gen, none) => gen.Generate length numDigits numSymbols noUppercase allowRepeat rng

/-! ## Helper definitions for the statements -/

/-- The pre-check part of `Generate` (pgen.go:84-100) on its own: the error of
the first check that fires, `none` when all four pass. -/
def preCheck (g : Generator) (length numDigits numSymbols : Int)
    (noUppercase allowRepeat : Bool) : Option GoError :=
  let letters := if !noUppercase then g.lowercase ++ g.uppercase else g.lowercase
  let chars := wrap64 (wrap64 (length - numDigits) - numSymbols)
  if chars < 0 then some .ErrExceedsTotalLength
  else if !allowRepeat && chars > (letters.length : Int) then some .ErrLettersExceedsAvailable
  else if !allowRepeat && numDigits > (g.digits.length : Int) then some .ErrDigitsExceedsAvailable
  else if !allowRepeat && numSymbols > (g.symbols.length : Int) then some .ErrSymbolsExceedsAvailable
  else none

/-- The letter pool of a request: `g.lowercase` when `noUppercase`, else
`g.lowercase` followed by `g.uppercase` (pgen.go:84-87). -/
def letterPool (g : Generator) (noUppercase : Bool) : GoString :=
  if !noUppercase then g.lowercase ++ g.uppercase else g.lowercase

/-- The table of pre-checks as the specification words it (section 4.1), over
mathematical integers: the error of the first row whose condition holds. -/
def tablePreCheck (g : Generator) (length numDigits numSymbols : Int)
    (noUppercase allowRepeat : Bool) : Option GoError :=
  if numDigits + numSymbols > length then some .ErrExceedsTotalLength
  else if allowRepeat = false ∧ length - numDigits - numSymbols > ((letterPool g noUppercase).length : Int) then
    some .ErrLettersExceedsAvailable
  else if allowRepeat = false ∧ numDigits > (g.digits.length : Int) then
    some .ErrDigitsExceedsAvailable
  else if allowRepeat = false ∧ numSymbols > (g.symbols.length : Int) then
    some .ErrSymbolsExceedsAvailable
  else none

/-- The four errors of the pre-check table. -/
def GoError.isPreCheck : GoError → Bool
  | .ErrExceedsTotalLength => true
  | .ErrLettersExceedsAvailable => true
  | .ErrDigitsExceedsAvailable => true
  | .ErrSymbolsExceedsAvailable => true
  | .randErr _ => false

/-- The draw succeeded. -/
def RandOutcome.isValue : RandOutcome → Bool
  | .value _ => true
  | .failure _ => false

/-- Every outcome of the list is a successful draw. -/
def allDrawsSucceed (rng : RNG) : Prop := ∀ r ∈ rng, r.isValue = true

instance (rng : RNG) : Decidable (allDrawsSucceed rng) := by
  unfold allDrawsSucceed; infer_instance

/-- The value lies in the range of a Go `int`. -/
def isInt64 (x : Int) : Prop := -9223372036854775808 ≤ x ∧ x < 9223372036854775808

instance (x : Int) : Decidable (isInt64 x) := by
  unfold isInt64; infer_instance

/-- Every byte of the string is ASCII (below 0x80). -/
def isAscii (s : GoString) : Prop := ∀ b ∈ s, b < 128

/-- The generator `NewGenerator(nil)` returns. -/
def defaultGenerator : Generator := (NewGenerator none).1

/-! ## Inputs of the worked examples -/

/-- Six draws for `Generate(3, 1, 1, true, true)`: `a`; `6` at slot 1 of 2;
`@` at slot 7 % 3 = 1. -/
def drawsSmall : RNG :=
  [.value 0, .value 5, .value 1, .value 2, .value 7, .value 0]

/-- Every draw yields entropy 0: the first character of the class, spliced at
the front. -/
def drawsZero (n : Nat) : RNG := List.replicate n (.value 0)

/-- Draws for `Generate(10, 0, 0, true, false)`: `a`, then `a` again (rejected),
then `b` to `j`, each spliced at the front. -/
def drawsDistinct : RNG :=
  [.value 0, .value 0, .value 1, .value 0, .value 2, .value 0, .value 3, .value 0,
   .value 4, .value 0, .value 5, .value 0, .value 6, .value 0, .value 7, .value 0,
   .value 8, .value 0, .value 9, .value 0]

/-- Draws for `Generate(30, 10, 0, true, false)`: the letters `a` to `t`, then
the digits `1`, ..., `9`, `0`, each spliced at the front. -/
def drawsSaturate : RNG :=
  [.value 0, .value 1, .value 0, .value 2, .value 0, .value 3, .value 0, .value 4,
   .value 0, .value 5, .value 0, .value 6, .value 0, .value 7, .value 0, .value 8,
   .value 0, .value 9, .value 0, .value 10, .value 0, .value 11, .value 0, .value 12,
   .value 0, .value 13, .value 0, .value 14, .value 0, .value 15, .value 0, .value 16,
   .value 0, .value 17, .value 0, .value 18, .value 0, .value 19, .value 0, .value 0,
   .value 0, .value 1, .value 0, .value 2, .value 0, .value 3, .value 0, .value 4,
   .value 0, .value 5, .value 0, .value 6, .value 0, .value 7, .value 0, .value 8,
   .value 0, .value 9, .value 0]

/-- The password `0987654321tsrqponmlkjihgfedcba` returned on `drawsSaturate`. -/
def passwordSaturate : GoString :=
  [48, 57, 56, 55, 54, 53, 52, 51, 50, 49, 116, 115, 114, 113, 112,
   111, 110, 109, 108, 107, 106, 105, 104, 103, 102, 101, 100, 99, 98, 97]

/-! ## Definitions for the driver, insertion sequences and worked examples -/

/-- The splice `s[0:i] + ch + s[i:]` of `randomInsert` (pgen.go:203). -/
def splice (s ch : GoString) (i : Nat) : GoString := s.take i ++ ch ++ s.drop i

/-- Overrides that replace the digit class by `"11"` and leave the other
classes to their defaults. -/
def inputOnes : GenInput :=
  { lowercase_input := [], uppercase_input := [], digits_input := ascii "11",
    symbols_input := [] }

/-- The generator `NewGenerator` builds from `inputOnes`. -/
def generatorOnes : Generator := (NewGenerator (some inputOnes)).1

/-- A generator with overlapping overrides: lowercase `"ab"`, digits `"b1"`
(sharing `b`), symbols `"!!?"` (a repeated byte). -/
def inputOverlap : GenInput :=
  { lowercase_input := ascii "ab", uppercase_input := [],
    digits_input := ascii "b1", symbols_input := ascii "!!?" }

/-- Draws for `Generate(4, 1, 1, true, false)` on `inputOverlap`: `a`; `b` at the
front; the digit draw `b` (rejected, it is in the accumulator); `1` at the
front; `!` at the front. -/
def drawsOverlap : RNG :=
  [.value 0, .value 1, .value 0, .value 0, .value 1, .value 0, .value 0, .value 0]

/-- The largest Go `int`, 2^63 - 1. -/
def maxInt64 : Int := 9223372036854775807

/-- The smallest Go `int`, -2^63. -/
def minInt64 : Int := -9223372036854775808

/-- The error `Generate` returns when the draw at a site fails: `elementFailure`
for the character draw, the error of the random source for the position draw
(pgen.go:114-116, 129-131, 144-146). -/
def drawFailure : Phase → DrawKind → GoError → Option GoError
  | p, .element, err => elementFailure p err
  | _, .position, err => some err

/-- Inserting the bytes `cs` one after the other into the accumulator, each by
the splice of `randomInsert` at the position drawn for it. -/
def insertSeq : GoString → List Nat → List Nat → GoString
  | acc, c :: cs, i :: is => insertSeq (splice acc [c] i) cs is
  | acc, _, _ => acc

/-- Each position is a slot of the accumulator it is spliced into: the first
is at most `m`, the next at most `m + 1`, and so on. -/
def validPositions : Nat → List Nat → Bool
  | _, [] => true
  | m, i :: is => decide (i ≤ m) && validPositions (m + 1) is

/-- The byte `randomElement` takes from the class `pool` on entropy `v`:
`pool[v % len(pool)]`. -/
def pick (pool : GoString) (v : Nat) : Nat := pool.getD (v % pool.length) 0

/-- The outcome list of a run without rejection and without failure, from an
accumulator of `m` bytes: for each character its entropy `v`, followed (unless
the accumulator is empty, when `randomInsert` does not draw) by the entropy `p`
of its position. -/
def interleave : Nat → List Nat → List Nat → RNG
  | 0, v :: vs, _ :: ps => .value v :: interleave 1 vs ps
  | m + 1, v :: vs, p :: ps => .value v :: .value p :: interleave (m + 2) vs ps
  | _, _, _ => []

/-- Draws for `Generate(3, 1, 1, true, false)`: `a`; `6` at slot 1; `@` at
slot 1. -/
def drawsOrder : RNG := interleave 0 [0, 5, 2] [0, 1, 1]

/-- The bytes of the class `pool` that do not occur in the accumulator. -/
def fresh (pool result : GoString) : GoString := pool.filter (fun b => decide (b ∉ result))

/-- The number of draws a loop without rejection makes to insert `n` bytes into
an accumulator of `m` bytes: a character draw and a position draw for each,
but no position draw into the empty accumulator. -/
def drawsNeeded (m n : Nat) : Nat := if n = 0 then 0 else if m = 0 then 2 * n - 1 else 2 * n

/-- The class the loop `p` of `Generate` draws from (pgen.go:105, 120, 135). -/
def phasePool (g : Generator) (noUppercase : Bool) : Phase → GoString
  | .letters => letterPool g noUppercase
  | .digits => g.digits
  | .symbols => g.symbols

/-- The bound of the loop `p` of `Generate`: `chars`, `numDigits`, `numSymbols`
(pgen.go:104, 119, 134). -/
def phaseCount (length numDigits numSymbols : Int) : Phase → Int
  | .letters => wrap64 (wrap64 (length - numDigits) - numSymbols)
  | .digits => numDigits
  | .symbols => numSymbols

/-- `strings.Join(elems, sep)`. -/
def stringsJoin : List GoString → GoString → GoString
  | [], _ => []
  | [a], _ => a
  | a :: b :: rest, sep => a ++ sep ++ stringsJoin (b :: rest) sep

/-- The command-line flags of `main` (main.go:15-24) that decide its output. -/
structure Flags where
  length : Int
  numDigits : Int
  numSymbols : Int
  noUppercase : Bool
  allowRepeat : Bool
  loops : Int
  noClipboard : Bool
  printVersion : Bool

/-- What `main` meets outside the program: the host, the variable `DISPLAY`,
whether `clipboard.WriteAll` fails, and the outcomes of the random source the
i-th call of `pgen.Generate` sees. -/
structure Host where
  linux : Bool
  display : GoString
  clipboardFails : Bool
  draws : Nat → RNG

/-- How a run of `main` ends: after `fmt.Println(result)`, with the bytes
written to standard output; after the banner of `--version`; in `log.Fatal`
on an error of `Generate` or of the clipboard; or with a call of `Generate`
that did not return. -/
inductive MainResult where
  | printed (stdout : GoString)
  | versionShown
  | fatal (err : GoError)
  | clipboardFatal
  | aborted (o : Outcome)
  deriving DecidableEq, Repr

/-- The loop `for i := 0; i < *loops; i++` of `main` (main.go:52-58), with the
number of iterations still to run, the loop variable and the slice
`passwords`. -/
def generateCopies (f : Flags) (draws : Nat → RNG) :
    Nat → Nat → List GoString → Except MainResult (List GoString)
  | 0, _, passwords => .ok passwords
  | remaining + 1, i, passwords =>
    match Generate f.length f.numDigits f.numSymbols f.noUppercase f.allowRepeat (draws i) with
    | .returned result none => generateCopies f draws remaining (i + 1) (passwords ++ [result])
    | .returned _ (some err) => .error (.fatal err)
    | o => .error (.aborted o)

/-- The function `main` (main.go:38-70); `fmt.Println(result)` writes `result`
and a line feed. -/
def main (f : Flags) (host : Host) : MainResult :=
  if f.printVersion then .versionShown
  else
    match generateCopies f host.draws f.loops.toNat 0 [] with
    | .error r => r
    | .ok passwords =>
      let result := stringsJoin passwords [10]
      let isInLinuxTerminal := host.linux && decide (host.display = [])
      if !isInLinuxTerminal && !f.noClipboard then
        if host.clipboardFails then .clipboardFatal else .printed (result ++ [10])
      else .printed (result ++ [10])

/-- The flags `-length 3 -digits 1 -symbols 1 -copies 2`. -/
def flagsTwoCopies : Flags :=
  { length := 3, numDigits := 1, numSymbols := 1, noUppercase := true, allowRepeat := true,
    loops := 2, noClipboard := false, printVersion := false }

/-- A Linux host without display, on which both calls see `drawsSmall`. -/
def hostSmall : Host :=
  { linux := true, display := [], clipboardFails := true, draws := fun _ => drawsSmall }

/-- Draws for `Generate(30, 10, 0, true, false)` on which the letter loop runs
to its end and the first draw of the digit loop fails: the 39 draws of
`drawsSaturate` that splice the letters `a` to `t`, then a failure of the
random source. -/
def drawsDigitFailure : RNG := drawsSaturate.take 39 ++ [.failure 7]

/-- Overrides that replace the lowercase class by `"aa"` and leave the other
classes to their defaults. -/
def inputAs : GenInput :=
  { lowercase_input := ascii "aa", uppercase_input := [], digits_input := [],
    symbols_input := [] }

/-- The generator `NewGenerator` builds from `inputAs`. -/
def generatorAs : Generator := (NewGenerator (some inputAs)).1

/-- The condition `!isInLinuxTerminal && !*noClipboard` of main.go:62-63 under
which `main` calls `clipboard.WriteAll`. -/
def clipboardAttempted (f : Flags) (host : Host) : Bool :=
  !(host.linux && decide (host.display = [])) && !f.noClipboard

/-- A host that is not Linux, with a working clipboard, on which every call
sees `drawsSmall`. -/
def hostDesktop : Host :=
  { linux := false, display := [], clipboardFails := false, draws := fun _ => drawsSmall }

/-! ## Strings -/

theorem contains_single (s : GoString) (b : Nat) : Contains s [b] = true ↔ b ∈ s := by
  induction s with
  | nil => simp [Contains, List.isPrefixOf]
  | cons a s ih =>
    simp only [Contains, List.isPrefixOf, Bool.or_eq_true, ih, List.mem_cons, Bool.and_true]
    constructor
    · rintro (h | h)
      · left; simpa using h
      · right; exact h
    · rintro (h | h)
      · left; simpa using h
      · right; exact h

theorem byteToString_ascii {b : Nat} (h : b < 128) : byteToString b = [b] := by
  simp [byteToString, h]

/-! ## The random source -/

theorem randInt_ret {max : Int} {rng rng1 : RNG} {r : Except GoError Nat}
    (h : randInt max rng = .ret r rng1) :
    0 < max ∧ ((∃ e, rng = .failure e :: rng1 ∧ r = .error (.randErr e)) ∨
      (∃ v, rng = .value v :: rng1 ∧ r = .ok (v % max.toNat))) := by
  unfold randInt at h
  split at h
  · cases h
  · rename_i hmax
    refine ⟨by omega, ?_⟩
    split at h
    · cases h
    · cases h; left; exact ⟨_, rfl, rfl⟩
    · cases h; right; exact ⟨_, rfl, rfl⟩

theorem randomElement_ok {s : GoString} {rng rng1 : RNG} {ch : GoString}
    (h : randomElement s rng = .ret (ch, none) rng1) :
    ∃ b v, b ∈ s ∧ ch = byteToString b ∧ rng = .value v :: rng1 := by
  unfold randomElement at h
  split at h
  · cases h
  · cases h
  · cases h
  · rename_i n rng2 hr
    split at h
    · cases h
    · rename_i b hb
      cases h
      obtain ⟨_, hcase⟩ := randInt_ret hr
      rcases hcase with ⟨e, _, he⟩ | ⟨v, hv, _⟩
      · cases he
      · exact ⟨b, v, List.getElem?_mem hb, rfl, hv⟩

theorem randomElement_err {s : GoString} {rng rng1 : RNG} {ch : GoString} {err : GoError}
    (h : randomElement s rng = .ret (ch, some err) rng1) :
    ∃ e, rng = .failure e :: rng1 ∧ err = .randErr e ∧ ch = [] := by
  unfold randomElement at h
  split at h
  · cases h
  · cases h
  · rename_i err1 rng2 hr
    cases h
    obtain ⟨_, hcase⟩ := randInt_ret hr
    rcases hcase with ⟨e, hv, he⟩ | ⟨v, _, he⟩
    · cases he; exact ⟨e, hv, rfl, rfl⟩
    · cases he
  · split at h
    · cases h
    · cases h

theorem randomInsert_ok {s ch : GoString} {rng rng1 : RNG} {r : GoString}
    (h : randomInsert s ch rng = .ret (r, none) rng1) :
    (∃ i, i ≤ s.length ∧ r = s.take i ++ ch ++ s.drop i) ∧
      (rng1 = rng ∨ ∃ v, rng = .value v :: rng1) := by
  unfold randomInsert at h
  split at h
  · rename_i hs
    cases h
    subst hs
    exact ⟨⟨0, by simp, by simp⟩, Or.inl rfl⟩
  · split at h
    · cases h
    · cases h
    · cases h
    · rename_i i rng2 hr
      split at h
      · rename_i hi
        cases h
        obtain ⟨_, hcase⟩ := randInt_ret hr
        rcases hcase with ⟨e, _, he⟩ | ⟨v, hv, _⟩
        · cases he
        · exact ⟨⟨i, hi, rfl⟩, Or.inr ⟨v, hv⟩⟩
      · cases h

theorem randomInsert_err {s ch : GoString} {rng rng1 : RNG} {r : GoString} {err : GoError}
    (h : randomInsert s ch rng = .ret (r, some err) rng1) :
    ∃ e, rng = .failure e :: rng1 ∧ err = .randErr e ∧ r = [] := by
  unfold randomInsert at h
  split at h
  · cases h
  · split at h
    · cases h
    · cases h
    · rename_i err1 rng2 hr
      cases h
      obtain ⟨_, hcase⟩ := randInt_ret hr
      rcases hcase with ⟨e, hv, he⟩ | ⟨v, _, he⟩
      · cases he; exact ⟨e, hv, rfl, rfl⟩
      · cases he
    · split at h
      · cases h
      · cases h

theorem splice_perm (s ch : GoString) (i : Nat) : (s.take i ++ ch ++ s.drop i).Perm (ch ++ s) := by
  have h1 : (s.take i ++ ch ++ s.drop i).Perm (ch ++ (s.take i ++ s.drop i)) := by
    rw [List.append_assoc]
    exact List.perm_append_comm_assoc _ _ _
  simpa using h1

/-! ## The loops -/

/-- A loop that falls through has spliced `max (count - i) 0` bytes of its
class into the accumulator; without repeats these are distinct and new. -/
theorem phaseLoop_next {ph : Phase} {pool : GoString} {count : Int} {ar : Bool}
    (hpool : isAscii pool) :
    ∀ (fuel : Nat) (i : Int) (result : GoString) (rng : RNG) (result' : GoString) (rng' : RNG),
      phaseLoop ph pool count ar fuel i result rng = .next result' rng' →
      ∃ added : GoString, result'.Perm (added ++ result) ∧ (∀ b ∈ added, b ∈ pool) ∧
        (added.length : Int) = max (count - i) 0 ∧
        (ar = false → added.Nodup ∧ ∀ b ∈ added, b ∉ result) ∧
        (∃ used, rng = used ++ rng') := by
  intro fuel
  induction fuel with
  | zero => intro i result rng result' rng' h; simp [phaseLoop] at h
  | succ fuel ih =>
    intro i result rng result' rng' h
    simp only [phaseLoop] at h
    split at h
    · rename_i hlt
      split at h
      · cases h
      · cases h
      · cases h
      · rename_i ch rng1 hel
        obtain ⟨b, v, hb, hch, hrng⟩ := randomElement_ok hel
        rw [byteToString_ascii (hpool b hb)] at hch
        subst hch
        split at h
        · rename_i hrej
          have hi : i - 1 + 1 = i := by omega
          rw [hi] at h
          obtain ⟨added, hperm, hmem, hlen, hnd, used, hused⟩ := ih i result rng1 result' rng' h
          exact ⟨added, hperm, hmem, hlen, hnd, .value v :: used, by simp [hrng, hused]⟩
        · rename_i hacc
          split at h
          · cases h
          · cases h
          · cases h
          · rename_i result1 rng2 hins
            obtain ⟨⟨k, _, hk⟩, hrng2⟩ := randomInsert_ok hins
            have hp1 : result1.Perm (b :: result) := by
              rw [hk]; exact splice_perm result [b] k
            obtain ⟨added, hperm, hmem, hlen, hnd, used, hused⟩ :=
              ih (i + 1) result1 rng2 result' rng' h
            refine ⟨added ++ [b], ?_, ?_, ?_, ?_, ?_⟩
            · have h2 : (added ++ result1).Perm (added ++ (b :: result)) := hp1.append_left added
              have h3 : added ++ (b :: result) = (added ++ [b]) ++ result := by simp
              rw [← h3]
              exact hperm.trans h2
            · intro x hx
              rcases List.mem_append.1 hx with hx | hx
              · exact hmem x hx
              · simp at hx; subst hx; exact hb
            · simp only [List.length_append, List.length_singleton, Nat.cast_add, Nat.cast_one, hlen]
              omega
            · intro har
              obtain ⟨hnd1, hnew⟩ := hnd har
              have hbres : b ∉ result := by
                intro hin
                apply hacc
                simp [har, (contains_single result b).2 hin]
              have hb1 : b ∈ result1 := hp1.symm.subset (List.mem_cons_self b result)
              have hbadd : b ∉ added := fun hin => hnew b hin hb1
              refine ⟨?_, ?_⟩
              · rw [List.nodup_append]
                refine ⟨hnd1, List.nodup_singleton b, ?_⟩
                intro x hx hx'
                simp at hx'
                subst hx'
                exact hbadd hx
              · intro x hx
                rcases List.mem_append.1 hx with hx | hx
                · intro hin
                  exact hnew x hx (hp1.symm.subset (List.mem_cons_of_mem b hin))
                · simp at hx; subst hx; exact hbres
            · rcases hrng2 with h1 | ⟨w, hw⟩
              · exact ⟨.value v :: used, by simp [hrng, h1.symm, hused]⟩
              · exact ⟨.value v :: .value w :: used, by simp [hrng, hw, hused]⟩
    · rename_i hge
      cases h
      exact ⟨[], by simp, by simp, by simp; omega, by simp, [], by simp⟩

/-- A loop leaves `Generate` with a return value only after a failed draw;
the value is the empty string, with `nil` or the error of the random source. -/
theorem phaseLoop_exit_returned {ph : Phase} {pool : GoString} {count : Int} {ar : Bool} :
    ∀ (fuel : Nat) (i : Int) (result : GoString) (rng : RNG) (s : GoString) (err : Option GoError),
      phaseLoop ph pool count ar fuel i result rng = .exit (.returned s err) →
      s = [] ∧ (err = none ∨ ∃ e, err = some (.randErr e)) ∧ ∃ e, RandOutcome.failure e ∈ rng := by
  intro fuel
  induction fuel with
  | zero => intro i result rng s err h; simp [phaseLoop] at h
  | succ fuel ih =>
    intro i result rng s err h
    simp only [phaseLoop] at h
    split at h
    · split at h
      · cases h
      · cases h
      · rename_i ch err1 rng1 hel
        obtain ⟨e, hrng, herr, _⟩ := randomElement_err hel
        cases h
        refine ⟨rfl, ?_, e, by simp [hrng]⟩
        cases ph
        · right; exact ⟨e, by simp [elementFailure, herr]⟩
        · left; rfl
        · left; rfl
      · rename_i ch rng1 hel
        obtain ⟨b, v, hb, hch, hrng⟩ := randomElement_ok hel
        split at h
        · obtain ⟨h1, h2, e, he⟩ := ih _ _ _ _ _ h
          exact ⟨h1, h2, e, by simp [hrng, he]⟩
        · split at h
          · cases h
          · cases h
          · rename_i r err1 rng2 hins
            obtain ⟨e, hrng1, herr, _⟩ := randomInsert_err hins
            cases h
            exact ⟨rfl, Or.inr ⟨e, by simp [herr]⟩, e, by simp [hrng, hrng1]⟩
          · rename_i result1 rng2 hins
            obtain ⟨_, hrng2⟩ := randomInsert_ok hins
            obtain ⟨h1, h2, e, he⟩ := ih _ _ _ _ _ h
            refine ⟨h1, h2, e, ?_⟩
            rcases hrng2 with h3 | ⟨w, hw⟩
            · simp [hrng, ← h3, he]
            · simp [hrng, hw, he]
    · cases h

/-- The iteration bound `rng.length + 1` is never the reason a loop stops. -/
theorem phaseLoop_fuel {ph : Phase} {pool : GoString} {count : Int} {ar : Bool} :
    ∀ (fuel : Nat) (i : Int) (result : GoString) (rng : RNG), rng.length < fuel →
      phaseLoop ph pool count ar fuel i result rng ≠ .exit .fuelOut := by
  intro fuel
  induction fuel with
  | zero => intro i result rng hlt; omega
  | succ fuel ih =>
    intro i result rng hlt h
    simp only [phaseLoop] at h
    split at h
    · split at h
      · cases h
      · cases h
      · cases h
      · rename_i ch rng1 hel
        obtain ⟨b, v, hb, hch, hrng⟩ := randomElement_ok hel
        have hl1 : rng1.length < fuel := by
          rw [hrng] at hlt; simp at hlt; omega
        split at h
        · exact ih _ _ _ hl1 h
        · split at h
          · cases h
          · cases h
          · cases h
          · rename_i result1 rng2 hins
            obtain ⟨_, hrng2⟩ := randomInsert_ok hins
            refine ih _ _ _ ?_ h
            rcases hrng2 with h3 | ⟨w, hw⟩
            · rw [h3]; exact hl1
            · rw [hw] at hl1; simp at hl1; omega
    · cases h

/-! ## `Generate`: pre-checks, then the three loops -/

theorem wrap64_sub (x y : Int) : wrap64 (wrap64 x - y) = wrap64 (x - y) := by
  unfold wrap64; omega

theorem wrap64_of_isInt64 {x : Int} (h : isInt64 x) : wrap64 x = x := by
  unfold isInt64 at h; unfold wrap64; omega

theorem Generate_preCheck_some {g : Generator} {length numDigits numSymbols : Int}
    {noUppercase allowRepeat : Bool} {e : GoError}
    (h : preCheck g length numDigits numSymbols noUppercase allowRepeat = some e) (rng : RNG) :
    g.Generate length numDigits numSymbols noUppercase allowRepeat rng = .returned [] (some e) := by
  unfold preCheck at h
  unfold Generator.Generate
  simp only at h ⊢
  split_ifs at h ⊢ <;> simp_all

theorem Generate_preCheck_none {g : Generator} {length numDigits numSymbols : Int}
    {noUppercase allowRepeat : Bool}
    (h : preCheck g length numDigits numSymbols noUppercase allowRepeat = none) (rng : RNG) :
    g.Generate length numDigits numSymbols noUppercase allowRepeat rng =
      match phaseLoop .letters (letterPool g noUppercase)
          (wrap64 (wrap64 (length - numDigits) - numSymbols)) allowRepeat (rng.length + 1) 0 [] rng with
      | .exit o => o
      | .next result rng1 =>
        match phaseLoop .digits g.digits numDigits allowRepeat (rng1.length + 1) 0 result rng1 with
        | .exit o => o
        | .next result rng2 =>
          match phaseLoop .symbols g.symbols numSymbols allowRepeat (rng2.length + 1) 0 result rng2 with
          | .exit o => o
          | .next result _ => .returned result none := by
  unfold preCheck at h
  unfold Generator.Generate letterPool
  simp only at h ⊢
  split_ifs at h ⊢ <;> simp_all

/-- What a returned pair can be: a pre-check error, or the empty string after
a failed draw, or the accumulator after the three loops. -/
theorem Generate_returned {g : Generator} {length numDigits numSymbols : Int}
    {noUppercase allowRepeat : Bool} {rng : RNG} {pw : GoString} {err : Option GoError}
    (hl : isAscii (letterPool g noUppercase)) (hd : isAscii g.digits) (hs : isAscii g.symbols)
    (h : g.Generate length numDigits numSymbols noUppercase allowRepeat rng = .returned pw err) :
    (∃ e, preCheck g length numDigits numSymbols noUppercase allowRepeat = some e ∧
        pw = [] ∧ err = some e) ∨
    (preCheck g length numDigits numSymbols noUppercase allowRepeat = none ∧ pw = [] ∧
        (err = none ∨ ∃ e, err = some (.randErr e)) ∧ ∃ e, RandOutcome.failure e ∈ rng) ∨
    (preCheck g length numDigits numSymbols noUppercase allowRepeat = none ∧ err = none ∧
      ∃ la da sa : GoString, pw.Perm (sa ++ (da ++ la)) ∧
        (∀ b ∈ la, b ∈ letterPool g noUppercase) ∧ (∀ b ∈ da, b ∈ g.digits) ∧
        (∀ b ∈ sa, b ∈ g.symbols) ∧
        (la.length : Int) = max (wrap64 (wrap64 (length - numDigits) - numSymbols)) 0 ∧
        (da.length : Int) = max numDigits 0 ∧ (sa.length : Int) = max numSymbols 0 ∧
        (allowRepeat = false → (sa ++ (da ++ la)).Nodup)) := by
  cases hpc : preCheck g length numDigits numSymbols noUppercase allowRepeat with
  | some e =>
    left
    rw [Generate_preCheck_some hpc rng] at h
    cases h
    exact ⟨e, rfl, rfl, rfl⟩
  | none =>
    right
    rw [Generate_preCheck_none hpc rng] at h
    split at h
    · rename_i o h1
      subst h
      obtain ⟨hpw, herr, hf⟩ := phaseLoop_exit_returned _ _ _ _ _ _ h1
      exact Or.inl ⟨rfl, hpw, herr, hf⟩
    · rename_i r1 rng1 h1
      obtain ⟨la, hp1, hm1, hn1, hnd1, u1, hu1⟩ := phaseLoop_next hl _ _ _ _ _ _ h1
      split at h
      · rename_i o h2
        subst h
        obtain ⟨hpw, herr, e, hf⟩ := phaseLoop_exit_returned _ _ _ _ _ _ h2
        exact Or.inl ⟨rfl, hpw, herr, e, by simp [hu1, hf]⟩
      · rename_i r2 rng2 h2
        obtain ⟨da, hp2, hm2, hn2, hnd2, u2, hu2⟩ := phaseLoop_next hd _ _ _ _ _ _ h2
        split at h
        · rename_i o h3
          subst h
          obtain ⟨hpw, herr, e, hf⟩ := phaseLoop_exit_returned _ _ _ _ _ _ h3
          exact Or.inl ⟨rfl, hpw, herr, e, by simp [hu1, hu2, hf]⟩
        · rename_i r3 rng3 h3
          obtain ⟨sa, hp3, hm3, hn3, hnd3, u3, hu3⟩ := phaseLoop_next hs _ _ _ _ _ _ h3
          cases h
          simp only [List.append_nil] at hp1
          have hr2 : r2.Perm (da ++ la) := hp2.trans (hp1.append_left da)
          have hpw : pw.Perm (sa ++ (da ++ la)) := hp3.trans (hr2.append_left sa)
          refine Or.inr ⟨rfl, rfl, la, da, sa, hpw, hm1, hm2, hm3, ?_, ?_, ?_, ?_⟩
          · simpa using hn1
          · simpa using hn2
          · simpa using hn3
          · intro har
            obtain ⟨n1, _⟩ := hnd1 har
            obtain ⟨n2, f2⟩ := hnd2 har
            obtain ⟨n3, f3⟩ := hnd3 har
            have hdl : (da ++ la).Nodup := by
              rw [List.nodup_append]
              refine ⟨n2, n1, ?_⟩
              intro x hx hx'
              exact f2 x hx (hp1.symm.subset hx')
            rw [List.nodup_append]
            refine ⟨n3, hdl, ?_⟩
            intro x hx hx'
            exact f3 x hx (hr2.symm.subset hx')

/-- An error of the pre-check table comes from the pre-checks and from nowhere
else, for every generator. -/
theorem Generate_preCheck_error {g : Generator} {length numDigits numSymbols : Int}
    {noUppercase allowRepeat : Bool} {rng : RNG} {s : GoString} {e : GoError}
    (h : g.Generate length numDigits numSymbols noUppercase allowRepeat rng = .returned s (some e))
    (he : e.isPreCheck = true) :
    preCheck g length numDigits numSymbols noUppercase allowRepeat = some e ∧ s = [] := by
  cases hpc : preCheck g length numDigits numSymbols noUppercase allowRepeat with
  | some e1 =>
    rw [Generate_preCheck_some hpc rng] at h
    cases h
    exact ⟨rfl, rfl⟩
  | none =>
    exfalso
    have hrand : ∀ (ph : Phase) (pool : GoString) (count : Int) (fuel : Nat) (i : Int)
        (result : GoString) (rng0 : RNG),
        phaseLoop ph pool count allowRepeat fuel i result rng0 ≠ .exit (.returned s (some e)) := by
      intro ph pool count fuel i result rng0 hx
      obtain ⟨_, herr, _⟩ := phaseLoop_exit_returned _ _ _ _ _ _ hx
      rcases herr with h0 | ⟨k, hk⟩
      · cases h0
      · cases hk; simp [GoError.isPreCheck] at he
    rw [Generate_preCheck_none hpc rng] at h
    split at h
    · rename_i o h1; subst h; exact hrand _ _ _ _ _ _ _ h1
    · split at h
      · rename_i o h2; subst h; exact hrand _ _ _ _ _ _ _ h2
      · split at h
        · rename_i o h3; subst h; exact hrand _ _ _ _ _ _ _ h3
        · cases h

/-- The iteration bound of the loops never decides the outcome of `Generate`:
on every outcome list the call returns, panics, or is short of a draw. -/
theorem Generate_ne_fuelOut (g : Generator) (length numDigits numSymbols : Int)
    (noUppercase allowRepeat : Bool) (rng : RNG) :
    g.Generate length numDigits numSymbols noUppercase allowRepeat rng ≠ .fuelOut := by
  intro h
  cases hpc : preCheck g length numDigits numSymbols noUppercase allowRepeat with
  | some e1 =>
    rw [Generate_preCheck_some hpc rng] at h
    cases h
  | none =>
    rw [Generate_preCheck_none hpc rng] at h
    split at h
    · rename_i o h1; subst h
      exact phaseLoop_fuel _ _ _ _ (Nat.lt_succ_self _) h1
    · split at h
      · rename_i o h2; subst h
        exact phaseLoop_fuel _ _ _ _ (Nat.lt_succ_self _) h2
      · split at h
        · rename_i o h3; subst h
          exact phaseLoop_fuel _ _ _ _ (Nat.lt_succ_self _) h3
        · cases h

/-- Without overflow in `length - numDigits - numSymbols` the pre-checks of the
code are the table of the specification. -/
theorem preCheck_eq_table (g : Generator) (length numDigits numSymbols : Int)
    (noUppercase allowRepeat : Bool) (hov : isInt64 (length - numDigits - numSymbols)) :
    preCheck g length numDigits numSymbols noUppercase allowRepeat =
      tablePreCheck g length numDigits numSymbols noUppercase allowRepeat := by
  have hchars : wrap64 (wrap64 (length - numDigits) - numSymbols) = length - numDigits - numSymbols := by
    rw [wrap64_sub, wrap64_of_isInt64 hov]
  unfold preCheck tablePreCheck letterPool
  simp only [hchars]
  cases allowRepeat <;> simp <;> split_ifs <;> first | rfl | omega

/-! ## The default generator -/

theorem defaultGenerator_eq : defaultGenerator =
    { lowercase := Lowercase, uppercase := Uppercase, digits := Digits, symbols := Symbols } := by
  decide

theorem Generate_eq_default (length numDigits numSymbols : Int) (noUppercase allowRepeat : Bool)
    (rng : RNG) : Generate length numDigits numSymbols noUppercase allowRepeat rng =
      defaultGenerator.Generate length numDigits numSymbols noUppercase allowRepeat rng := rfl

theorem default_letterPool (noUppercase : Bool) : letterPool defaultGenerator noUppercase =
    if noUppercase then Lowercase else Lowercase ++ Uppercase := by
  cases noUppercase <;> simp [letterPool, defaultGenerator_eq]

theorem default_letters_ascii (noUppercase : Bool) :
    isAscii (letterPool defaultGenerator noUppercase) := by
  rw [default_letterPool]; unfold isAscii; cases noUppercase <;> decide

theorem default_digits_ascii : isAscii defaultGenerator.digits := by
  rw [defaultGenerator_eq]; unfold isAscii; decide

theorem default_symbols_ascii : isAscii defaultGenerator.symbols := by
  rw [defaultGenerator_eq]; unfold isAscii; decide

theorem default_letters_disjoint (noUppercase : Bool) :
    ∀ b ∈ letterPool defaultGenerator noUppercase, b ∉ Digits ∧ b ∉ Symbols := by
  rw [default_letterPool]; cases noUppercase <;> decide

theorem default_digits_disjoint (noUppercase : Bool) :
    ∀ b ∈ Digits, b ∉ letterPool defaultGenerator noUppercase ∧ b ∉ Symbols := by
  rw [default_letterPool]; cases noUppercase <;> decide

theorem default_symbols_disjoint (noUppercase : Bool) :
    ∀ b ∈ Symbols, b ∉ letterPool defaultGenerator noUppercase ∧ b ∉ Digits := by
  rw [default_letterPool]; cases noUppercase <;> decide

/-- The three ways the default generator returns, with the classes named. -/
theorem default_returned {length numDigits numSymbols : Int} {noUppercase allowRepeat : Bool}
    {rng : RNG} {pw : GoString} {err : Option GoError}
    (h : Generate length numDigits numSymbols noUppercase allowRepeat rng = .returned pw err) :
    (∃ e, preCheck defaultGenerator length numDigits numSymbols noUppercase allowRepeat = some e ∧
        pw = [] ∧ err = some e) ∨
    (preCheck defaultGenerator length numDigits numSymbols noUppercase allowRepeat = none ∧
        pw = [] ∧ (err = none ∨ ∃ e, err = some (.randErr e)) ∧
        ∃ e, RandOutcome.failure e ∈ rng) ∨
    (preCheck defaultGenerator length numDigits numSymbols noUppercase allowRepeat = none ∧
      err = none ∧
      ∃ la da sa : GoString, pw.Perm (sa ++ (da ++ la)) ∧
        (∀ b ∈ la, b ∈ letterPool defaultGenerator noUppercase) ∧ (∀ b ∈ da, b ∈ Digits) ∧
        (∀ b ∈ sa, b ∈ Symbols) ∧
        (la.length : Int) = max (wrap64 (wrap64 (length - numDigits) - numSymbols)) 0 ∧
        (da.length : Int) = max numDigits 0 ∧ (sa.length : Int) = max numSymbols 0 ∧
        (allowRepeat = false → (sa ++ (da ++ la)).Nodup)) := by
  rw [Generate_eq_default] at h
  have key := Generate_returned (default_letters_ascii noUppercase) default_digits_ascii
    default_symbols_ascii h
  simpa [defaultGenerator_eq] using key

theorem not_failure_of_allDrawsSucceed {rng : RNG} (h : allDrawsSucceed rng) :
    ¬ ∃ e, RandOutcome.failure e ∈ rng := by
  rintro ⟨e, he⟩
  have := h _ he
  simp [RandOutcome.isValue] at this

theorem countP_class_all {l cls : GoString} (h : ∀ b ∈ l, b ∈ cls) :
    l.countP (fun b => decide (b ∈ cls)) = l.length := by
  rw [List.countP_eq_length]
  intro b hb
  simpa using h b hb

theorem countP_class_none {l cls : GoString} (h : ∀ b ∈ l, b ∉ cls) :
    l.countP (fun b => decide (b ∈ cls)) = 0 := by
  rw [List.countP_eq_zero]
  intro b hb
  simpa using h b hb

/-- A request that passes the table on non-negative machine integers passes
the pre-checks of the code, and its letter count is not wrapped. -/
theorem table_pass {g : Generator} {length numDigits numSymbols : Int}
    {noUppercase allowRepeat : Bool} (hlen : isInt64 length) (hd : 0 ≤ numDigits)
    (hs : 0 ≤ numSymbols)
    (hpre : tablePreCheck g length numDigits numSymbols noUppercase allowRepeat = none) :
    preCheck g length numDigits numSymbols noUppercase allowRepeat = none ∧
      wrap64 (wrap64 (length - numDigits) - numSymbols) = length - numDigits - numSymbols ∧
      0 ≤ length - numDigits - numSymbols := by
  have hle : numDigits + numSymbols ≤ length := by
    unfold tablePreCheck at hpre
    split_ifs at hpre
    omega
  have hov : isInt64 (length - numDigits - numSymbols) := by
    unfold isInt64 at hlen ⊢; omega
  refine ⟨by rw [preCheck_eq_table _ _ _ _ _ _ hov]; exact hpre, ?_, by omega⟩
  rw [wrap64_sub, wrap64_of_isInt64 hov]

/-! ## Output invariants of the default generator -/

/-- C1 (length). For the default generator, non-negative machine integers
`length`, `numDigits`, `numSymbols` that pass the four pre-checks of the table,
both values of `noUppercase` and `allowRepeat`, and every outcome list whose
draws all succeed: if `Generate` returns, the password has exactly `length`
bytes and the error is nil. And `Generate(0, 0, 0, true, true)` returns the
empty string and nil on every outcome list. -/
theorem generate_length :
    (∀ (length numDigits numSymbols : Int) (noUppercase allowRepeat : Bool) (rng : RNG)
      (pw : GoString) (err : Option GoError),
      isInt64 length → 0 ≤ numDigits → 0 ≤ numSymbols →
      tablePreCheck defaultGenerator length numDigits numSymbols noUppercase allowRepeat = none →
      allDrawsSucceed rng →
      Generate length numDigits numSymbols noUppercase allowRepeat rng = .returned pw err →
      (pw.length : Int) = length ∧ err = none) ∧
    (∀ rng : RNG, Generate 0 0 0 true true rng = .returned [] none) := by
  constructor
  · intro length numDigits numSymbols noUppercase allowRepeat rng pw err hlen hd hs hpre hrng hret
    obtain ⟨hpc, hchars, hnn⟩ := table_pass hlen hd hs hpre
    rcases default_returned hret with ⟨e, he, _, _⟩ | ⟨_, _, _, hf⟩ | ⟨_, herr, la, da, sa, hperm, _, _, _, hla, hda, hsa, _⟩
    · rw [hpc] at he; cases he
    · exact absurd hf (not_failure_of_allDrawsSucceed hrng)
    · refine ⟨?_, herr⟩
      rw [hperm.length_eq]
      simp only [List.length_append, Nat.cast_add, hla, hda, hsa, hchars]
      omega
  · intro rng
    cases rng <;> rfl

/-- Witness of C1: `Generate(3, 1, 1, true, true)` on `drawsSmall` returns the
three bytes `a@6`. -/
theorem generate_length_witness :
    Generate 3 1 1 true true drawsSmall = .returned [97, 64, 54] none ∧
      ((([97, 64, 54] : GoString).length : Int) = 3 ∧ (none : Option GoError) = none) :=
  ⟨by decide,
   generate_length.1 3 1 1 true true drawsSmall [97, 64, 54] none (by decide) (by decide)
     (by decide) (by decide) (by decide) (by decide)⟩

/-- C2 (composition). For the default generator, non-negative machine integers
passing the four pre-checks of the table and every outcome list whose draws all
succeed: a returned password holds exactly `numDigits` bytes of `Digits`,
exactly `numSymbols` bytes of `Symbols`, and exactly
`length - numDigits - numSymbols` bytes of the letter pool (`Lowercase`, or
`Lowercase` followed by `Uppercase`). -/
theorem generate_composition (length numDigits numSymbols : Int)
    (noUppercase allowRepeat : Bool) (rng : RNG) (pw : GoString) (err : Option GoError)
    (hlen : isInt64 length) (hd : 0 ≤ numDigits) (hs : 0 ≤ numSymbols)
    (hpre : tablePreCheck defaultGenerator length numDigits numSymbols noUppercase allowRepeat = none)
    (hrng : allDrawsSucceed rng)
    (hret : Generate length numDigits numSymbols noUppercase allowRepeat rng = .returned pw err) :
    ((pw.countP (fun b => decide (b ∈ Digits)) : Nat) : Int) = numDigits ∧
    ((pw.countP (fun b => decide (b ∈ Symbols)) : Nat) : Int) = numSymbols ∧
    ((pw.countP (fun b => decide (b ∈ (if noUppercase then Lowercase else Lowercase ++ Uppercase))) : Nat) : Int)
      = length - numDigits - numSymbols := by
  obtain ⟨hpc, hchars, hnn⟩ := table_pass hlen hd hs hpre
  rcases default_returned hret with ⟨e, he, _, _⟩ | ⟨_, _, _, hf⟩ | ⟨_, herr, la, da, sa, hperm, hml, hmd, hms, hla, hda, hsa, _⟩
  · rw [hpc] at he; cases he
  · exact absurd hf (not_failure_of_allDrawsSucceed hrng)
  · rw [← default_letterPool]
    refine ⟨?_, ?_, ?_⟩
    · rw [hperm.countP_eq, List.countP_append, List.countP_append,
        countP_class_none (fun b hb => (default_symbols_disjoint noUppercase b (hms b hb)).2),
        countP_class_all hmd,
        countP_class_none (fun b hb => (default_letters_disjoint noUppercase b (hml b hb)).1)]
      simp only [Nat.zero_add, Nat.add_zero, hda]; omega
    · rw [hperm.countP_eq, List.countP_append, List.countP_append,
        countP_class_all hms,
        countP_class_none (fun b hb => (default_digits_disjoint noUppercase b (hmd b hb)).2),
        countP_class_none (fun b hb => (default_letters_disjoint noUppercase b (hml b hb)).2)]
      simp only [Nat.add_zero, hsa]; omega
    · rw [hperm.countP_eq, List.countP_append, List.countP_append,
        countP_class_none (fun b hb => (default_symbols_disjoint noUppercase b (hms b hb)).1),
        countP_class_none (fun b hb => (default_digits_disjoint noUppercase b (hmd b hb)).1),
        countP_class_all hml]
      simp only [Nat.zero_add, hla, hchars]; omega

/-- Witness of C2: the default command-line call `(16, 4, 6, true, true)` on
all-zero entropy returns `~~~~~~1111aaaaaa`: 4 digits, 6 symbols and 6
lowercase letters. -/
theorem generate_composition_witness :
    Generate 16 4 6 true true (drawsZero 31) =
        .returned [126, 126, 126, 126, 126, 126, 49, 49, 49, 49, 97, 97, 97, 97, 97, 97] none ∧
      ((([126, 126, 126, 126, 126, 126, 49, 49, 49, 49, 97, 97, 97, 97, 97, 97] : GoString).countP
          (fun b => decide (b ∈ Digits)) : Nat) : Int) = 4 ∧
      ((([126, 126, 126, 126, 126, 126, 49, 49, 49, 49, 97, 97, 97, 97, 97, 97] : GoString).countP
          (fun b => decide (b ∈ Symbols)) : Nat) : Int) = 6 ∧
      ((([126, 126, 126, 126, 126, 126, 49, 49, 49, 49, 97, 97, 97, 97, 97, 97] : GoString).countP
          (fun b => decide (b ∈ (if true then Lowercase else Lowercase ++ Uppercase))) : Nat) : Int)
        = 16 - 4 - 6 :=
  ⟨by decide,
   generate_composition 16 4 6 true true (drawsZero 31) _ none (by decide) (by decide)
     (by decide) (by decide) (by decide) (by decide)⟩

/-- C3 (no-repeat). For the default generator, whenever `Generate` is called
with `allowRepeat = false` and returns a password, the digits in it are
pairwise distinct, the symbols in it are pairwise distinct and the letters in
it are pairwise distinct. -/
theorem generate_no_repeat (length numDigits numSymbols : Int) (noUppercase : Bool)
    (rng : RNG) (pw : GoString) (err : Option GoError)
    (hret : Generate length numDigits numSymbols noUppercase false rng = .returned pw err) :
    (pw.filter (fun b => decide (b ∈ Digits))).Nodup ∧
    (pw.filter (fun b => decide (b ∈ Symbols))).Nodup ∧
    (pw.filter (fun b => decide (b ∈ (if noUppercase then Lowercase else Lowercase ++ Uppercase)))).Nodup := by
  have hnd : pw.Nodup := by
    rcases default_returned hret with ⟨e, _, hpw, _⟩ | ⟨_, hpw, _, _⟩ | ⟨_, _, la, da, sa, hperm, _, _, _, _, _, _, hnd⟩
    · rw [hpw]; exact List.nodup_nil
    · rw [hpw]; exact List.nodup_nil
    · exact hperm.nodup_iff.2 (hnd rfl)
  exact ⟨hnd.filter _, hnd.filter _, hnd.filter _⟩

/-- Witness of C3: `Generate(10, 0, 0, true, false)` on `drawsDistinct` returns
`jihgfedcba`, ten distinct lowercase letters. -/
theorem generate_no_repeat_witness :
    Generate 10 0 0 true false drawsDistinct =
        .returned [106, 105, 104, 103, 102, 101, 100, 99, 98, 97] none ∧
      (([106, 105, 104, 103, 102, 101, 100, 99, 98, 97] : GoString).filter
          (fun b => decide (b ∈ Digits))).Nodup ∧
      (([106, 105, 104, 103, 102, 101, 100, 99, 98, 97] : GoString).filter
          (fun b => decide (b ∈ Symbols))).Nodup ∧
      (([106, 105, 104, 103, 102, 101, 100, 99, 98, 97] : GoString).filter
          (fun b => decide (b ∈ (if true then Lowercase else Lowercase ++ Uppercase)))).Nodup :=
  ⟨by decide, generate_no_repeat 10 0 0 true drawsDistinct _ none (by decide)⟩

/-- C4 (class closure). For the default generator and every call of `Generate`
that returns, every byte of the password lies in the letter pool (`Lowercase`
when `noUppercase`, else `Lowercase` followed by `Uppercase`), in `Digits` or
in `Symbols`; no byte of `Uppercase` occurs when `noUppercase = true`. -/
theorem generate_class_closure (length numDigits numSymbols : Int)
    (noUppercase allowRepeat : Bool) (rng : RNG) (pw : GoString) (err : Option GoError)
    (hret : Generate length numDigits numSymbols noUppercase allowRepeat rng = .returned pw err) :
    (∀ b ∈ pw, b ∈ (if noUppercase then Lowercase else Lowercase ++ Uppercase) ∨
        b ∈ Digits ∨ b ∈ Symbols) ∧
    (noUppercase = true → ∀ b ∈ pw, b ∉ Uppercase) := by
  have hclos : ∀ b ∈ pw, b ∈ letterPool defaultGenerator noUppercase ∨ b ∈ Digits ∨ b ∈ Symbols := by
    rcases default_returned hret with ⟨e, _, hpw, _⟩ | ⟨_, hpw, _, _⟩ | ⟨_, _, la, da, sa, hperm, hml, hmd, hms, _⟩
    · rw [hpw]; simp
    · rw [hpw]; simp
    · intro b hb
      have hb1 : b ∈ sa ++ (da ++ la) := hperm.subset hb
      rcases List.mem_append.1 hb1 with h1 | h1
      · exact Or.inr (Or.inr (hms b h1))
      · rcases List.mem_append.1 h1 with h2 | h2
        · exact Or.inr (Or.inl (hmd b h2))
        · exact Or.inl (hml b h2)
  rw [default_letterPool] at hclos
  refine ⟨hclos, ?_⟩
  intro hnu b hb
  subst hnu
  have hdis : ∀ x, (x ∈ Lowercase ∨ x ∈ Digits ∨ x ∈ Symbols) → x ∉ Uppercase := by
    intro x hx hu
    have hall : ∀ y ∈ Uppercase, ¬ (y ∈ Lowercase ∨ y ∈ Digits ∨ y ∈ Symbols) := by decide
    exact hall x hu hx
  exact hdis b (by simpa using hclos b hb)

/-- Witness of C4: the three bytes `a@6` returned on `drawsSmall` lie in the
classes and are not uppercase. -/
theorem generate_class_closure_witness :
    Generate 3 1 1 true true drawsSmall = .returned [97, 64, 54] none ∧
      ((∀ b ∈ ([97, 64, 54] : GoString), b ∈ (if true then Lowercase else Lowercase ++ Uppercase) ∨
          b ∈ Digits ∨ b ∈ Symbols) ∧
        (true = true → ∀ b ∈ ([97, 64, 54] : GoString), b ∉ Uppercase)) :=
  ⟨by decide, generate_class_closure 3 1 1 true true drawsSmall _ none (by decide)⟩

/-! ## Pre-checks -/

/-- C5 (pre-check table and order). For every generator and all integers
`length`, `numDigits`, `numSymbols` whose difference
`length - numDigits - numSymbols` does not overflow: when a row of the table
fires, `Generate` returns the empty string and the error of the first row that
fires, on every outcome list; and `Generate` returns one of the four errors
only when its row is the first that fires. -/
theorem generate_precheck_table (g : Generator) (length numDigits numSymbols : Int)
    (noUppercase allowRepeat : Bool) (hov : isInt64 (length - numDigits - numSymbols)) :
    (∀ e, tablePreCheck g length numDigits numSymbols noUppercase allowRepeat = some e →
      ∀ rng, g.Generate length numDigits numSymbols noUppercase allowRepeat rng =
        .returned [] (some e)) ∧
    (∀ rng s e,
      g.Generate length numDigits numSymbols noUppercase allowRepeat rng = .returned s (some e) →
      e.isPreCheck = true →
      s = [] ∧ tablePreCheck g length numDigits numSymbols noUppercase allowRepeat = some e) := by
  have heq := preCheck_eq_table g length numDigits numSymbols noUppercase allowRepeat hov
  constructor
  · intro e he rng
    rw [← heq] at he
    exact Generate_preCheck_some he rng
  · intro rng s e h he
    obtain ⟨h1, h2⟩ := Generate_preCheck_error h he
    exact ⟨h2, by rw [← heq]; exact h1⟩

/-- Witness of C5: `(10, 11, 0)` gives `ErrExceedsTotalLength`, and
`(31, 11, 0, true, false)` gives `ErrDigitsExceedsAvailable`. -/
theorem generate_precheck_table_witness :
    (isInt64 (10 - 11 - 0) ∧
      defaultGenerator.Generate 10 11 0 true true [] =
        .returned [] (some .ErrExceedsTotalLength)) ∧
    (isInt64 (31 - 11 - 0) ∧
      defaultGenerator.Generate 31 11 0 true false [] =
        .returned [] (some .ErrDigitsExceedsAvailable)) :=
  ⟨⟨by decide,
    (generate_precheck_table defaultGenerator 10 11 0 true true (by decide)).1 _ (by decide) []⟩,
   ⟨by decide,
    (generate_precheck_table defaultGenerator 31 11 0 true false (by decide)).1 _ (by decide) []⟩⟩

/-- C6 (pre-check determinism). For every generator and request: when a
pre-check of the code fires with error `e`, `Generate` returns the empty string
and `e` on every outcome list, the empty list and the lists of failing draws
included; and whenever `Generate` returns one of the four errors on some
outcome list, it returns the same pair on every other one. -/
theorem generate_precheck_deterministic (g : Generator) (length numDigits numSymbols : Int)
    (noUppercase allowRepeat : Bool) (e : GoError) :
    (preCheck g length numDigits numSymbols noUppercase allowRepeat = some e →
      ∀ rng, g.Generate length numDigits numSymbols noUppercase allowRepeat rng =
        .returned [] (some e)) ∧
    (∀ rng s,
      g.Generate length numDigits numSymbols noUppercase allowRepeat rng = .returned s (some e) →
      e.isPreCheck = true →
      s = [] ∧ ∀ rng1, g.Generate length numDigits numSymbols noUppercase allowRepeat rng1 =
        .returned [] (some e)) := by
  constructor
  · intro he rng
    exact Generate_preCheck_some he rng
  · intro rng s h he
    obtain ⟨h1, h2⟩ := Generate_preCheck_error h he
    exact ⟨h2, fun rng1 => Generate_preCheck_some h1 rng1⟩

/-- Witness of C6: `(31, 11, 0, true, false)` returns
`ErrDigitsExceedsAvailable` when every draw would fail and when no draw is
available. -/
theorem generate_precheck_deterministic_witness :
    preCheck defaultGenerator 31 11 0 true false = some .ErrDigitsExceedsAvailable ∧
    defaultGenerator.Generate 31 11 0 true false [.failure 0, .failure 0, .failure 0] =
      .returned [] (some .ErrDigitsExceedsAvailable) ∧
    defaultGenerator.Generate 31 11 0 true false [] =
      .returned [] (some .ErrDigitsExceedsAvailable) :=
  ⟨by decide,
   (generate_precheck_deterministic defaultGenerator 31 11 0 true false
      .ErrDigitsExceedsAvailable).1 (by decide) _,
   (generate_precheck_deterministic defaultGenerator 31 11 0 true false
      .ErrDigitsExceedsAvailable).1 (by decide) _⟩

/-! ## Failures of the random source -/

/-- C7 (failing input). When the character draw of the digit loop or of the
symbol loop fails, `Generate` returns the empty string with a nil error
(pgen.go:122, pgen.go:137); the same failure in the letter loop returns the
error of the random source (pgen.go:107). -/
theorem generate_swallows_draw_failure :
    Generate 1 1 0 true true [.failure 7] = .returned [] none ∧
    Generate 1 0 1 true true [.failure 7] = .returned [] none ∧
    Generate 1 0 0 true true [.failure 7] = .returned [] (some (.randErr 7)) := by
  decide

/-! ## Construction and the default classes -/

/-- C8 (`NewGenerator` defaulting). `NewGenerator` returns a nil error on every
input; each class field is the override when the override is non-empty and the
default constant when it is empty; a nil input gives the four defaults; and the
four classes of the generator returned are non-empty. -/
theorem newGenerator_defaults :
    (∀ i : Option GenInput, (NewGenerator i).2 = none) ∧
    (∀ x : GenInput,
      (NewGenerator (some x)).1.lowercase =
        (if x.lowercase_input = [] then Lowercase else x.lowercase_input) ∧
      (NewGenerator (some x)).1.uppercase =
        (if x.uppercase_input = [] then Uppercase else x.uppercase_input) ∧
      (NewGenerator (some x)).1.digits =
        (if x.digits_input = [] then Digits else x.digits_input) ∧
      (NewGenerator (some x)).1.symbols =
        (if x.symbols_input = [] then Symbols else x.symbols_input)) ∧
    (NewGenerator none).1 =
      { lowercase := Lowercase, uppercase := Uppercase, digits := Digits, symbols := Symbols } ∧
    (∀ i : Option GenInput,
      (NewGenerator i).1.lowercase ≠ [] ∧ (NewGenerator i).1.uppercase ≠ [] ∧
      (NewGenerator i).1.digits ≠ [] ∧ (NewGenerator i).1.symbols ≠ []) := by
  have hL : Lowercase ≠ [] := by decide
  have hU : Uppercase ≠ [] := by decide
  have hD : Digits ≠ [] := by decide
  have hS : Symbols ≠ [] := by decide
  have hfields : ∀ x : GenInput,
      (NewGenerator (some x)).1.lowercase =
        (if x.lowercase_input = [] then Lowercase else x.lowercase_input) ∧
      (NewGenerator (some x)).1.uppercase =
        (if x.uppercase_input = [] then Uppercase else x.uppercase_input) ∧
      (NewGenerator (some x)).1.digits =
        (if x.digits_input = [] then Digits else x.digits_input) ∧
      (NewGenerator (some x)).1.symbols =
        (if x.symbols_input = [] then Symbols else x.symbols_input) := by
    intro x
    simp only [NewGenerator]
    refine ⟨?_, ?_, ?_, ?_⟩ <;> split_ifs <;> simp_all
  have hnone : (NewGenerator none).1 =
      { lowercase := Lowercase, uppercase := Uppercase, digits := Digits, symbols := Symbols } :=
    defaultGenerator_eq
  refine ⟨fun i => rfl, hfields, hnone, ?_⟩
  intro i
  cases i with
  | none => rw [hnone]; exact ⟨hL, hU, hD, hS⟩
  | some x =>
    obtain ⟨h1, h2, h3, h4⟩ := hfields x
    rw [h1, h2, h3, h4]
    refine ⟨?_, ?_, ?_, ?_⟩ <;> split_ifs <;> assumption

/-- C9 (default character classes). `Lowercase`, `Uppercase`, `Digits` and
`Symbols` have 26, 26, 10 and 30 bytes; none has a byte twice; the four are
pairwise disjoint; `Digits` holds exactly the bytes `0` to `9`, `Lowercase`
exactly `a` to `z` and `Uppercase` exactly `A` to `Z`. -/
theorem default_classes :
    (Lowercase.length = 26 ∧ Uppercase.length = 26 ∧ Digits.length = 10 ∧ Symbols.length = 30) ∧
    (Lowercase.Nodup ∧ Uppercase.Nodup ∧ Digits.Nodup ∧ Symbols.Nodup) ∧
    ((∀ b ∈ Lowercase, b ∉ Uppercase ∧ b ∉ Digits ∧ b ∉ Symbols) ∧
      (∀ b ∈ Uppercase, b ∉ Digits ∧ b ∉ Symbols) ∧ (∀ b ∈ Digits, b ∉ Symbols)) ∧
    (∀ b : Nat, b ∈ Digits ↔ '0'.toNat ≤ b ∧ b ≤ '9'.toNat) ∧
    (∀ b : Nat, b ∈ Lowercase ↔ 'a'.toNat ≤ b ∧ b ≤ 'z'.toNat) ∧
    (∀ b : Nat, b ∈ Uppercase ↔ 'A'.toNat ≤ b ∧ b ≤ 'Z'.toNat) := by
  have hrange : ∀ (lo n b : Nat), b ∈ List.range' lo n ↔ lo ≤ b ∧ b < lo + n := by
    intro lo n b; exact List.mem_range'_1
  have hD : ∀ b : Nat, b ∈ Digits ↔ b ∈ List.range' 48 10 := by
    have h1 : ∀ b ∈ Digits, b ∈ List.range' 48 10 := by decide
    have h2 : ∀ b ∈ List.range' 48 10, b ∈ Digits := by decide
    exact fun b => ⟨h1 b, h2 b⟩
  have hL : Lowercase = List.range' 97 26 := by decide
  have hU : Uppercase = List.range' 65 26 := by decide
  have c0 : '0'.toNat = 48 := by decide
  have c9 : '9'.toNat = 57 := by decide
  have ca : 'a'.toNat = 97 := by decide
  have cz : 'z'.toNat = 122 := by decide
  have cA : 'A'.toNat = 65 := by decide
  have cZ : 'Z'.toNat = 90 := by decide
  refine ⟨by decide, by decide, by decide, ?_, ?_, ?_⟩
  · intro b; rw [hD, hrange, c0, c9]; omega
  · intro b; rw [hL, hrange, ca, cz]; omega
  · intro b; rw [hU, hrange, cA, cZ]; omega

/-! ## Saturation -/

theorem mem_of_saturated {l cls : GoString} (hnd : l.Nodup) (hsub : ∀ b ∈ l, b ∈ cls)
    (hlen : cls.length ≤ l.length) : ∀ b ∈ cls, b ∈ l := by
  have hsp : l.Subperm cls := List.subperm_of_subset hnd hsub
  have hperm : l.Perm cls := hsp.perm_of_length_le hlen
  exact fun b hb => hperm.symm.subset hb

/-- A nil-error return of the default generator with `allowRepeat = false` is
either the empty string after a failed draw, or a password in which every
saturated class occurs byte by byte exactly once. -/
theorem saturation_of_returned {length numDigits numSymbols : Int} {noUppercase : Bool}
    {rng : RNG} {pw : GoString}
    (hret : Generate length numDigits numSymbols noUppercase false rng = .returned pw none) :
    (pw = [] ∧ ∃ e, RandOutcome.failure e ∈ rng) ∨
    ((numDigits = (Digits.length : Int) → ∀ b ∈ Digits, pw.count b = 1) ∧
      (numSymbols = (Symbols.length : Int) → ∀ b ∈ Symbols, pw.count b = 1) ∧
      (length - numDigits - numSymbols =
          ((if noUppercase then Lowercase else Lowercase ++ Uppercase).length : Int) →
        ∀ b ∈ (if noUppercase then Lowercase else Lowercase ++ Uppercase), pw.count b = 1)) := by
  rcases default_returned hret with ⟨e, _, _, he⟩ | ⟨_, hpw, _, hf⟩ | ⟨_, _, la, da, sa, hperm, hml, hmd, hms, hla, hda, hsa, hnd⟩
  · cases he
  · exact Or.inl ⟨hpw, hf⟩
  · right
    have hall : (sa ++ (da ++ la)).Nodup := hnd rfl
    have hpwnd : pw.Nodup := hperm.nodup_iff.2 hall
    have hsand : sa.Nodup := (List.nodup_append.1 hall).1
    have hdl : (da ++ la).Nodup := (List.nodup_append.1 hall).2.1
    have hdand : da.Nodup := (List.nodup_append.1 hdl).1
    have hland : la.Nodup := (List.nodup_append.1 hdl).2.1
    rw [← default_letterPool]
    refine ⟨?_, ?_, ?_⟩
    · intro hn b hb
      have hlen : Digits.length ≤ da.length := by
        have : (da.length : Int) = (Digits.length : Int) := by rw [hda, hn]; simp
        omega
      have hbda : b ∈ da := mem_of_saturated hdand hmd hlen b hb
      exact List.count_eq_one_of_mem hpwnd
        (hperm.symm.subset (List.mem_append_right sa (List.mem_append_left la hbda)))
    · intro hn b hb
      have hlen : Symbols.length ≤ sa.length := by
        have : (sa.length : Int) = (Symbols.length : Int) := by rw [hsa, hn]; simp
        omega
      have hbsa : b ∈ sa := mem_of_saturated hsand hms hlen b hb
      exact List.count_eq_one_of_mem hpwnd (hperm.symm.subset (List.mem_append_left _ hbsa))
    · intro hn b hb
      have hlen : (letterPool defaultGenerator noUppercase).length ≤ la.length := by
        have : (la.length : Int) = ((letterPool defaultGenerator noUppercase).length : Int) := by
          rw [hla, wrap64_sub, hn, wrap64_of_isInt64]
          · simp
          · rw [default_letterPool]; cases noUppercase <;> decide
        omega
      have hbla : b ∈ la := mem_of_saturated hland hml hlen b hb
      exact List.count_eq_one_of_mem hpwnd
        (hperm.symm.subset (List.mem_append_right sa (List.mem_append_right da hbla)))

/-- C10 (class saturation; failing input). The request
`Generate(30, 10, 0, true, false)` passes the pre-checks, and when the letter
loop has run and the first character draw of the digit loop fails
(`drawsDigitFailure`), `Generate` returns the empty string with a nil error
(pgen.go:122): a returned password for `num_digits = 10` in which no digit
occurs. `Generate(10, 10, 0, true, false)` does the same when its first draw
fails. On `drawsSaturate`, where no draw fails, the same request returns
`passwordSaturate`, which holds each digit exactly once. The swallowed failure
is the only way saturation fails: for every request with `allowRepeat = false`
and every outcome list, a nil-error return is either the empty string after a
failed draw, or a password in which `numDigits = 10` makes each digit occur
exactly once, `numSymbols = 30` each symbol, and a letter count equal to the
size of the letter pool each letter of the pool. -/
theorem generate_saturation_swallowed_failure :
    preCheck defaultGenerator 30 10 0 true false = none ∧
    Generate 30 10 0 true false drawsDigitFailure = .returned [] none ∧
    Generate 10 10 0 true false [.failure 7] = .returned [] none ∧
    (∀ b ∈ Digits, ([] : GoString).count b = 0) ∧
    (Generate 30 10 0 true false drawsSaturate = .returned passwordSaturate none ∧
      ∀ b ∈ Digits, passwordSaturate.count b = 1) ∧
    (∀ (length numDigits numSymbols : Int) (noUppercase : Bool) (rng : RNG) (pw : GoString),
      Generate length numDigits numSymbols noUppercase false rng = .returned pw none →
      (pw = [] ∧ ∃ e, RandOutcome.failure e ∈ rng) ∨
      ((numDigits = (Digits.length : Int) → ∀ b ∈ Digits, pw.count b = 1) ∧
        (numSymbols = (Symbols.length : Int) → ∀ b ∈ Symbols, pw.count b = 1) ∧
        (length - numDigits - numSymbols =
            ((if noUppercase then Lowercase else Lowercase ++ Uppercase).length : Int) →
          ∀ b ∈ (if noUppercase then Lowercase else Lowercase ++ Uppercase),
            pw.count b = 1))) :=
  ⟨by decide, by decide, by decide, by decide, ⟨by decide, by decide⟩,
   fun _ _ _ _ _ _ hret => saturation_of_returned hret⟩

/-! ## Evaluating one draw -/

theorem randInt_value {max : Int} (h : 0 < max) (v : Nat) (rest : RNG) :
    randInt max (.value v :: rest) = .ret (.ok (v % max.toNat)) rest := by
  simp [randInt, not_le.2 h]

theorem randInt_failure {max : Int} (h : 0 < max) (e : Nat) (rest : RNG) :
    randInt max (.failure e :: rest) = .ret (.error (.randErr e)) rest := by
  simp [randInt, not_le.2 h]

theorem randInt_nil {max : Int} (h : 0 < max) : randInt max [] = .starved := by
  simp [randInt, not_le.2 h]

theorem length_pos_int {s : GoString} (hs : s ≠ []) : (0 : Int) < (s.length : Int) := by
  have : 0 < s.length := List.length_pos.2 hs
  omega

theorem randomElement_value {s : GoString} (hs : s ≠ []) (v : Nat) (rest : RNG) :
    ∃ b, s[v % s.length]? = some b ∧ b ∈ s ∧
      randomElement s (.value v :: rest) = .ret (byteToString b, none) rest := by
  have hpos : 0 < s.length := List.length_pos.2 hs
  have hlt : v % s.length < s.length := Nat.mod_lt _ hpos
  have hget : s[v % s.length]? = some (s[v % s.length]) := List.getElem?_eq_getElem hlt
  refine ⟨s[v % s.length], hget, List.getElem_mem _, ?_⟩
  unfold randomElement
  rw [randInt_value (length_pos_int hs)]
  simp only [Int.toNat_ofNat]
  rw [hget]

theorem randomElement_failure {s : GoString} (hs : s ≠ []) (e : Nat) (rest : RNG) :
    randomElement s (.failure e :: rest) = .ret ([], some (.randErr e)) rest := by
  unfold randomElement
  rw [randInt_failure (length_pos_int hs)]

theorem randomElement_nil {s : GoString} (hs : s ≠ []) : randomElement s [] = .starved := by
  unfold randomElement
  rw [randInt_nil (length_pos_int hs)]

theorem randomInsert_empty (ch : GoString) (rng : RNG) :
    randomInsert [] ch rng = .ret (ch, none) rng := by
  simp [randomInsert]

theorem randomInsert_value {s : GoString} (hs : s ≠ []) (ch : GoString) (w : Nat) (rest : RNG) :
    randomInsert s ch (.value w :: rest) = .ret (splice s ch (w % (s.length + 1)), none) rest := by
  have hpos : (0 : Int) < 1 + (s.length : Int) := by omega
  have hto : (1 + (s.length : Int)).toNat = s.length + 1 := by omega
  have hle : w % (s.length + 1) ≤ s.length := Nat.lt_succ_iff.1 (Nat.mod_lt _ (Nat.succ_pos _))
  unfold randomInsert
  rw [if_neg hs, randInt_value hpos, hto]
  simp only [hle, if_true, splice]

theorem randomInsert_failure {s : GoString} (hs : s ≠ []) (ch : GoString) (e : Nat) (rest : RNG) :
    randomInsert s ch (.failure e :: rest) = .ret ([], some (.randErr e)) rest := by
  have hpos : (0 : Int) < 1 + (s.length : Int) := by omega
  unfold randomInsert
  rw [if_neg hs, randInt_failure hpos]

theorem randomInsert_nil {s : GoString} (hs : s ≠ []) (ch : GoString) :
    randomInsert s ch [] = .starved := by
  have hpos : (0 : Int) < 1 + (s.length : Int) := by omega
  unfold randomInsert
  rw [if_neg hs, randInt_nil hpos]

theorem randomElement_ne_panic {s : GoString} (hs : s ≠ []) (rng : RNG) :
    randomElement s rng ≠ .panic := by
  cases rng with
  | nil => rw [randomElement_nil hs]; intro h; cases h
  | cons r rest =>
    cases r with
    | value v =>
      obtain ⟨b, _, _, h⟩ := randomElement_value hs v rest
      rw [h]; intro h; cases h
    | failure e => rw [randomElement_failure hs]; intro h; cases h

theorem randomInsert_ne_panic (s ch : GoString) (rng : RNG) : randomInsert s ch rng ≠ .panic := by
  by_cases hs : s = []
  · subst hs; rw [randomInsert_empty]; intro h; cases h
  · cases rng with
    | nil => rw [randomInsert_nil hs]; intro h; cases h
    | cons r rest =>
      cases r with
      | value w => rw [randomInsert_value hs]; intro h; cases h
      | failure e => rw [randomInsert_failure hs]; intro h; cases h

/-- A loop over a non-empty class never panics. -/
theorem phaseLoop_ne_panic {ph : Phase} {pool : GoString} {count : Int} {ar : Bool}
    (hpool : pool ≠ []) :
    ∀ (fuel : Nat) (i : Int) (result : GoString) (rng : RNG),
      phaseLoop ph pool count ar fuel i result rng ≠ .exit .panicked := by
  intro fuel
  induction fuel with
  | zero => intro i result rng h; simp [phaseLoop] at h
  | succ fuel ih =>
    intro i result rng h
    simp only [phaseLoop] at h
    split at h
    · split at h
      · rename_i hel; exact randomElement_ne_panic hpool rng hel
      · cases h
      · cases h
      · split at h
        · exact ih _ _ _ h
        · split at h
          · rename_i hins; exact randomInsert_ne_panic _ _ _ hins
          · cases h
          · cases h
          · exact ih _ _ _ h
    · cases h

theorem NewGenerator_nonempty (i : Option GenInput) :
    (NewGenerator i).1.lowercase ≠ [] ∧ (NewGenerator i).1.uppercase ≠ [] ∧
      (NewGenerator i).1.digits ≠ [] ∧ (NewGenerator i).1.symbols ≠ [] := by
  have hL : Lowercase ≠ [] := by decide
  have hU : Uppercase ≠ [] := by decide
  have hD : Digits ≠ [] := by decide
  have hS : Symbols ≠ [] := by decide
  cases i with
  | none =>
    simp only [NewGenerator]
    refine ⟨?_, ?_, ?_, ?_⟩ <;> simp_all
  | some x =>
    simp only [NewGenerator]
    refine ⟨?_, ?_, ?_, ?_⟩ <;> split_ifs <;> simp_all

theorem letterPool_ne_nil {g : Generator} (h : g.lowercase ≠ []) (noUppercase : Bool) :
    letterPool g noUppercase ≠ [] := by
  unfold letterPool
  cases noUppercase <;> simp [h]

/-- With non-empty classes `Generate` never panics. -/
theorem Generate_ne_panicked {g : Generator} (hl : g.lowercase ≠ []) (hd : g.digits ≠ [])
    (hs : g.symbols ≠ []) (length numDigits numSymbols : Int) (noUppercase allowRepeat : Bool)
    (rng : RNG) :
    g.Generate length numDigits numSymbols noUppercase allowRepeat rng ≠ .panicked := by
  intro h
  cases hpc : preCheck g length numDigits numSymbols noUppercase allowRepeat with
  | some e1 =>
    rw [Generate_preCheck_some hpc rng] at h
    cases h
  | none =>
    rw [Generate_preCheck_none hpc rng] at h
    split at h
    · rename_i o h1; subst h
      exact phaseLoop_ne_panic (letterPool_ne_nil hl noUppercase) _ _ _ _ h1
    · split at h
      · rename_i o h2; subst h
        exact phaseLoop_ne_panic hd _ _ _ _ h2
      · split at h
        · rename_i o h3; subst h
          exact phaseLoop_ne_panic hs _ _ _ _ h3
        · cases h

/-! ## Bounds, distinctness, and a class with a repeated byte -/

/-- C19 (indexing and slicing in bounds). `randomElement` on a non-empty string
never panics, and on a successful draw `v` it indexes `s` at `v % len(s)`,
which is below `len(s)`; `randomInsert` never panics, and on a successful draw
`w` it slices at `w % (len(s) + 1)`, which is at most `len(s)`; every class a
generator built by `NewGenerator` hands to `randomElement` is non-empty; and
`Generate` on such a generator never panics, for every request and every
outcome list. -/
theorem generate_in_bounds :
    (∀ (s : GoString) (rng : RNG), s ≠ [] → randomElement s rng ≠ .panic) ∧
    (∀ (s : GoString) (v : Nat) (rest : RNG), s ≠ [] →
      v % s.length < s.length ∧
      ∃ b, s[v % s.length]? = some b ∧
        randomElement s (.value v :: rest) = .ret (byteToString b, none) rest) ∧
    (∀ (s ch : GoString) (rng : RNG), randomInsert s ch rng ≠ .panic) ∧
    (∀ (s ch : GoString) (w : Nat) (rest : RNG), s ≠ [] →
      w % (s.length + 1) ≤ s.length ∧
      randomInsert s ch (.value w :: rest) =
        .ret (s.take (w % (s.length + 1)) ++ ch ++ s.drop (w % (s.length + 1)), none) rest) ∧
    (∀ (i : Option GenInput) (noUppercase : Bool),
      letterPool (NewGenerator i).1 noUppercase ≠ [] ∧ (NewGenerator i).1.digits ≠ [] ∧
      (NewGenerator i).1.symbols ≠ []) ∧
    (∀ (i : Option GenInput) (length numDigits numSymbols : Int) (noUppercase allowRepeat : Bool)
      (rng : RNG),
      (NewGenerator i).1.Generate length numDigits numSymbols noUppercase allowRepeat rng ≠
        .panicked) := by
  refine ⟨fun s rng hs => randomElement_ne_panic hs rng, ?_, randomInsert_ne_panic, ?_, ?_, ?_⟩
  · intro s v rest hs
    obtain ⟨b, hb, _, h⟩ := randomElement_value hs v rest
    exact ⟨Nat.mod_lt _ (List.length_pos.2 hs), b, hb, h⟩
  · intro s ch w rest hs
    exact ⟨Nat.lt_succ_iff.1 (Nat.mod_lt _ (Nat.succ_pos _)), randomInsert_value hs ch w rest⟩
  · intro i noUppercase
    obtain ⟨h1, _, h3, h4⟩ := NewGenerator_nonempty i
    exact ⟨letterPool_ne_nil h1 noUppercase, h3, h4⟩
  · intro i length numDigits numSymbols noUppercase allowRepeat rng
    obtain ⟨h1, _, h3, h4⟩ := NewGenerator_nonempty i
    exact Generate_ne_panicked h1 h3 h4 _ _ _ _ _ _

/-- Witness of C19: drawing with entropy 7 from `Digits` indexes byte 7, the
digit `8`, and splicing `8` into `ab` with entropy 5 slices at 5 % 3 = 2. -/
theorem generate_in_bounds_witness :
    (7 % Digits.length < Digits.length ∧
      ∃ b, Digits[7 % Digits.length]? = some b ∧
        randomElement Digits [.value 7] = .ret (byteToString b, none) []) ∧
    (5 % (([97, 98] : GoString).length + 1) ≤ ([97, 98] : GoString).length ∧
      randomInsert [97, 98] [56] [.value 5] =
        .ret (([97, 98] : GoString).take (5 % (([97, 98] : GoString).length + 1)) ++ [56] ++
          ([97, 98] : GoString).drop (5 % (([97, 98] : GoString).length + 1)), none) []) :=
  ⟨generate_in_bounds.2.1 Digits 7 [] (by decide),
   generate_in_bounds.2.2.2.1 [97, 98] [56] 5 [] (by decide)⟩

/-- C17 (distinct across classes). For every generator built by `NewGenerator`
whose classes are ASCII, overlapping or with repeated bytes as they may be:
whenever `Generate` is called with `allowRepeat = false` and returns a
password, the bytes of the whole password are pairwise distinct. -/
theorem generate_all_distinct (i : Option GenInput) (length numDigits numSymbols : Int)
    (noUppercase : Bool) (rng : RNG) (pw : GoString) (err : Option GoError)
    (hl : isAscii (NewGenerator i).1.lowercase) (hu : isAscii (NewGenerator i).1.uppercase)
    (hd : isAscii (NewGenerator i).1.digits) (hs : isAscii (NewGenerator i).1.symbols)
    (hret : (NewGenerator i).1.Generate length numDigits numSymbols noUppercase false rng =
      .returned pw err) :
    pw.Nodup := by
  have hpool : isAscii (letterPool (NewGenerator i).1 noUppercase) := by
    unfold letterPool isAscii
    cases noUppercase
    · intro b hb
      simp only [Bool.not_false, if_true] at hb
      rcases List.mem_append.1 hb with h | h
      · exact hl b h
      · exact hu b h
    · intro b hb
      exact hl b (by simpa using hb)
  rcases Generate_returned hpool hd hs hret with ⟨e, _, hpw, _⟩ | ⟨_, hpw, _, _⟩ | ⟨_, _, la, da, sa, hperm, _, _, _, _, _, _, hnd⟩
  · rw [hpw]; exact List.nodup_nil
  · rw [hpw]; exact List.nodup_nil
  · exact hperm.nodup_iff.2 (hnd rfl)

/-- Witness of C17: with lowercase `ab`, digits `b1` and symbols `!!?`, the call
`Generate(4, 1, 1, true, false)` on `drawsOverlap` rejects the digit draw `b`
and returns `!1ba`. -/
theorem generate_all_distinct_witness :
    (NewGenerator (some inputOverlap)).1.Generate 4 1 1 true false drawsOverlap =
        .returned [33, 49, 98, 97] none ∧
      ([33, 49, 98, 97] : GoString).Nodup :=
  ⟨by decide,
   generate_all_distinct (some inputOverlap) 4 1 1 true drawsOverlap [33, 49, 98, 97] none
     (by unfold isAscii; decide) (by unfold isAscii; decide) (by unfold isAscii; decide)
     (by unfold isAscii; decide) (by decide)⟩

theorem generatorOnes_eq : generatorOnes =
    { lowercase := Lowercase, uppercase := Uppercase, digits := [49, 49], symbols := Symbols } := by
  decide

theorem generatorAs_eq : generatorAs =
    { lowercase := [97, 97], uppercase := Uppercase, digits := Digits, symbols := Symbols } := by
  decide

/-- The letter loop leaves `Generate` with a return value only with the error
of the random source (pgen.go:107, pgen.go:114-116). -/
theorem phaseLoop_letters_exit {pool : GoString} {count : Int} {ar : Bool} :
    ∀ (fuel : Nat) (i : Int) (result : GoString) (rng : RNG) (s : GoString) (err : Option GoError),
      phaseLoop .letters pool count ar fuel i result rng = .exit (.returned s err) →
      ∃ e, err = some (.randErr e) := by
  intro fuel
  induction fuel with
  | zero => intro i result rng s err h; simp [phaseLoop] at h
  | succ fuel ih =>
    intro i result rng s err h
    simp only [phaseLoop] at h
    split at h
    · split at h
      · cases h
      · cases h
      · rename_i ch err1 rng1 hel
        obtain ⟨e, hrng, herr, _⟩ := randomElement_err hel
        cases h
        exact ⟨e, by simp [elementFailure, herr]⟩
      · split at h
        · exact ih _ _ _ _ _ h
        · split at h
          · cases h
          · cases h
          · rename_i r err1 rng2 hins
            obtain ⟨e, hrng1, herr, _⟩ := randomInsert_err hins
            cases h
            exact ⟨e, by simp [herr]⟩
          · exact ih _ _ _ _ _ h
    · cases h

/-- With no digit and no symbol requested, a nil-error return of `Generate` is
the accumulator the letter loop falls through with. -/
theorem Generate_letters_only {g : Generator} {length : Int} {noUppercase allowRepeat : Bool}
    {rng : RNG} {pw : GoString}
    (hpc : preCheck g length 0 0 noUppercase allowRepeat = none)
    (h : g.Generate length 0 0 noUppercase allowRepeat rng = .returned pw none) :
    ∃ rng1, phaseLoop .letters (letterPool g noUppercase) (wrap64 (wrap64 (length - 0) - 0))
      allowRepeat (rng.length + 1) 0 [] rng = .next pw rng1 := by
  rw [Generate_preCheck_none hpc rng] at h
  split at h
  · rename_i o h1
    subst h
    obtain ⟨e, he⟩ := phaseLoop_letters_exit _ _ _ _ _ _ h1
    cases he
  · rename_i r1 rng1 h1
    simp [phaseLoop] at h
    subst h
    exact ⟨rng1, h1⟩

theorem no_two_distinct {l : GoString} {c : Nat} (hnd : l.Nodup) (hlen : l.length = 2)
    (hmem : ∀ b ∈ l, b = c) : False := by
  match l, hlen, hnd, hmem with
  | [x, y], _, hnd, hmem =>
    have hx := hmem x (by simp)
    have hy := hmem y (by simp)
    subst hx; subst hy
    simp at hnd

/-- Every return of `Generate(2, 0, 0, true, false)` on the generator with
lowercase `"aa"` is the empty string with the error of a failed draw. -/
theorem generatorAs_returned {rng : RNG} {pw : GoString} {err : Option GoError}
    (h : generatorAs.Generate 2 0 0 true false rng = .returned pw err) :
    pw = [] ∧ (∃ e, err = some (.randErr e)) ∧ ∃ e, RandOutcome.failure e ∈ rng := by
  have hl : isAscii (letterPool generatorAs true) := by
    rw [generatorAs_eq]; unfold isAscii; decide
  have hd : isAscii generatorAs.digits := by
    rw [generatorAs_eq]; unfold isAscii; decide
  have hs : isAscii generatorAs.symbols := by
    rw [generatorAs_eq]; unfold isAscii; decide
  have hpc : preCheck generatorAs 2 0 0 true false = none := by decide
  have hpool : ∀ b ∈ letterPool generatorAs true, b = 97 := by
    rw [generatorAs_eq]; decide
  have hnil : ∀ pw1 : GoString, generatorAs.Generate 2 0 0 true false rng ≠ .returned pw1 none := by
    intro pw1 h1
    obtain ⟨rng1, h2⟩ := Generate_letters_only hpc h1
    obtain ⟨added, _, hmem, hlen, hnd, _⟩ := phaseLoop_next hl _ _ _ _ _ _ h2
    have hlen2 : added.length = 2 := by
      have h3 : max (wrap64 (wrap64 ((2 : Int) - 0) - 0) - 0) 0 = 2 := by decide
      rw [h3] at hlen
      omega
    exact no_two_distinct (hnd rfl).1 hlen2 (fun b hb => hpool b (hmem b hb))
  rcases Generate_returned hl hd hs h with ⟨e, he, _, _⟩ | ⟨_, hpw, herr, hf⟩ | ⟨_, herr, _⟩
  · rw [hpc] at he; cases he
  · rcases herr with h0 | h0
    · subst h0; exact absurd h (hnil pw)
    · exact ⟨hpw, h0, hf⟩
  · subst herr; exact absurd h (hnil pw)

/-- Every return of `Generate(2, 2, 0, true, false)` on the generator with
digits `"11"` is the empty string after a failed draw. -/
theorem generatorOnes_returned {rng : RNG} {pw : GoString} {err : Option GoError}
    (h : generatorOnes.Generate 2 2 0 true false rng = .returned pw err) :
    pw = [] ∧ ∃ e, RandOutcome.failure e ∈ rng := by
  have hl : isAscii (letterPool generatorOnes true) := by
    rw [generatorOnes_eq]; unfold isAscii; decide
  have hd : isAscii generatorOnes.digits := by
    rw [generatorOnes_eq]; unfold isAscii; decide
  have hs : isAscii generatorOnes.symbols := by
    rw [generatorOnes_eq]; unfold isAscii; decide
  have hpc : preCheck generatorOnes 2 2 0 true false = none := by decide
  rcases Generate_returned hl hd hs h with ⟨e, he, _, _⟩ | ⟨_, hpw, _, hf⟩ | ⟨_, _, la, da, sa, _, _, hmd, _, _, hda, _, hnd⟩
  · rw [hpc] at he; cases he
  · exact ⟨hpw, hf⟩
  · exfalso
    have hall : (sa ++ (da ++ la)).Nodup := hnd rfl
    have hdand : da.Nodup := (List.nodup_append.1 (List.nodup_append.1 hall).2.1).1
    have hlen : da.length = 2 := by
      have : (da.length : Int) = 2 := by rw [hda]; rfl
      omega
    have hmem : ∀ b ∈ da, b = 49 := by
      intro b hb
      have := hmd b hb
      rw [generatorOnes_eq] at this
      simpa using this
    exact no_two_distinct hdand hlen hmem

/-- A call of `Generate` on a generator with non-empty classes that does not
return is waiting for a draw. -/
theorem starved_of_not_returned {g : Generator} (hl : g.lowercase ≠ []) (hd : g.digits ≠ [])
    (hs : g.symbols ≠ []) {length numDigits numSymbols : Int} {noUppercase allowRepeat : Bool}
    {rng : RNG}
    (h : ∀ pw err, g.Generate length numDigits numSymbols noUppercase allowRepeat rng ≠
      .returned pw err) :
    ∃ p k i acc,
      g.Generate length numDigits numSymbols noUppercase allowRepeat rng = .starved p k i acc := by
  cases hgen : g.Generate length numDigits numSymbols noUppercase allowRepeat rng with
  | returned pw err => exact absurd hgen (h pw err)
  | panicked => exact absurd hgen (Generate_ne_panicked hl hd hs _ _ _ _ _ _)
  | starved p k i acc => exact ⟨p, k, i, acc, rfl⟩
  | fuelOut => exact absurd hgen (Generate_ne_fuelOut _ _ _ _ _ _ _)

/-- C20 (repeated byte in a class). The generator built by `NewGenerator` with
the lowercase class overridden by `"aa"` has non-empty, pairwise disjoint
classes, and the request `(2, 0, 0, true, false)` passes the four pre-checks,
which compare the letter count 2 with the byte length 2 of the class. Yet on
no outcome list does `Generate` return a password: it returns no string with a
nil error; every return is the empty string with the error of a failed draw;
and on every outcome list whose draws all succeed it is still waiting for a
draw, however long the list.

For the digit class `"11"` and the request `(2, 2, 0, true, false)` the
pre-checks pass likewise, `Generate` is still waiting for a draw on every
outcome list whose draws all succeed, and every return is the empty string
after a failed draw; there a failed character draw of the digit loop returns
the empty string with a nil error (pgen.go:122). -/
theorem generate_repeated_class_never_returns :
    (generatorAs = (NewGenerator (some inputAs)).1 ∧
      (generatorAs.lowercase = ascii "aa" ∧ generatorAs.uppercase = Uppercase ∧
        generatorAs.digits = Digits ∧ generatorAs.symbols = Symbols) ∧
      (generatorAs.lowercase ≠ [] ∧ generatorAs.uppercase ≠ [] ∧
        generatorAs.digits ≠ [] ∧ generatorAs.symbols ≠ []) ∧
      ((∀ b ∈ generatorAs.lowercase, b ∉ generatorAs.uppercase ∧ b ∉ generatorAs.digits ∧
          b ∉ generatorAs.symbols) ∧
        (∀ b ∈ generatorAs.uppercase, b ∉ generatorAs.digits ∧ b ∉ generatorAs.symbols) ∧
        (∀ b ∈ generatorAs.digits, b ∉ generatorAs.symbols)) ∧
      preCheck generatorAs 2 0 0 true false = none ∧
      (∀ (rng : RNG) (pw : GoString),
        generatorAs.Generate 2 0 0 true false rng ≠ .returned pw none) ∧
      (∀ (rng : RNG) (pw : GoString) (err : Option GoError),
        generatorAs.Generate 2 0 0 true false rng = .returned pw err →
        pw = [] ∧ (∃ e, err = some (.randErr e)) ∧ ∃ e, RandOutcome.failure e ∈ rng) ∧
      (∀ rng : RNG, allDrawsSucceed rng →
        ∃ p k i acc, generatorAs.Generate 2 0 0 true false rng = .starved p k i acc)) ∧
    (generatorOnes = (NewGenerator (some inputOnes)).1 ∧
      (generatorOnes.lowercase ≠ [] ∧ generatorOnes.uppercase ≠ [] ∧
        generatorOnes.digits ≠ [] ∧ generatorOnes.symbols ≠ []) ∧
      ((∀ b ∈ generatorOnes.lowercase, b ∉ generatorOnes.uppercase ∧ b ∉ generatorOnes.digits ∧
          b ∉ generatorOnes.symbols) ∧
        (∀ b ∈ generatorOnes.uppercase, b ∉ generatorOnes.digits ∧ b ∉ generatorOnes.symbols) ∧
        (∀ b ∈ generatorOnes.digits, b ∉ generatorOnes.symbols)) ∧
      preCheck generatorOnes 2 2 0 true false = none ∧
      (∀ rng : RNG, allDrawsSucceed rng →
        ∃ p k i acc, generatorOnes.Generate 2 2 0 true false rng = .starved p k i acc) ∧
      (∀ (rng : RNG) (pw : GoString) (err : Option GoError),
        generatorOnes.Generate 2 2 0 true false rng = .returned pw err →
        pw = [] ∧ ∃ e, RandOutcome.failure e ∈ rng) ∧
      generatorOnes.Generate 2 2 0 true false [.failure 7] = .returned [] none) := by
  refine ⟨⟨rfl, by decide, by decide, by decide, by decide, ?_, ?_, ?_⟩,
    ⟨rfl, by decide, by decide, by decide, ?_, ?_, by decide⟩⟩
  · intro rng pw h
    obtain ⟨_, ⟨e, he⟩, _⟩ := generatorAs_returned h
    cases he
  · intro rng pw err h
    exact generatorAs_returned h
  · intro rng hrng
    apply starved_of_not_returned (by decide) (by decide) (by decide)
    intro pw err h
    exact not_failure_of_allDrawsSucceed hrng (generatorAs_returned h).2.2
  · intro rng hrng
    apply starved_of_not_returned (by decide) (by decide) (by decide)
    intro pw err h
    exact not_failure_of_allDrawsSucceed hrng (generatorOnes_returned h).2
  · intro rng pw err h
    exact generatorOnes_returned h

/-- Witness of C20: with lowercase `"aa"`, on thirty draws of entropy 0 the
call is still waiting for a draw; when the second draw fails it returns the
empty string with the error of the random source, not a password. -/
theorem generate_repeated_class_never_returns_witness :
    (allDrawsSucceed (drawsZero 30) ∧
      ∃ p k i acc,
        generatorAs.Generate 2 0 0 true false (drawsZero 30) = .starved p k i acc) ∧
    generatorAs.Generate 2 0 0 true false [.value 0, .failure 7] =
        .returned [] (some (.randErr 7)) ∧
    generatorAs.Generate 2 0 0 true false [.value 0, .failure 7] ≠ .returned [] none :=
  ⟨⟨by decide, generate_repeated_class_never_returns.1.2.2.2.2.2.2.2 (drawsZero 30) (by decide)⟩,
   by decide,
   generate_repeated_class_never_returns.1.2.2.2.2.2.1 [.value 0, .failure 7] []⟩

/-! ## Extending the outcome list -/

theorem randomElement_starved {s : GoString} {rng : RNG} (h : randomElement s rng = .starved) :
    s ≠ [] ∧ rng = [] := by
  have hs : s ≠ [] := by
    intro hs
    subst hs
    simp [randomElement, randInt] at h
  refine ⟨hs, ?_⟩
  cases rng with
  | nil => rfl
  | cons r rest =>
    cases r with
    | value v =>
      obtain ⟨b, _, _, hv⟩ := randomElement_value hs v rest
      rw [hv] at h; cases h
    | failure e => rw [randomElement_failure hs] at h; cases h

theorem randomInsert_starved {s ch : GoString} {rng : RNG}
    (h : randomInsert s ch rng = .starved) : s ≠ [] ∧ rng = [] := by
  have hs : s ≠ [] := by
    intro hs
    subst hs
    rw [randomInsert_empty] at h; cases h
  refine ⟨hs, ?_⟩
  cases rng with
  | nil => rfl
  | cons r rest =>
    cases r with
    | value v => rw [randomInsert_value hs] at h; cases h
    | failure e => rw [randomInsert_failure hs] at h; cases h

theorem randomElement_frame {s : GoString} {rng rng1 : RNG} {a : GoString × Option GoError}
    (h : randomElement s rng = .ret a rng1) (ext : RNG) :
    randomElement s (rng ++ ext) = .ret a (rng1 ++ ext) := by
  have hs : s ≠ [] := by
    intro hs
    subst hs
    simp [randomElement, randInt] at h
  cases rng with
  | nil => rw [randomElement_nil hs] at h; cases h
  | cons r rest =>
    cases r with
    | value v =>
      obtain ⟨b, hb, _, hv⟩ := randomElement_value hs v rest
      obtain ⟨b1, hb1, _, hv1⟩ := randomElement_value hs v (rest ++ ext)
      rw [hv] at h
      cases h
      rw [List.cons_append, hv1]
      rw [hb] at hb1
      cases hb1
      rfl
    | failure e =>
      rw [randomElement_failure hs] at h
      cases h
      rw [List.cons_append, randomElement_failure hs]

theorem randomInsert_frame {s ch : GoString} {rng rng1 : RNG} {a : GoString × Option GoError}
    (h : randomInsert s ch rng = .ret a rng1) (ext : RNG) :
    randomInsert s ch (rng ++ ext) = .ret a (rng1 ++ ext) := by
  by_cases hs : s = []
  · subst hs
    rw [randomInsert_empty] at h
    cases h
    rw [randomInsert_empty]
  · cases rng with
    | nil => rw [randomInsert_nil hs] at h; cases h
    | cons r rest =>
      cases r with
      | value v =>
        rw [randomInsert_value hs] at h
        cases h
        rw [List.cons_append, randomInsert_value hs]
      | failure e =>
        rw [randomInsert_failure hs] at h
        cases h
        rw [List.cons_append, randomInsert_failure hs]

/-- A loop that falls through does the same on every longer outcome list and
with every larger iteration bound, leaving the extra outcomes untouched. -/
theorem phaseLoop_frame {ph : Phase} {pool : GoString} {count : Int} {ar : Bool} :
    ∀ (fuel : Nat) (i : Int) (result : GoString) (rng : RNG) (r : GoString) (rng1 : RNG),
      phaseLoop ph pool count ar fuel i result rng = .next r rng1 →
      ∀ (fuel1 : Nat), fuel ≤ fuel1 → ∀ ext : RNG,
        phaseLoop ph pool count ar fuel1 i result (rng ++ ext) = .next r (rng1 ++ ext) := by
  intro fuel
  induction fuel with
  | zero => intro i result rng r rng1 h; simp [phaseLoop] at h
  | succ fuel ih =>
    intro i result rng r rng1 h fuel1 hle ext
    obtain ⟨f1, rfl⟩ : ∃ f1, fuel1 = f1 + 1 := ⟨fuel1 - 1, by omega⟩
    have hle1 : fuel ≤ f1 := by omega
    simp only [phaseLoop] at h ⊢
    split at h
    · rename_i hlt
      rw [if_pos hlt]
      split at h
      · cases h
      · cases h
      · cases h
      · rename_i ch rngA hel
        rw [randomElement_frame hel ext]
        simp only
        split at h
        · rename_i hrej
          rw [if_pos hrej]
          exact ih _ _ _ _ _ h f1 hle1 ext
        · rename_i hacc
          rw [if_neg hacc]
          split at h
          · cases h
          · cases h
          · cases h
          · rename_i result1 rngB hins
            rw [randomInsert_frame hins ext]
            simp only
            exact ih _ _ _ _ _ h f1 hle1 ext
    · rename_i hge
      rw [if_neg hge]
      cases h
      rfl

/-- A loop that is short of a draw returns as soon as the next outcome is a
failure: the empty string, with `elementFailure` at a character draw and the
error of the random source at a position draw. -/
theorem phaseLoop_starved_failure {ph : Phase} {pool : GoString} {count : Int} {ar : Bool} :
    ∀ (fuel : Nat) (i : Int) (result : GoString) (ok : RNG) (p : Phase) (k : DrawKind)
      (j : Int) (acc : GoString),
      phaseLoop ph pool count ar fuel i result ok = .exit (.starved p k j acc) →
      ∀ (fuel1 : Nat), fuel ≤ fuel1 → ∀ (e : Nat) (rest : RNG),
        p = ph ∧
        phaseLoop ph pool count ar fuel1 i result (ok ++ .failure e :: rest) =
          .exit (.returned [] (drawFailure ph k (.randErr e))) := by
  intro fuel
  induction fuel with
  | zero => intro i result ok p k j acc h; simp [phaseLoop] at h
  | succ fuel ih =>
    intro i result ok p k j acc h fuel1 hle e rest
    obtain ⟨f1, rfl⟩ : ∃ f1, fuel1 = f1 + 1 := ⟨fuel1 - 1, by omega⟩
    have hle1 : fuel ≤ f1 := by omega
    simp only [phaseLoop] at h ⊢
    split at h
    · rename_i hlt
      rw [if_pos hlt]
      split at h
      · cases h
      · rename_i hel
        cases h
        obtain ⟨hpool, hok⟩ := randomElement_starved hel
        subst hok
        rw [List.nil_append, randomElement_failure hpool]
        exact ⟨rfl, rfl⟩
      · cases h
      · rename_i ch rngA hel
        rw [randomElement_frame hel (.failure e :: rest)]
        simp only
        split at h
        · rename_i hrej
          rw [if_pos hrej]
          exact ih _ _ _ _ _ _ _ h f1 hle1 e rest
        · rename_i hacc
          rw [if_neg hacc]
          split at h
          · cases h
          · rename_i hins
            cases h
            obtain ⟨hres, hok⟩ := randomInsert_starved hins
            subst hok
            rw [List.nil_append, randomInsert_failure hres]
            exact ⟨rfl, rfl⟩
          · cases h
          · rename_i result1 rngB hins
            rw [randomInsert_frame hins (.failure e :: rest)]
            simp only
            exact ih _ _ _ _ _ _ _ h f1 hle1 e rest
    · cases h

/-- When `Generate` is short of a draw at a site and the next outcome is a
failure, it returns the empty string, with the error that site gives. -/
theorem Generate_starved_failure {g : Generator} {length numDigits numSymbols : Int}
    {noUppercase allowRepeat : Bool} {ok : RNG} {p : Phase} {k : DrawKind} {i : Int}
    {acc : GoString}
    (h : g.Generate length numDigits numSymbols noUppercase allowRepeat ok = .starved p k i acc)
    (e : Nat) (rest : RNG) :
    g.Generate length numDigits numSymbols noUppercase allowRepeat (ok ++ .failure e :: rest) =
      .returned [] (drawFailure p k (.randErr e)) := by
  cases hpc : preCheck g length numDigits numSymbols noUppercase allowRepeat with
  | some e1 =>
    rw [Generate_preCheck_some hpc ok] at h
    cases h
  | none =>
    rw [Generate_preCheck_none hpc ok] at h
    rw [Generate_preCheck_none hpc]
    have hlen : ∀ (a : RNG), a.length + 1 ≤ (a ++ .failure e :: rest).length + 1 := by
      intro a; simp
    split at h
    · rename_i o h1
      subst h
      obtain ⟨hp, hx⟩ := phaseLoop_starved_failure _ _ _ _ _ _ _ _ h1 _ (hlen ok) e rest
      subst hp
      rw [hx]
    · rename_i r1 rng1 h1
      rw [phaseLoop_frame _ _ _ _ _ _ h1 _ (hlen ok) (.failure e :: rest)]
      simp only
      split at h
      · rename_i o h2
        subst h
        obtain ⟨hp, hx⟩ := phaseLoop_starved_failure _ _ _ _ _ _ _ _ h2 _ (hlen rng1) e rest
        subst hp
        rw [hx]
      · rename_i r2 rng2 h2
        rw [phaseLoop_frame _ _ _ _ _ _ h2 _ (hlen rng1) (.failure e :: rest)]
        simp only
        split at h
        · rename_i o h3
          subst h
          obtain ⟨hp, hx⟩ := phaseLoop_starved_failure _ _ _ _ _ _ _ _ h3 _ (hlen rng2) e rest
          subst hp
          rw [hx]
        · cases h

/-! ## Which failures reach the caller -/

/-- C16 (swallowed and propagated failures). For every generator and request:
when the successful draws `ok` leave `Generate` waiting for a draw (so the
pre-checks passed and no draw failed yet) and the next draw fails with error
`e`, then `Generate` returns the empty string, with a nil error if the awaited
draw is the character draw of the digit loop or of the symbol loop, with the
error of the random source if it is the character draw of the letter loop, and
with that error too if it is a position draw, in any of the three loops. -/
theorem generate_draw_failure (g : Generator) (length numDigits numSymbols : Int)
    (noUppercase allowRepeat : Bool) (ok rest : RNG) (e : Nat) (i : Int) (acc : GoString) :
    (g.Generate length numDigits numSymbols noUppercase allowRepeat ok =
        .starved .digits .element i acc →
      g.Generate length numDigits numSymbols noUppercase allowRepeat (ok ++ .failure e :: rest) =
        .returned [] none) ∧
    (g.Generate length numDigits numSymbols noUppercase allowRepeat ok =
        .starved .symbols .element i acc →
      g.Generate length numDigits numSymbols noUppercase allowRepeat (ok ++ .failure e :: rest) =
        .returned [] none) ∧
    (g.Generate length numDigits numSymbols noUppercase allowRepeat ok =
        .starved .letters .element i acc →
      g.Generate length numDigits numSymbols noUppercase allowRepeat (ok ++ .failure e :: rest) =
        .returned [] (some (.randErr e))) ∧
    (∀ p : Phase,
      g.Generate length numDigits numSymbols noUppercase allowRepeat ok =
        .starved p .position i acc →
      g.Generate length numDigits numSymbols noUppercase allowRepeat (ok ++ .failure e :: rest) =
        .returned [] (some (.randErr e))) := by
  refine ⟨?_, ?_, ?_, ?_⟩
  · intro h; exact Generate_starved_failure h e rest
  · intro h; exact Generate_starved_failure h e rest
  · intro h; exact Generate_starved_failure h e rest
  · intro p h; exact Generate_starved_failure h e rest

/-- Witness of C16: for `Generate(3, 1, 1, true, true)` the draws `a` leave the
digit loop waiting for its character draw, and a failure there returns the
empty string and nil; the draws `a`, `6` leave it waiting for the position
draw, and a failure there returns the error. -/
theorem generate_draw_failure_witness :
    (defaultGenerator.Generate 3 1 1 true true [.value 0] = .starved .digits .element 0 [97] ∧
      defaultGenerator.Generate 3 1 1 true true ([.value 0] ++ .failure 7 :: [.value 1]) =
        .returned [] none) ∧
    (defaultGenerator.Generate 3 1 1 true true [.value 0, .value 5] =
        .starved .digits .position 0 [97] ∧
      defaultGenerator.Generate 3 1 1 true true ([.value 0, .value 5] ++ .failure 7 :: []) =
        .returned [] (some (.randErr 7))) :=
  ⟨⟨by decide,
    (generate_draw_failure defaultGenerator 3 1 1 true true [.value 0] [.value 1] 7 0 [97]).1
      (by decide)⟩,
   ⟨by decide,
    (generate_draw_failure defaultGenerator 3 1 1 true true [.value 0, .value 5] [] 7 0
      [97]).2.2.2
      .digits (by decide)⟩⟩

/-! ## Wrapping arithmetic in the first pre-check -/

/-- C13 (counterexample). With `length = 0` and `numDigits = numSymbols =
2^63 - 1`, all non-negative machine integers, the digits and symbols together
exceed the length, but the wrapped `chars` is 2, not negative, and `Generate`
does not return `ErrExceedsTotalLength`: it asks for a letter draw. -/
theorem precheck_forms_differ :
    (isInt64 0 ∧ isInt64 maxInt64 ∧ (0 : Int) ≤ maxInt64) ∧
    wrap64 (wrap64 (0 - maxInt64) - maxInt64) = 2 ∧
    ¬ (wrap64 (wrap64 (0 - maxInt64) - maxInt64) < 0 ↔ maxInt64 + maxInt64 > 0) ∧
    Generate 0 maxInt64 maxInt64 true true [] = .starved .letters .element 0 [] := by
  decide

/-- C13 (amended). For non-negative machine integers `length`, `numDigits`,
`numSymbols`, the code's test `chars < 0` on the wrapped difference agrees with
`numDigits + numSymbols > length` exactly when `length - numDigits -
numSymbols` does not overflow (is at least -2^63); and when it does not
overflow, `Generate` returns `ErrExceedsTotalLength`, for every generator,
flags and outcome list, exactly when the digits and symbols together exceed
the length. -/
theorem precheck_forms_coincide (length numDigits numSymbols : Int)
    (hl : 0 ≤ length) (hlm : isInt64 length) (hd : 0 ≤ numDigits) (hdm : isInt64 numDigits)
    (hs : 0 ≤ numSymbols) (hsm : isInt64 numSymbols) :
    ((wrap64 (wrap64 (length - numDigits) - numSymbols) < 0 ↔ numDigits + numSymbols > length) ↔
      minInt64 ≤ length - numDigits - numSymbols) ∧
    (minInt64 ≤ length - numDigits - numSymbols →
      ∀ (g : Generator) (noUppercase allowRepeat : Bool) (rng : RNG),
        (g.Generate length numDigits numSymbols noUppercase allowRepeat rng =
            .returned [] (some .ErrExceedsTotalLength) ↔
          numDigits + numSymbols > length)) := by
  unfold isInt64 at hlm hdm hsm
  constructor
  · rw [wrap64_sub]
    unfold wrap64 minInt64
    constructor
    · intro h
      by_contra hc
      omega
    · intro h
      omega
  · intro hov g noUppercase allowRepeat rng
    have hov1 : isInt64 (length - numDigits - numSymbols) := by
      unfold minInt64 at hov; unfold isInt64; omega
    have heq := preCheck_eq_table g length numDigits numSymbols noUppercase allowRepeat hov1
    constructor
    · intro h
      obtain ⟨h1, _⟩ := Generate_preCheck_error h rfl
      rw [heq] at h1
      unfold tablePreCheck at h1
      by_contra hc
      rw [if_neg hc] at h1
      split_ifs at h1 <;> cases h1
    · intro h
      have h1 : tablePreCheck g length numDigits numSymbols noUppercase allowRepeat =
          some .ErrExceedsTotalLength := by
        unfold tablePreCheck; rw [if_pos h]
      rw [← heq] at h1
      exact Generate_preCheck_some h1 rng

/-- Witness of C13 (amended): `(10, 11, 0)` does not overflow, the wrapped
`chars` is negative and `Generate` returns `ErrExceedsTotalLength`. -/
theorem precheck_forms_coincide_witness :
    ((wrap64 (wrap64 (10 - 11) - 0) < 0 ↔ (11 : Int) + 0 > 10) ↔ minInt64 ≤ 10 - 11 - 0) ∧
    (defaultGenerator.Generate 10 11 0 true true [] =
        .returned [] (some .ErrExceedsTotalLength) ↔ (11 : Int) + 0 > 10) :=
  ⟨(precheck_forms_coincide 10 11 0 (by decide) (by decide) (by decide) (by decide) (by decide)
      (by decide)).1,
   (precheck_forms_coincide 10 11 0 (by decide) (by decide) (by decide) (by decide) (by decide)
      (by decide)).2 (by decide) defaultGenerator true true []⟩

/-! ## Negative counts -/

/-- C18 (counterexample). With `length = 0` and `numDigits = numSymbols = -2^63`
the difference `length - numDigits - numSymbols` is 2^64, not negative, yet
`Generate` returns the empty password with a nil error, without a draw: its
length is 0, not 2^64, and it equals `length` although both counts are
negative. -/
theorem generate_negative_counts_overflow :
    (0 : Int) ≤ 0 - minInt64 - minInt64 ∧
    allDrawsSucceed [] ∧
    Generate 0 minInt64 minInt64 true true [] = .returned [] none ∧
    ¬ ((([] : GoString).length : Int) = (0 - minInt64 - minInt64) + max minInt64 0 + max minInt64 0) ∧
    ¬ ((([] : GoString).length : Int) = 0 ↔ (0 ≤ minInt64 ∧ 0 ≤ minInt64)) := by
  decide

/-- C18 (amended). For the default generator and all integers `length`,
`numDigits`, `numSymbols` with `0 ≤ length - numDigits - numSymbols < 2^63`
(the difference does not overflow) and `allowRepeat = true`: whenever
`Generate` returns on an outcome list whose draws all succeed, the error is nil
and the password has exactly `(length - numDigits - numSymbols) + max numDigits
0 + max numSymbols 0` bytes; so its length is `length` exactly when neither
count is negative. -/
theorem generate_negative_counts (length numDigits numSymbols : Int) (noUppercase : Bool)
    (rng : RNG) (pw : GoString) (err : Option GoError)
    (h0 : 0 ≤ length - numDigits - numSymbols)
    (hov : length - numDigits - numSymbols ≤ maxInt64)
    (hrng : allDrawsSucceed rng)
    (hret : Generate length numDigits numSymbols noUppercase true rng = .returned pw err) :
    err = none ∧
    (pw.length : Int) = (length - numDigits - numSymbols) + max numDigits 0 + max numSymbols 0 ∧
    ((pw.length : Int) = length ↔ (0 ≤ numDigits ∧ 0 ≤ numSymbols)) := by
  have hov1 : isInt64 (length - numDigits - numSymbols) := by
    unfold maxInt64 at hov; unfold isInt64; omega
  have hchars : wrap64 (wrap64 (length - numDigits) - numSymbols) =
      length - numDigits - numSymbols := by
    rw [wrap64_sub, wrap64_of_isInt64 hov1]
  have hpc : preCheck defaultGenerator length numDigits numSymbols noUppercase true = none := by
    unfold preCheck
    simp only [hchars]
    simp
    omega
  rcases default_returned hret with ⟨e, he, _, _⟩ | ⟨_, _, _, hf⟩ | ⟨_, herr, la, da, sa, hperm, _, _, _, hla, hda, hsa, _⟩
  · rw [hpc] at he; cases he
  · exact absurd hf (not_failure_of_allDrawsSucceed hrng)
  · have hlen : (pw.length : Int) =
        (length - numDigits - numSymbols) + max numDigits 0 + max numSymbols 0 := by
      rw [hperm.length_eq]
      simp only [List.length_append, Nat.cast_add, hla, hda, hsa, hchars]
      omega
    refine ⟨herr, hlen, ?_⟩
    rw [hlen]
    constructor
    · intro h; constructor <;> omega
    · rintro ⟨h1, h2⟩; omega

/-- Witness of C18 (amended): `Generate(10, -5, 0, true, true)` on all-zero
entropy returns fifteen letters `a` and a nil error. -/
theorem generate_negative_counts_witness :
    Generate 10 (-5) 0 true true (drawsZero 29) = .returned (List.replicate 15 97) none ∧
    ((none : Option GoError) = none ∧
      (((List.replicate 15 97 : GoString).length : Int) = (10 - (-5) - 0) + max (-5) 0 + max 0 0) ∧
      ((((List.replicate 15 97 : GoString).length : Int) = 10) ↔ ((0 : Int) ≤ -5 ∧ (0 : Int) ≤ 0))) :=
  ⟨by decide,
   generate_negative_counts 10 (-5) 0 true (drawsZero 29) (List.replicate 15 97) none
     (by decide) (by decide) (by decide) (by decide)⟩

/-! ## Sequential insertion -/

theorem splice_perm_cons (s : GoString) (c i : Nat) : (splice s [c] i).Perm (c :: s) := by
  unfold splice
  exact splice_perm s [c] i

theorem splice_length (s : GoString) (c i : Nat) : (splice s [c] i).length = s.length + 1 := by
  rw [(splice_perm_cons s c i).length_eq]; simp

theorem splice_zero (s ch : GoString) : splice s ch 0 = ch ++ s := by
  simp [splice]

theorem splice_end (s ch : GoString) : splice s ch s.length = s ++ ch := by
  simp [splice]

theorem splice_cons_succ (a : Nat) (s ch : GoString) (i : Nat) :
    splice (a :: s) ch (i + 1) = a :: splice s ch i := by
  simp [splice]

theorem insertSeq_perm : ∀ (cs : List Nat) (acc : GoString) (is : List Nat),
    is.length = cs.length → (insertSeq acc cs is).Perm (acc ++ cs) := by
  intro cs
  induction cs with
  | nil => intro acc is _; cases is <;> simp [insertSeq]
  | cons c cs ih =>
    intro acc is hlen
    cases is with
    | nil => simp at hlen
    | cons i is =>
      simp only [insertSeq]
      have h1 := ih (splice acc [c] i) is (by simpa using hlen)
      have h2 : (splice acc [c] i ++ cs).Perm ((c :: acc) ++ cs) :=
        (splice_perm_cons acc c i).append_right cs
      have h3 : ((c :: acc) ++ cs).Perm (acc ++ c :: cs) := by
        simpa using (@List.perm_middle _ c acc cs).symm
      exact h1.trans (h2.trans h3)

theorem filter_splice (s : GoString) (c i : Nat) (hc : c ∉ s) :
    (splice s [c] i).filter (fun x => decide (x ≠ c)) = s := by
  have hs : ∀ t : GoString, (∀ x ∈ t, x ∈ s) → t.filter (fun x => decide (x ≠ c)) = t := by
    intro t ht
    rw [List.filter_eq_self]
    intro x hx
    have : x ≠ c := fun h => hc (h ▸ ht x hx)
    simpa using this
  unfold splice
  rw [List.filter_append, List.filter_append, hs _ (fun x hx => List.mem_of_mem_take hx),
    hs _ (fun x hx => List.mem_of_mem_drop hx)]
  simp

/-- Dropping the bytes inserted later gives back the accumulator. -/
theorem insertSeq_filter : ∀ (cs : List Nat) (acc : GoString) (is : List Nat),
    cs.Nodup → (∀ x ∈ acc, x ∉ cs) →
    (insertSeq acc cs is).filter (fun x => decide (x ∉ cs)) = acc := by
  intro cs
  induction cs with
  | nil =>
    intro acc is _ _
    cases is <;> simp [insertSeq]
  | cons c cs ih =>
    intro acc is hnd hdis
    have hc : c ∉ cs := (List.nodup_cons.1 hnd).1
    have hcacc : c ∉ acc := fun h => hdis c h (List.mem_cons_self c cs)
    cases is with
    | nil =>
      simp only [insertSeq]
      rw [List.filter_eq_self]
      intro x hx
      simpa using hdis x hx
    | cons i is =>
      simp only [insertSeq]
      have hdis1 : ∀ x ∈ splice acc [c] i, x ∉ cs := by
        intro x hx
        have hx1 : x ∈ c :: acc := (splice_perm_cons acc c i).subset hx
        rcases List.mem_cons.1 hx1 with h | h
        · rw [h]; exact hc
        · exact fun hin => hdis x h (List.mem_cons_of_mem c hin)
      have h1 := ih (splice acc [c] i) is (List.nodup_cons.1 hnd).2 hdis1
      have hpred : (fun x => decide (x ∉ c :: cs)) =
          (fun x => decide (x ≠ c) && decide (x ∉ cs)) := by
        funext x
        simp [List.mem_cons, not_or]
      rw [hpred, ← List.filter_filter, h1, filter_splice acc c i hcacc]

theorem splice_injective : ∀ (s : GoString) (c i j : Nat), c ∉ s → i ≤ s.length → j ≤ s.length →
    splice s [c] i = splice s [c] j → i = j := by
  intro s
  induction s with
  | nil => intro c i j _ hi hj _; simp at hi hj; omega
  | cons a s ih =>
    intro c i j hc hi hj h
    have hac : a ≠ c := fun h => hc (h ▸ List.mem_cons_self a s)
    have hcs : c ∉ s := fun h => hc (List.mem_cons_of_mem a h)
    cases i with
    | zero =>
      cases j with
      | zero => rfl
      | succ j =>
        rw [splice_zero, splice_cons_succ] at h
        simp at h
        exact absurd h.1.symm hac
    | succ i =>
      cases j with
      | zero =>
        rw [splice_zero, splice_cons_succ] at h
        simp at h
        exact absurd h.1 hac
      | succ j =>
        rw [splice_cons_succ, splice_cons_succ] at h
        simp at h
        have := ih c i j hcs (by simpa using hi) (by simpa using hj) h
        omega

theorem insertSeq_injective : ∀ (cs : List Nat) (acc : GoString) (is js : List Nat),
    cs.Nodup → (∀ x ∈ acc, x ∉ cs) → is.length = cs.length → js.length = cs.length →
    validPositions acc.length is = true → validPositions acc.length js = true →
    insertSeq acc cs is = insertSeq acc cs js → is = js := by
  intro cs
  induction cs with
  | nil =>
    intro acc is js _ _ h1 h2 _ _ _
    simp at h1 h2
    rw [h1, h2]
  | cons c cs ih =>
    intro acc is js hnd hdis h1 h2 v1 v2 heq
    have hc : c ∉ cs := (List.nodup_cons.1 hnd).1
    have hcacc : c ∉ acc := fun h => hdis c h (List.mem_cons_self c cs)
    cases is with
    | nil => simp at h1
    | cons i is =>
      cases js with
      | nil => simp at h2
      | cons j js =>
        simp only [validPositions, Bool.and_eq_true, decide_eq_true_eq] at v1 v2
        simp only [insertSeq] at heq
        have hdisS : ∀ k, ∀ x ∈ splice acc [c] k, x ∉ cs := by
          intro k x hx
          have hx1 : x ∈ c :: acc := (splice_perm_cons acc c k).subset hx
          rcases List.mem_cons.1 hx1 with h | h
          · rw [h]; exact hc
          · exact fun hin => hdis x h (List.mem_cons_of_mem c hin)
        have hf1 := insertSeq_filter cs (splice acc [c] i) is (List.nodup_cons.1 hnd).2 (hdisS i)
        have hf2 := insertSeq_filter cs (splice acc [c] j) js (List.nodup_cons.1 hnd).2 (hdisS j)
        rw [heq, hf2] at hf1
        have hij : i = j := (splice_injective acc c j i hcacc v2.1 v1.1 hf1).symm
        subst hij
        have := ih (splice acc [c] i) is js (List.nodup_cons.1 hnd).2 (hdisS i)
          (by simpa using h1) (by simpa using h2)
          (by rw [splice_length]; exact v1.2) (by rw [splice_length]; exact v2.2) heq
        rw [this]

theorem splice_of_count_one : ∀ (m : GoString) (c : Nat), m.count c = 1 →
    ∃ i, i ≤ (m.filter (fun x => decide (x ≠ c))).length ∧
      m = splice (m.filter (fun x => decide (x ≠ c))) [c] i := by
  intro m
  induction m with
  | nil => intro c h; simp at h
  | cons a m ih =>
    intro c h
    by_cases hac : a = c
    · subst hac
      have h0 : m.count a = 0 := by simpa using h
      have hnot : a ∉ m := List.count_eq_zero.1 h0
      have hf : m.filter (fun x => decide (x ≠ a)) = m := by
        rw [List.filter_eq_self]
        intro x hx
        have : x ≠ a := fun hxa => hnot (hxa ▸ hx)
        simpa using this
      have hfa : (a :: m).filter (fun x => decide (x ≠ a)) = m := by
        rw [List.filter_cons_of_neg (by simp)]; exact hf
      refine ⟨0, Nat.zero_le _, ?_⟩
      rw [hfa, splice_zero]
      rfl
    · have h1 : m.count c = 1 := by
        rw [List.count_cons_of_ne (Ne.symm hac)] at h
        exact h
      obtain ⟨i, hi, hm⟩ := ih c h1
      have hfa : (a :: m).filter (fun x => decide (x ≠ c)) =
          a :: m.filter (fun x => decide (x ≠ c)) := by
        simp [hac]
      refine ⟨i + 1, ?_, ?_⟩
      · rw [hfa]; simpa using hi
      · rw [hfa, splice_cons_succ, ← hm]

theorem insertSeq_surjective : ∀ (cs : List Nat) (acc l : GoString),
    cs.Nodup → (∀ x ∈ acc, x ∉ cs) → l.filter (fun x => decide (x ∉ cs)) = acc →
    l.Perm (acc ++ cs) →
    ∃ is, is.length = cs.length ∧ validPositions acc.length is = true ∧
      insertSeq acc cs is = l := by
  intro cs
  induction cs with
  | nil =>
    intro acc l _ _ hf _
    refine ⟨[], rfl, rfl, ?_⟩
    simp at hf
    simp [insertSeq, hf]
  | cons c cs ih =>
    intro acc l hnd hdis hf hperm
    have hc : c ∉ cs := (List.nodup_cons.1 hnd).1
    have hcacc : c ∉ acc := fun h => hdis c h (List.mem_cons_self c cs)
    have hpred : (fun x => decide (x ∉ c :: cs)) =
        (fun x => decide (x ≠ c) && decide (x ∉ cs)) := by
      funext x
      simp [List.mem_cons, not_or]
    have hf1 : (l.filter (fun x => decide (x ∉ cs))).filter (fun x => decide (x ≠ c)) = acc := by
      rw [List.filter_filter, ← hpred]; exact hf
    have hp1 : (l.filter (fun x => decide (x ∉ cs))).Perm (acc ++ [c]) := by
      have h1 := hperm.filter (fun x => decide (x ∉ cs))
      have h2 : (acc ++ c :: cs).filter (fun x => decide (x ∉ cs)) = acc ++ [c] := by
        rw [List.filter_append]
        have ha : acc.filter (fun x => decide (x ∉ cs)) = acc := by
          rw [List.filter_eq_self]
          intro x hx
          have : x ∉ cs := fun hin => hdis x hx (List.mem_cons_of_mem c hin)
          simpa using this
        have hcs : cs.filter (fun x => decide (x ∉ cs)) = [] := by
          rw [List.filter_eq_nil_iff]
          intro x hx
          simpa using hx
        rw [ha, List.filter_cons]
        simp [hc, hcs]
      rw [h2] at h1
      exact h1
    have hcount : (l.filter (fun x => decide (x ∉ cs))).count c = 1 := by
      rw [hp1.count_eq, List.count_append, List.count_eq_zero.2 hcacc]
      simp
    obtain ⟨i, hi, hm⟩ := splice_of_count_one _ c hcount
    rw [hf1] at hi hm
    have hdis1 : ∀ x ∈ splice acc [c] i, x ∉ cs := by
      intro x hx
      have hx1 : x ∈ c :: acc := (splice_perm_cons acc c i).subset hx
      rcases List.mem_cons.1 hx1 with h | h
      · rw [h]; exact hc
      · exact fun hin => hdis x h (List.mem_cons_of_mem c hin)
    have hperm1 : l.Perm (splice acc [c] i ++ cs) := by
      have h2 : (splice acc [c] i ++ cs).Perm ((c :: acc) ++ cs) :=
        (splice_perm_cons acc c i).append_right cs
      have h3 : ((c :: acc) ++ cs).Perm (acc ++ c :: cs) := by
        simpa using (@List.perm_middle _ c acc cs).symm
      exact hperm.trans (h2.trans h3).symm
    obtain ⟨is, hlen, hval, hins⟩ :=
      ih (splice acc [c] i) l (List.nodup_cons.1 hnd).2 hdis1 hm hperm1
    refine ⟨i :: is, by simp [hlen], ?_, ?_⟩
    · simp only [validPositions, Bool.and_eq_true, decide_eq_true_eq]
      rw [splice_length] at hval
      exact ⟨hi, hval⟩
    · simp only [insertSeq]; exact hins

/-- C14 (every layout exactly once). The splice of `randomInsert` at a drawn
position `i ≤ len(acc)` is `splice acc [c] i`. For pairwise distinct bytes `cs`
inserted in this order into the empty accumulator, with position sequences
`is` of the same length whose k-th entry is at most `k - 1`: every result is an
ordering of `cs`, two different position sequences give different results, and
every ordering of `cs` is the result of some position sequence. -/
theorem insertion_reaches_every_layout (cs : List Nat) (hnd : cs.Nodup) :
    (∀ (acc : GoString) (c i : Nat) (rest : RNG), i ≤ acc.length →
      ∃ rest1, randomInsert acc [c] (.value i :: rest) = .ret (splice acc [c] i, none) rest1) ∧
    (∀ is : List Nat, is.length = cs.length → validPositions 0 is = true →
      (insertSeq [] cs is).Perm cs) ∧
    (∀ is js : List Nat, is.length = cs.length → js.length = cs.length →
      validPositions 0 is = true → validPositions 0 js = true →
      insertSeq [] cs is = insertSeq [] cs js → is = js) ∧
    (∀ l : GoString, l.Perm cs →
      ∃ is : List Nat, is.length = cs.length ∧ validPositions 0 is = true ∧
        insertSeq [] cs is = l) := by
  refine ⟨?_, ?_, ?_, ?_⟩
  · intro acc c i rest hi
    by_cases hacc : acc = []
    · subst hacc
      have : i = 0 := by simpa using hi
      subst this
      exact ⟨_, by rw [randomInsert_empty, splice_zero]; rfl⟩
    · refine ⟨rest, ?_⟩
      rw [randomInsert_value hacc, Nat.mod_eq_of_lt (Nat.lt_succ_of_le hi)]
  · intro is hlen _
    simpa using insertSeq_perm cs [] is hlen
  · intro is js h1 h2 v1 v2 heq
    exact insertSeq_injective cs [] is js hnd (by simp) h1 h2 v1 v2 heq
  · intro l hl
    refine insertSeq_surjective cs [] l hnd (by simp) ?_ (by simpa using hl)
    rw [List.filter_eq_nil_iff]
    intro x hx
    simpa using hl.subset hx

/-- Witness of C14: inserting `a`, `b`, `c` at positions 0, 0, 1 gives `bca`, an
ordering of `abc`. -/
theorem insertion_reaches_every_layout_witness :
    ([97, 98, 99] : List Nat).Nodup ∧ insertSeq [] [97, 98, 99] [0, 0, 1] = [98, 99, 97] ∧
      (insertSeq [] [97, 98, 99] [0, 0, 1]).Perm [97, 98, 99] :=
  ⟨by decide, by decide,
   (insertion_reaches_every_layout [97, 98, 99] (by decide)).2.1 [0, 0, 1] (by decide)
     (by decide)⟩

/-! ## Runs without rejection -/

theorem pick_spec {pool : GoString} (hne : pool ≠ []) (hascii : isAscii pool) (v : Nat)
    (rest : RNG) :
    pick pool v ∈ pool ∧
      randomElement pool (.value v :: rest) = .ret ([pick pool v], none) rest := by
  obtain ⟨b, hb, hmem, h⟩ := randomElement_value hne v rest
  have hp : pick pool v = b := by
    unfold pick
    rw [List.getD_eq_getElem?_getD, hb]
    rfl
  rw [hp]
  rw [byteToString_ascii (hascii b hmem)] at h
  exact ⟨hmem, h⟩

theorem interleave_zero (v p : Nat) (vs ps : List Nat) :
    interleave 0 (v :: vs) (p :: ps) = .value v :: interleave 1 vs ps := rfl

theorem interleave_succ (m v p : Nat) (vs ps : List Nat) :
    interleave (m + 1) (v :: vs) (p :: ps) = .value v :: .value p :: interleave (m + 2) vs ps :=
  rfl

theorem validPositions_cons (m i : Nat) (is : List Nat) :
    validPositions m (i :: is) = (decide (i ≤ m) && validPositions (m + 1) is) := rfl

theorem interleave_append : ∀ (vs1 ps1 : List Nat) (m : Nat) (vs2 ps2 : List Nat),
    vs1.length = ps1.length →
    interleave m (vs1 ++ vs2) (ps1 ++ ps2) =
      interleave m vs1 ps1 ++ interleave (m + vs1.length) vs2 ps2 := by
  intro vs1
  induction vs1 with
  | nil =>
    intro ps1 m vs2 ps2 h
    cases ps1 with
    | nil => cases m <;> simp [interleave]
    | cons p ps1 => simp at h
  | cons v vs1 ih =>
    intro ps1 m vs2 ps2 h
    cases ps1 with
    | nil => simp at h
    | cons p ps1 =>
      have h1 : vs1.length = ps1.length := by simpa using h
      cases m with
      | zero =>
        rw [List.cons_append, List.cons_append, interleave_zero, interleave_zero,
          ih ps1 1 vs2 ps2 h1, List.length_cons,
          show 0 + (vs1.length + 1) = 1 + vs1.length by omega, List.cons_append]
      | succ m =>
        rw [List.cons_append, List.cons_append, interleave_succ, interleave_succ,
          ih ps1 (m + 2) vs2 ps2 h1, List.length_cons,
          show m + 1 + (vs1.length + 1) = m + 2 + vs1.length by omega, List.cons_append,
          List.cons_append]

theorem interleave_length_ge : ∀ (vs ps : List Nat) (m : Nat), vs.length = ps.length →
    vs.length ≤ (interleave m vs ps).length := by
  intro vs
  induction vs with
  | nil => intro ps m _; simp
  | cons v vs ih =>
    intro ps m h
    cases ps with
    | nil => simp at h
    | cons p ps =>
      have h1 : vs.length = ps.length := by simpa using h
      cases m with
      | zero =>
        simp only [interleave, List.length_cons]
        have := ih ps 1 h1
        omega
      | succ m =>
        simp only [interleave, List.length_cons]
        have := ih ps (m + 2) h1
        omega

theorem interleave_allDrawsSucceed : ∀ (vs ps : List Nat) (m : Nat),
    allDrawsSucceed (interleave m vs ps) := by
  intro vs
  induction vs with
  | nil => intro ps m; cases m <;> cases ps <;> simp [interleave, allDrawsSucceed]
  | cons v vs ih =>
    intro ps m
    cases ps with
    | nil => cases m <;> simp [interleave, allDrawsSucceed]
    | cons p ps =>
      cases m with
      | zero =>
        have := ih ps 1
        simp only [interleave, allDrawsSucceed, List.mem_cons] at this ⊢
        rintro r (h | h)
        · rw [h]; rfl
        · exact this r h
      | succ m =>
        have := ih ps (m + 2)
        simp only [interleave, allDrawsSucceed, List.mem_cons] at this ⊢
        rintro r (h | h | h)
        · rw [h]; rfl
        · rw [h]; rfl
        · exact this r h

theorem insertSeq_append : ∀ (cs1 is1 : List Nat) (acc : GoString) (cs2 is2 : List Nat),
    cs1.length = is1.length →
    insertSeq acc (cs1 ++ cs2) (is1 ++ is2) = insertSeq (insertSeq acc cs1 is1) cs2 is2 := by
  intro cs1
  induction cs1 with
  | nil =>
    intro is1 acc cs2 is2 h
    cases is1 with
    | nil => simp [insertSeq]
    | cons p ps => simp at h
  | cons c cs1 ih =>
    intro is1 acc cs2 is2 h
    cases is1 with
    | nil => simp at h
    | cons p ps =>
      simp only [List.cons_append, insertSeq]
      exact ih ps _ cs2 is2 (by simpa using h)

theorem insertSeq_length (cs is : List Nat) (acc : GoString) (h : is.length = cs.length) :
    (insertSeq acc cs is).length = acc.length + cs.length := by
  rw [(insertSeq_perm cs acc is h).length_eq]; simp

theorem validPositions_append : ∀ (ps1 ps2 : List Nat) (m : Nat),
    validPositions m (ps1 ++ ps2) =
      (validPositions m ps1 && validPositions (m + ps1.length) ps2) := by
  intro ps1
  induction ps1 with
  | nil => intro ps2 m; simp [validPositions]
  | cons p ps1 ih =>
    intro ps2 m
    rw [List.cons_append, validPositions_cons, validPositions_cons, ih, List.length_cons,
      Bool.and_assoc, show m + 1 + ps1.length = m + (ps1.length + 1) by omega]

theorem insertSeq_last : ∀ (cs : List Nat) (acc : GoString),
    insertSeq acc cs (List.range' acc.length cs.length) = acc ++ cs := by
  intro cs
  induction cs with
  | nil => intro acc; simp [insertSeq]
  | cons c cs ih =>
    intro acc
    simp only [List.length_cons, List.range'_succ, insertSeq, splice_end]
    have := ih (acc ++ [c])
    simp only [List.length_append, List.length_singleton, List.append_assoc,
      List.singleton_append] at this
    exact this

theorem insertSeq_first : ∀ (cs : List Nat) (acc : GoString),
    insertSeq acc cs (List.replicate cs.length 0) = cs.reverse ++ acc := by
  intro cs
  induction cs with
  | nil => intro acc; simp [insertSeq]
  | cons c cs ih =>
    intro acc
    simp only [List.length_cons, List.replicate_succ, insertSeq, splice_zero]
    rw [ih]
    simp

theorem validPositions_last : ∀ (n m : Nat), validPositions m (List.range' m n) = true := by
  intro n
  induction n with
  | zero => intro m; simp [validPositions]
  | succ n ih => intro m; simp [List.range'_succ, validPositions, ih]

theorem validPositions_first : ∀ (n m : Nat), validPositions m (List.replicate n 0) = true := by
  intro n
  induction n with
  | zero => intro m; simp [validPositions]
  | succ n ih => intro m; simp [List.replicate_succ, validPositions, ih]

theorem default_pools :
    ∀ noUppercase : Bool,
      letterPool defaultGenerator noUppercase ≠ [] ∧
      isAscii (letterPool defaultGenerator noUppercase) ∧
      defaultGenerator.digits ≠ [] ∧ isAscii defaultGenerator.digits ∧
      defaultGenerator.symbols ≠ [] ∧ isAscii defaultGenerator.symbols := by
  intro noUppercase
  refine ⟨?_, default_letters_ascii noUppercase, by decide, default_digits_ascii, by decide,
    default_symbols_ascii⟩
  cases noUppercase <;> decide

/-! ## One iteration of a loop -/

theorem phaseLoop_done {ph : Phase} {pool : GoString} {count : Int} {ar : Bool} {i : Int}
    (h : ¬ i < count) (fuel : Nat) (result : GoString) (rng : RNG) :
    phaseLoop ph pool count ar (fuel + 1) i result rng = .next result rng := by
  simp only [phaseLoop, if_neg h]

theorem phaseLoop_starve_element {ph : Phase} {pool : GoString} {count : Int} {ar : Bool}
    {i : Int} (h : i < count) (hne : pool ≠ []) (fuel : Nat) (result : GoString) :
    phaseLoop ph pool count ar (fuel + 1) i result [] =
      .exit (.starved ph .element i result) := by
  simp only [phaseLoop, if_pos h, randomElement_nil hne]

theorem phaseLoop_step_reject {ph : Phase} {pool : GoString} {count : Int} {i : Int}
    (h : i < count) (hne : pool ≠ []) (hascii : isAscii pool) (fuel : Nat) (result : GoString)
    (v : Nat) (rest : RNG) (hin : pick pool v ∈ result) :
    phaseLoop ph pool count false (fuel + 1) i result (.value v :: rest) =
      phaseLoop ph pool count false fuel i result rest := by
  have hc : Contains result [pick pool v] = true := (contains_single _ _).2 hin
  simp only [phaseLoop, if_pos h, (pick_spec hne hascii v rest).2, hc, Bool.not_false,
    Bool.and_self, if_true]
  rw [show i - 1 + 1 = i by omega]

theorem accept_cond {ar : Bool} {result : GoString} {b : Nat} (hacc : ar = true ∨ b ∉ result) :
    (!ar && Contains result [b]) = false := by
  rcases hacc with h | h
  · simp [h]
  · have : Contains result [b] = false := by
      cases hc : Contains result [b] with
      | false => rfl
      | true => exact absurd ((contains_single _ _).1 hc) h
    simp [this]

theorem phaseLoop_step_first {ph : Phase} {pool : GoString} {count : Int} {ar : Bool} {i : Int}
    (h : i < count) (hne : pool ≠ []) (hascii : isAscii pool) (fuel : Nat)
    (v : Nat) (rest : RNG) :
    phaseLoop ph pool count ar (fuel + 1) i [] (.value v :: rest) =
      phaseLoop ph pool count ar fuel (i + 1) [pick pool v] rest := by
  have hc := @accept_cond ar [] (pick pool v) (Or.inr (by simp))
  simp only [phaseLoop, if_pos h, (pick_spec hne hascii v rest).2, hc, randomInsert_empty]
  simp

theorem phaseLoop_step_insert {ph : Phase} {pool : GoString} {count : Int} {ar : Bool} {i : Int}
    (h : i < count) (hne : pool ≠ []) (hascii : isAscii pool) (fuel : Nat) (result : GoString)
    (hres : result ≠ []) (v w : Nat) (rest : RNG) (hacc : ar = true ∨ pick pool v ∉ result) :
    phaseLoop ph pool count ar (fuel + 1) i result (.value v :: .value w :: rest) =
      phaseLoop ph pool count ar fuel (i + 1)
        (splice result [pick pool v] (w % (result.length + 1))) rest := by
  simp only [phaseLoop, if_pos h, (pick_spec hne hascii v (.value w :: rest)).2, accept_cond hacc,
    randomInsert_value hres]
  simp

theorem phaseLoop_starve_position {ph : Phase} {pool : GoString} {count : Int} {ar : Bool}
    {i : Int} (h : i < count) (hne : pool ≠ []) (hascii : isAscii pool) (fuel : Nat)
    (result : GoString) (hres : result ≠ []) (v : Nat)
    (hacc : ar = true ∨ pick pool v ∉ result) :
    phaseLoop ph pool count ar (fuel + 1) i result [.value v] =
      .exit (.starved ph .position i result) := by
  simp only [phaseLoop, if_pos h, (pick_spec hne hascii v []).2, accept_cond hacc,
    randomInsert_nil hres]
  simp

/-! ## Fresh bytes -/

theorem fresh_nil (pool : GoString) : fresh pool [] = pool := by
  simp [fresh]

theorem fresh_congr {pool r1 r2 : GoString} (h : ∀ x, x ∈ r1 ↔ x ∈ r2) :
    fresh pool r1 = fresh pool r2 := by
  unfold fresh
  congr 1
  funext x
  simp [h x]

theorem fresh_of_disjoint {pool result : GoString} (h : ∀ b ∈ pool, b ∉ result) :
    fresh pool result = pool := by
  unfold fresh
  rw [List.filter_eq_self]
  intro b hb
  simpa using h b hb

theorem mem_fresh {pool result : GoString} {b : Nat} :
    b ∈ fresh pool result ↔ b ∈ pool ∧ b ∉ result := by
  simp [fresh]

theorem fresh_cons_length {pool result : GoString} {b : Nat} (hnd : pool.Nodup) (hb : b ∈ pool)
    (hnew : b ∉ result) :
    (fresh pool (b :: result)).length + 1 = (fresh pool result).length := by
  have hfn : (fresh pool result).Nodup := hnd.filter _
  have hbf : b ∈ fresh pool result := mem_fresh.2 ⟨hb, hnew⟩
  have he : fresh pool (b :: result) = (fresh pool result).erase b := by
    rw [hfn.erase_eq_filter]
    unfold fresh
    rw [List.filter_filter]
    congr 1
    funext x
    by_cases hx : x = b <;> simp [hx, List.mem_cons, not_or]
  rw [he, List.length_erase_of_mem hbf]
  have : 0 < (fresh pool result).length := List.length_pos_of_mem hbf
  omega

theorem fresh_splice_length {pool result : GoString} {b : Nat} (k : Nat) (hnd : pool.Nodup)
    (hb : b ∈ pool) (hnew : b ∉ result) :
    (fresh pool (splice result [b] k)).length + 1 = (fresh pool result).length := by
  rw [@fresh_congr pool _ (b :: result) (fun x => (splice_perm_cons result b k).mem_iff)]
  exact fresh_cons_length hnd hb hnew

/-! ## Completing a loop -/

theorem exists_entropy {pool : GoString} {b : Nat} (hb : b ∈ pool) :
    ∃ v, pick pool v = b := by
  obtain ⟨n, hn⟩ := List.getElem?_of_mem hb
  have hlt : n < pool.length := by
    rcases Nat.lt_or_ge n pool.length with h | h
    · exact h
    · rw [List.getElem?_eq_none h] at hn; cases hn
  refine ⟨n, ?_⟩
  unfold pick
  rw [Nat.mod_eq_of_lt hlt, List.getD_eq_getElem?_getD, hn]
  rfl

theorem allDrawsSucceed_nil : allDrawsSucceed [] := by
  intro r hr; cases hr

theorem allDrawsSucceed_cons {v : Nat} {rng : RNG} (h : allDrawsSucceed rng) :
    allDrawsSucceed (.value v :: rng) := by
  intro r hr
  rcases List.mem_cons.1 hr with h1 | h1
  · rw [h1]; rfl
  · exact h r h1

theorem allDrawsSucceed_append {a b : RNG} (ha : allDrawsSucceed a) (hb : allDrawsSucceed b) :
    allDrawsSucceed (a ++ b) := by
  intro r hr
  rcases List.mem_append.1 hr with h1 | h1
  · exact ha r h1
  · exact hb r h1

theorem allDrawsSucceed_tail {r : RandOutcome} {rng : RNG} (h : allDrawsSucceed (r :: rng)) :
    (∃ v, r = .value v) ∧ allDrawsSucceed rng := by
  constructor
  · have := h r (List.mem_cons_self r rng)
    cases r with
    | value v => exact ⟨v, rfl⟩
    | failure e => simp [RandOutcome.isValue] at this
  · exact fun x hx => h x (List.mem_cons_of_mem r hx)

/-- From a loop state in which enough fresh bytes remain, some successful
draws complete the loop. -/
theorem phaseLoop_complete {ph : Phase} {pool : GoString} {count : Int} {ar : Bool}
    (hne : pool ≠ []) (hascii : isAscii pool) (hnd : pool.Nodup) :
    ∀ (n : Nat) (i : Int) (result : GoString), count - i ≤ (n : Int) →
      (ar = false → count - i ≤ ((fresh pool result).length : Int)) →
      ∃ ext : RNG, allDrawsSucceed ext ∧ ∃ r : GoString, ∀ (tail : RNG) (fuel : Nat),
        ext.length < fuel →
        phaseLoop ph pool count ar fuel i result (ext ++ tail) = .next r tail := by
  intro n
  induction n with
  | zero =>
    intro i result hn _
    refine ⟨[], allDrawsSucceed_nil, result, ?_⟩
    intro tail fuel hfuel
    obtain ⟨f, rfl⟩ : ∃ f, fuel = f + 1 := ⟨fuel - 1, by simp at hfuel; omega⟩
    exact phaseLoop_done (by simp at hn; omega) f result _
  | succ n ih =>
    intro i result hn hinv
    by_cases hlt : i < count
    · -- a byte that passes the rejection test
      have hb : ∃ b, b ∈ pool ∧ (ar = true ∨ b ∉ result) := by
        cases har : ar with
        | true =>
          obtain ⟨b, hb⟩ := List.exists_mem_of_ne_nil pool hne
          exact ⟨b, hb, Or.inl rfl⟩
        | false =>
          have hpos : 0 < (fresh pool result).length := by
            have := hinv har
            omega
          obtain ⟨b, hb⟩ := List.exists_mem_of_length_pos hpos
          exact ⟨b, (mem_fresh.1 hb).1, Or.inr (mem_fresh.1 hb).2⟩
      obtain ⟨b, hbpool, hacc⟩ := hb
      obtain ⟨v, hv⟩ := exists_entropy hbpool
      have hinv1 : ∀ k, ar = false →
          count - (i + 1) ≤ ((fresh pool (splice result [b] k)).length : Int) := by
        intro k har
        have hnew : b ∉ result := by
          rcases hacc with h | h
          · rw [har] at h; cases h
          · exact h
        have h1 := @fresh_splice_length pool _ _ k hnd hbpool hnew
        have h2 := hinv har
        omega
      by_cases hres : result = []
      · subst hres
        have hinv2 : ar = false → count - (i + 1) ≤ ((fresh pool [b]).length : Int) := by
          intro har
          have := hinv1 0 har
          simpa [splice] using this
        obtain ⟨ext, hext, r, hrun⟩ := ih (i + 1) [b] (by omega) hinv2
        refine ⟨.value v :: ext, allDrawsSucceed_cons hext, r, ?_⟩
        intro tail fuel hfuel
        obtain ⟨f, rfl⟩ : ∃ f, fuel = f + 1 := ⟨fuel - 1, by simp at hfuel; omega⟩
        rw [List.cons_append, phaseLoop_step_first hlt hne hascii, hv]
        exact hrun tail f (by simp at hfuel; omega)
      · obtain ⟨ext, hext, r, hrun⟩ := ih (i + 1) (splice result [b] 0) (by omega) (hinv1 0)
        refine ⟨.value v :: .value 0 :: ext, allDrawsSucceed_cons (allDrawsSucceed_cons hext), r, ?_⟩
        intro tail fuel hfuel
        obtain ⟨f, rfl⟩ : ∃ f, fuel = f + 1 := ⟨fuel - 1, by simp at hfuel; omega⟩
        rw [List.cons_append, List.cons_append,
          phaseLoop_step_insert hlt hne hascii f result hres v 0 _ (by rw [hv]; exact hacc), hv,
          Nat.zero_mod]
        exact hrun tail f (by simp at hfuel; omega)
    · refine ⟨[], allDrawsSucceed_nil, result, ?_⟩
      intro tail fuel hfuel
      obtain ⟨f, rfl⟩ : ∃ f, fuel = f + 1 := ⟨fuel - 1, by simp at hfuel; omega⟩
      exact phaseLoop_done hlt f result _

/-- After any successful draws, from a loop state in which enough fresh bytes
remain, some further successful draws complete the loop. -/
theorem phaseLoop_resume {ph : Phase} {pool : GoString} {count : Int} {ar : Bool}
    (hne : pool ≠ []) (hascii : isAscii pool) (hnd : pool.Nodup) :
    ∀ (m : Nat) (rng0 : RNG) (i : Int) (result : GoString), rng0.length ≤ m →
      allDrawsSucceed rng0 →
      (ar = false → count - i ≤ ((fresh pool result).length : Int)) →
      ∃ (ext : RNG) (r : GoString) (rng1 : RNG), allDrawsSucceed ext ∧ allDrawsSucceed rng1 ∧
        ∀ (tail : RNG) (fuel : Nat), (rng0 ++ ext).length < fuel →
          phaseLoop ph pool count ar fuel i result (rng0 ++ ext ++ tail) =
            .next r (rng1 ++ tail) := by
  intro m
  induction m with
  | zero =>
    intro rng0 i result hlen _ hinv
    have h0 : rng0 = [] := List.length_eq_zero.1 (Nat.le_zero.1 hlen)
    subst h0
    obtain ⟨ext, hext, r, hrun⟩ :=
      @phaseLoop_complete ph _ _ _ hne hascii hnd (count - i).toNat i result (by omega) hinv
    refine ⟨ext, r, [], hext, allDrawsSucceed_nil, ?_⟩
    intro tail fuel hfuel
    simpa using hrun tail fuel (by simpa using hfuel)
  | succ m ih =>
    intro rng0 i result hlen hok hinv
    by_cases hlt : i < count
    · cases rng0 with
      | nil =>
        obtain ⟨ext, hext, r, hrun⟩ :=
          @phaseLoop_complete ph _ _ _ hne hascii hnd (count - i).toNat i result (by omega) hinv
        refine ⟨ext, r, [], hext, allDrawsSucceed_nil, ?_⟩
        intro tail fuel hfuel
        simpa using hrun tail fuel (by simpa using hfuel)
      | cons r0 rest =>
        obtain ⟨⟨v, hv⟩, hrest⟩ := allDrawsSucceed_tail hok
        subst hv
        have hlen1 : rest.length ≤ m := by simpa using hlen
        have hbpool : pick pool v ∈ pool := (pick_spec hne hascii v []).1
        by_cases hacc : ar = true ∨ pick pool v ∉ result
        · have hinv1 : ∀ k, ar = false →
              count - (i + 1) ≤ ((fresh pool (splice result [pick pool v] k)).length : Int) := by
            intro k har
            have hnew : pick pool v ∉ result := by
              rcases hacc with h | h
              · rw [har] at h; cases h
              · exact h
            have h1 := @fresh_splice_length pool _ _ k hnd hbpool hnew
            have h2 := hinv har
            omega
          by_cases hres : result = []
          · subst hres
            have hinv2 : ar = false →
                count - (i + 1) ≤ ((fresh pool [pick pool v]).length : Int) := by
              intro har
              have := hinv1 0 har
              simpa [splice] using this
            obtain ⟨ext, r, rng1, hext, hrng1, hrun⟩ :=
              ih rest (i + 1) [pick pool v] hlen1 hrest hinv2
            refine ⟨ext, r, rng1, hext, hrng1, ?_⟩
            intro tail fuel hfuel
            obtain ⟨f, rfl⟩ : ∃ f, fuel = f + 1 := ⟨fuel - 1, by simp at hfuel; omega⟩
            rw [List.cons_append, List.cons_append, phaseLoop_step_first hlt hne hascii]
            exact hrun tail f (by simp at hfuel ⊢; omega)
          · cases rest with
            | nil =>
              obtain ⟨ext, hext, r, hrun⟩ :=
                @phaseLoop_complete ph _ _ _ hne hascii hnd (count - (i + 1)).toNat (i + 1)
                  (splice result [pick pool v] 0) (by omega) (hinv1 0)
              refine ⟨.value 0 :: ext, r, [], allDrawsSucceed_cons hext, allDrawsSucceed_nil, ?_⟩
              intro tail fuel hfuel
              obtain ⟨f, rfl⟩ : ∃ f, fuel = f + 1 := ⟨fuel - 1, by simp at hfuel; omega⟩
              simp only [List.cons_append, List.nil_append]
              rw [phaseLoop_step_insert hlt hne hascii f result hres v 0 _ hacc, Nat.zero_mod]
              exact hrun tail f (by simp at hfuel; omega)
            | cons r1 rest1 =>
              obtain ⟨⟨w, hw⟩, hrest1⟩ := allDrawsSucceed_tail hrest
              subst hw
              have hlen2 : rest1.length ≤ m := by simp at hlen1; omega
              obtain ⟨ext, r, rng1, hext, hrng1, hrun⟩ :=
                ih rest1 (i + 1) _ hlen2 hrest1 (hinv1 (w % (result.length + 1)))
              refine ⟨ext, r, rng1, hext, hrng1, ?_⟩
              intro tail fuel hfuel
              obtain ⟨f, rfl⟩ : ∃ f, fuel = f + 1 := ⟨fuel - 1, by simp at hfuel; omega⟩
              simp only [List.cons_append]
              rw [phaseLoop_step_insert hlt hne hascii f result hres v w _ hacc]
              exact hrun tail f (by simp at hfuel ⊢; omega)
        · -- the draw is rejected
          have har : ar = false := by
            cases ar with
            | true => exact absurd (Or.inl rfl) hacc
            | false => rfl
          have hin : pick pool v ∈ result := by
            by_contra hc
            exact hacc (Or.inr hc)
          subst har
          obtain ⟨ext, r, rng1, hext, hrng1, hrun⟩ := ih rest i result hlen1 hrest hinv
          refine ⟨ext, r, rng1, hext, hrng1, ?_⟩
          intro tail fuel hfuel
          obtain ⟨f, rfl⟩ : ∃ f, fuel = f + 1 := ⟨fuel - 1, by simp at hfuel; omega⟩
          simp only [List.cons_append]
          rw [phaseLoop_step_reject hlt hne hascii f result v _ hin]
          exact hrun tail f (by simp at hfuel ⊢; omega)
    · refine ⟨[], result, rng0, allDrawsSucceed_nil, hok, ?_⟩
      intro tail fuel hfuel
      obtain ⟨f, rfl⟩ : ∃ f, fuel = f + 1 := ⟨fuel - 1, by simp at hfuel; omega⟩
      simp only [List.append_nil]
      exact phaseLoop_done hlt f result _

/-! ## Termination -/

theorem default_pools_nodup (noUppercase : Bool) :
    (letterPool defaultGenerator noUppercase).Nodup ∧ defaultGenerator.digits.Nodup ∧
      defaultGenerator.symbols.Nodup := by
  refine ⟨?_, by decide, by decide⟩
  rw [default_letterPool]
  cases noUppercase <;> decide

/-- What passing the pre-checks of the code gives. -/
theorem preCheck_none_bounds {g : Generator} {length numDigits numSymbols : Int}
    {noUppercase allowRepeat : Bool}
    (h : preCheck g length numDigits numSymbols noUppercase allowRepeat = none) :
    0 ≤ wrap64 (wrap64 (length - numDigits) - numSymbols) ∧
    (allowRepeat = false →
      wrap64 (wrap64 (length - numDigits) - numSymbols) ≤
        ((letterPool g noUppercase).length : Int) ∧
      numDigits ≤ (g.digits.length : Int) ∧ numSymbols ≤ (g.symbols.length : Int)) := by
  unfold preCheck at h
  unfold letterPool
  cases noUppercase <;> cases allowRepeat <;>
    simp only [Bool.not_false, Bool.not_true, Bool.true_and, Bool.false_and, decide_eq_true_eq,
      if_true, if_false, Bool.false_eq_true] at h ⊢ <;>
    split_ifs at h <;>
    refine ⟨by omega, ?_⟩ <;>
    intro har <;>
    first
      | exact ⟨by omega, by omega, by omega⟩
      | cases har

/-- For the default generator and a request that passes the pre-checks of the
code, any successful draws can be continued by successful draws on which
`Generate` returns a password. -/
theorem default_resume {length numDigits numSymbols : Int} {noUppercase allowRepeat : Bool}
    (hpc : preCheck defaultGenerator length numDigits numSymbols noUppercase allowRepeat = none)
    (rng0 : RNG) (hok : allDrawsSucceed rng0) :
    ∃ ext : RNG, allDrawsSucceed ext ∧ ∃ pw : GoString,
      Generate length numDigits numSymbols noUppercase allowRepeat (rng0 ++ ext) =
        .returned pw none := by
  obtain ⟨hl, hla, hd, hda, hs, hsa⟩ := default_pools noUppercase
  obtain ⟨hln, hdn, hsn⟩ := default_pools_nodup noUppercase
  have hchecks := (preCheck_none_bounds hpc).2
  -- the letter loop
  obtain ⟨ext1, r1, rng1, hext1, hrng1, hrun1⟩ :=
    @phaseLoop_resume .letters _
      (wrap64 (wrap64 (length - numDigits) - numSymbols)) allowRepeat
      hl hla hln rng0.length rng0 0 [] (le_refl _) hok
      (by intro har; rw [fresh_nil]; have := (hchecks har).1; omega)
  obtain ⟨la, hp1, hm1, _, _, _⟩ :=
    phaseLoop_next hla _ _ _ _ _ _ (hrun1 [] ((rng0 ++ ext1).length + 1) (Nat.lt_succ_self _))
  have hr1 : ∀ b ∈ r1, b ∈ letterPool defaultGenerator noUppercase := by
    intro b hb
    have := hp1.subset hb
    simp only [List.append_nil] at this
    exact hm1 b this
  -- the digit loop
  have hfd : fresh defaultGenerator.digits r1 = defaultGenerator.digits := by
    apply fresh_of_disjoint
    intro b hb hin
    have hbD : b ∈ Digits := by simpa [defaultGenerator_eq] using hb
    exact (default_digits_disjoint noUppercase b hbD).1 (hr1 b hin)
  obtain ⟨ext2, r2, rng2, hext2, hrng2, hrun2⟩ :=
    @phaseLoop_resume .digits _ numDigits allowRepeat
      hd hda hdn rng1.length rng1 0 r1 (le_refl _) hrng1
      (by intro har; rw [hfd]; have := (hchecks har).2.1; omega)
  obtain ⟨da, hp2, hm2, _, _, _⟩ :=
    phaseLoop_next hda _ _ _ _ _ _ (hrun2 [] ((rng1 ++ ext2).length + 1) (Nat.lt_succ_self _))
  have hr2 : ∀ b ∈ r2, b ∈ letterPool defaultGenerator noUppercase ∨ b ∈ Digits := by
    intro b hb
    rcases List.mem_append.1 (hp2.subset hb) with h | h
    · right; simpa [defaultGenerator_eq] using hm2 b h
    · left; exact hr1 b h
  -- the symbol loop
  have hfs : fresh defaultGenerator.symbols r2 = defaultGenerator.symbols := by
    apply fresh_of_disjoint
    intro b hb hin
    have hbS : b ∈ Symbols := by simpa [defaultGenerator_eq] using hb
    rcases hr2 b hin with h | h
    · exact (default_symbols_disjoint noUppercase b hbS).1 h
    · exact (default_symbols_disjoint noUppercase b hbS).2 h
  obtain ⟨ext3, r3, rng3, hext3, hrng3, hrun3⟩ :=
    @phaseLoop_resume .symbols _ numSymbols allowRepeat
      hs hsa hsn rng2.length rng2 0 r2 (le_refl _) hrng2
      (by intro har; rw [hfs]; have := (hchecks har).2.2; omega)
  refine ⟨ext1 ++ (ext2 ++ ext3), allDrawsSucceed_append hext1
    (allDrawsSucceed_append hext2 hext3), r3, ?_⟩
  rw [Generate_eq_default, Generate_preCheck_none hpc]
  have e1 := hrun1 (ext2 ++ ext3) ((rng0 ++ (ext1 ++ (ext2 ++ ext3))).length + 1)
    (by simp only [List.length_append]; omega)
  rw [List.append_assoc] at e1
  rw [e1]
  simp only
  have e2 := hrun2 ext3 ((rng1 ++ (ext2 ++ ext3)).length + 1)
    (by simp only [List.length_append]; omega)
  rw [List.append_assoc] at e2
  rw [e2]
  simp only
  have e3 := hrun3 [] ((rng2 ++ ext3).length + 1) (Nat.lt_succ_self _)
  rw [List.append_nil] at e3
  rw [e3]

theorem drawsNeeded_zero (m : Nat) : drawsNeeded m 0 = 0 := by
  simp [drawsNeeded]

theorem drawsNeeded_first (n : Nat) : drawsNeeded 0 (n + 1) = 1 + drawsNeeded 1 n := by
  cases n with
  | zero => rfl
  | succ n =>
    have h1 : drawsNeeded 0 (n + 1 + 1) = 2 * (n + 1 + 1) - 1 := by simp [drawsNeeded]
    have h2 : drawsNeeded 1 (n + 1) = 2 * (n + 1) := by simp [drawsNeeded]
    omega

theorem drawsNeeded_next (m n : Nat) :
    drawsNeeded (m + 1) (n + 1) = 2 + drawsNeeded (m + 1 + 1) n := by
  cases n with
  | zero => rfl
  | succ n =>
    have h1 : drawsNeeded (m + 1) (n + 1 + 1) = 2 * (n + 1 + 1) := by simp [drawsNeeded]
    have h2 : drawsNeeded (m + 1 + 1) (n + 1) = 2 * (n + 1) := by simp [drawsNeeded]
    omega

theorem drawsNeeded_pos (m n : Nat) : 0 < drawsNeeded m (n + 1) := by
  cases m with
  | zero => rw [drawsNeeded_first]; omega
  | succ m => rw [drawsNeeded_next]; omega

/-- With repeats allowed, a loop that still has `n` bytes to insert makes
exactly `drawsNeeded` draws: on at least that many successful outcomes it
falls through, on fewer it is short of a draw. -/
theorem phaseLoop_count {ph : Phase} {pool : GoString} {count : Int}
    (hne : pool ≠ []) (hascii : isAscii pool) :
    ∀ (n : Nat) (i : Int) (result : GoString) (rng : RNG) (fuel : Nat),
      (count - i).toNat = n → allDrawsSucceed rng → rng.length < fuel →
      (drawsNeeded result.length n ≤ rng.length →
        ∃ r, phaseLoop ph pool count true fuel i result rng =
            .next r (rng.drop (drawsNeeded result.length n)) ∧
          r.length = result.length + n) ∧
      (rng.length < drawsNeeded result.length n →
        ∃ k j acc,
          phaseLoop ph pool count true fuel i result rng = .exit (.starved ph k j acc)) := by
  intro n
  induction n with
  | zero =>
    intro i result rng fuel hn _ hfuel
    obtain ⟨f, rfl⟩ : ∃ f, fuel = f + 1 := ⟨fuel - 1, by omega⟩
    have hge : ¬ i < count := by omega
    rw [drawsNeeded_zero]
    refine ⟨fun _ => ⟨result, ?_, rfl⟩, fun h => absurd h (Nat.not_lt_zero _)⟩
    rw [phaseLoop_done hge]; rfl
  | succ n ih =>
    intro i result rng fuel hn hok hfuel
    obtain ⟨f, rfl⟩ : ∃ f, fuel = f + 1 := ⟨fuel - 1, by omega⟩
    have hlt : i < count := by omega
    have hn1 : (count - (i + 1)).toNat = n := by omega
    cases rng with
    | nil =>
      refine ⟨fun h => ?_, fun _ => ⟨.element, _, _, phaseLoop_starve_element hlt hne f result⟩⟩
      exfalso
      have := drawsNeeded_pos result.length n
      simp only [List.length_nil] at h
      omega
    | cons r0 rest =>
      obtain ⟨⟨v, hv⟩, hrest⟩ := allDrawsSucceed_tail hok
      subst hv
      have hf : rest.length < f := by
        simp only [List.length_cons] at hfuel; omega
      cases result with
      | nil =>
        obtain ⟨ih1, ih2⟩ := ih (i + 1) [pick pool v] rest f hn1 hrest hf
        rw [phaseLoop_step_first hlt hne hascii]
        simp only [List.length_nil, List.length_cons, List.length_singleton, drawsNeeded_first,
          Nat.zero_add] at ih1 ih2 ⊢
        constructor
        · intro h
          obtain ⟨r, hr, hlen⟩ := ih1 (by omega)
          refine ⟨r, ?_, by omega⟩
          rw [hr, Nat.add_comm 1, List.drop_succ_cons]
        · intro h
          exact ih2 (by omega)
      | cons a t =>
        have hres : (a :: t) ≠ [] := by simp
        cases rest with
        | nil =>
          refine ⟨fun h => ?_, fun _ => ⟨.position, _, _,
            phaseLoop_starve_position hlt hne hascii f (a :: t) hres v (Or.inl rfl)⟩⟩
          exfalso
          simp only [List.length_cons, List.length_nil, drawsNeeded_next] at h
          omega
        | cons r1 rest1 =>
          obtain ⟨⟨w, hw⟩, hrest1⟩ := allDrawsSucceed_tail hrest
          subst hw
          have hf1 : rest1.length < f := by
            simp only [List.length_cons] at hf; omega
          obtain ⟨ih1, ih2⟩ := ih (i + 1)
            (splice (a :: t) [pick pool v] (w % ((a :: t).length + 1))) rest1 f hn1 hrest1 hf1
          rw [phaseLoop_step_insert hlt hne hascii f (a :: t) hres v w _ (Or.inl rfl)]
          rw [splice_length] at ih1 ih2
          simp only [List.length_cons, drawsNeeded_next] at ih1 ih2 ⊢
          constructor
          · intro h
            obtain ⟨r, hr, hlen⟩ := ih1 (by omega)
            refine ⟨r, ?_, by omega⟩
            rw [hr, Nat.add_comm 2, List.drop_succ_cons, List.drop_succ_cons]
          · intro h
            exact ih2 (by omega)

theorem allDrawsSucceed_drop {rng : RNG} (h : allDrawsSucceed rng) (k : Nat) :
    allDrawsSucceed (rng.drop k) :=
  fun r hr => h r (List.mem_of_mem_drop hr)

theorem count_enough {n l1 l2 N1 N2 N3 : Nat} (hl1 : l1 = n - N1) (hl2 : l2 = l1 - N2)
    (h1 : N1 ≤ n) (h2 : N2 ≤ l1) (h3 : N3 ≤ l2) : ¬ n < N1 + N2 + N3 := by
  omega

theorem count_short3 {n l1 l2 N1 N2 N3 : Nat} (hl1 : l1 = n - N1) (hl2 : l2 = l1 - N2)
    (h1 : N1 ≤ n) (h2 : N2 ≤ l1) (h3 : ¬ N3 ≤ l2) : ¬ N1 + N2 + N3 ≤ n := by
  omega

theorem count_short2 {n l1 N1 N2 N3 : Nat} (hl1 : l1 = n - N1)
    (h1 : N1 ≤ n) (h2 : ¬ N2 ≤ l1) : ¬ N1 + N2 + N3 ≤ n := by
  omega

theorem count_short1 {n N1 N2 N3 : Nat} (h1 : ¬ N1 ≤ n) : ¬ N1 + N2 + N3 ≤ n := by
  omega

/-- With repeats allowed, the default generator makes exactly the draws the
three loops need, one after the other. -/
theorem default_count {length numDigits numSymbols : Int} {noUppercase : Bool} (a d s : Nat)
    (ha : wrap64 (wrap64 (length - numDigits) - numSymbols) = (a : Int))
    (hd : numDigits = (d : Int)) (hs : numSymbols = (s : Int))
    (rng : RNG) (hok : allDrawsSucceed rng) :
    (drawsNeeded 0 a + drawsNeeded a d + drawsNeeded (a + d) s ≤ rng.length →
      ∃ pw, Generate length numDigits numSymbols noUppercase true rng = .returned pw none ∧
        pw.length = a + d + s) ∧
    (rng.length < drawsNeeded 0 a + drawsNeeded a d + drawsNeeded (a + d) s →
      ∃ p k i acc,
        Generate length numDigits numSymbols noUppercase true rng = .starved p k i acc) := by
  obtain ⟨hl, hla, hdg, hda, hsy, hsa⟩ := default_pools noUppercase
  have hpc : preCheck defaultGenerator length numDigits numSymbols noUppercase true = none := by
    unfold preCheck
    simp only [ha]
    simp
  rw [Generate_eq_default, Generate_preCheck_none hpc, ha, hd, hs]
  obtain ⟨c1, c2⟩ := @phaseLoop_count .letters _ (a : Int) hl hla a 0 [] rng
    (rng.length + 1) (by simp) hok (Nat.lt_succ_self _)
  simp only [List.length_nil, Nat.zero_add] at c1 c2
  by_cases h1 : drawsNeeded 0 a ≤ rng.length
  · obtain ⟨r1, e1, hlen1⟩ := c1 h1
    rw [e1]
    simp only
    have hok1 := allDrawsSucceed_drop hok (drawsNeeded 0 a)
    have hl1 : (rng.drop (drawsNeeded 0 a)).length = rng.length - drawsNeeded 0 a :=
      List.length_drop _ _
    obtain ⟨c3, c4⟩ := @phaseLoop_count .digits _ (d : Int) hdg hda d 0 r1
      (rng.drop (drawsNeeded 0 a)) ((rng.drop (drawsNeeded 0 a)).length + 1) (by simp) hok1
      (Nat.lt_succ_self _)
    rw [hlen1] at c3 c4
    by_cases h2 : drawsNeeded a d ≤ (rng.drop (drawsNeeded 0 a)).length
    · obtain ⟨r2, e2, hlen2⟩ := c3 h2
      rw [e2]
      simp only
      have hok2 := allDrawsSucceed_drop hok1 (drawsNeeded a d)
      have hl2 : ((rng.drop (drawsNeeded 0 a)).drop (drawsNeeded a d)).length =
          (rng.drop (drawsNeeded 0 a)).length - drawsNeeded a d := List.length_drop _ _
      obtain ⟨c5, c6⟩ := @phaseLoop_count .symbols _ (s : Int) hsy hsa s 0 r2
        ((rng.drop (drawsNeeded 0 a)).drop (drawsNeeded a d))
        (((rng.drop (drawsNeeded 0 a)).drop (drawsNeeded a d)).length + 1) (by simp) hok2
        (Nat.lt_succ_self _)
      rw [hlen2] at c5 c6
      by_cases h3 : drawsNeeded (a + d) s ≤
          ((rng.drop (drawsNeeded 0 a)).drop (drawsNeeded a d)).length
      · obtain ⟨r3, e3, hlen3⟩ := c5 h3
        rw [e3]
        simp only
        constructor
        · intro _
          exact ⟨r3, rfl, hlen3⟩
        · intro h
          exact absurd h (count_enough hl1 hl2 h1 h2 h3)
      · obtain ⟨k, j, acc, e3⟩ := c6 (Nat.lt_of_not_le h3)
        rw [e3]
        simp only
        constructor
        · intro h
          exact absurd h (count_short3 hl1 hl2 h1 h2 h3)
        · intro _
          exact ⟨_, _, _, _, rfl⟩
    · obtain ⟨k, j, acc, e2⟩ := c4 (Nat.lt_of_not_le h2)
      rw [e2]
      simp only
      constructor
      · intro h
        exact absurd h (count_short2 hl1 h1 h2)
      · intro _
        exact ⟨_, _, _, _, rfl⟩
  · obtain ⟨k, j, acc, e1⟩ := c2 (Nat.lt_of_not_le h1)
    rw [e1]
    simp only
    constructor
    · intro h
      exact absurd h (count_short1 h1)
    · intro _
      exact ⟨_, _, _, _, rfl⟩

theorem drawsNeeded_total (a d s : Nat) :
    ((drawsNeeded 0 a + drawsNeeded a d + drawsNeeded (a + d) s : Nat) : Int) =
      max (2 * ((a : Int) + d + s) - 1) 0 := by
  unfold drawsNeeded
  split_ifs <;> omega

/-- A loop started with enough fresh bytes still has a fresh byte whenever it
waits for a draw. -/
theorem phaseLoop_starved_fresh {ph : Phase} {pool : GoString} {count : Int} {ar : Bool}
    (hascii : isAscii pool) (hnd : pool.Nodup) :
    ∀ (fuel : Nat) (i : Int) (result : GoString) (rng : RNG) (p : Phase) (k : DrawKind)
      (j : Int) (acc : GoString),
      (ar = false → count - i ≤ ((fresh pool result).length : Int)) →
      phaseLoop ph pool count ar fuel i result rng = .exit (.starved p k j acc) →
      p = ph ∧ j < count ∧ (ar = false → count - j ≤ ((fresh pool acc).length : Int)) := by
  intro fuel
  induction fuel with
  | zero => intro i result rng p k j acc _ h; simp [phaseLoop] at h
  | succ fuel ih =>
    intro i result rng p k j acc hinv h
    simp only [phaseLoop] at h
    split at h
    · rename_i hlt
      split at h
      · cases h
      · cases h
        exact ⟨rfl, hlt, hinv⟩
      · cases h
      · rename_i ch rng1 hel
        obtain ⟨b, v, hb, hch, hrng⟩ := randomElement_ok hel
        rw [byteToString_ascii (hascii b hb)] at hch
        subst hch
        split at h
        · rw [show i - 1 + 1 = i by omega] at h
          exact ih _ _ _ _ _ _ _ hinv h
        · rename_i hacc
          split at h
          · cases h
          · cases h
            exact ⟨rfl, hlt, hinv⟩
          · cases h
          · rename_i result1 rng2 hins
            obtain ⟨⟨q, _, hq⟩, _⟩ := randomInsert_ok hins
            refine ih _ _ _ _ _ _ _ ?_ h
            intro har
            have hnew : b ∉ result := by
              intro hin
              apply hacc
              simp [har, (contains_single result b).2 hin]
            have h1 : (fresh pool result1).length + 1 = (fresh pool result).length := by
              rw [hq]
              exact @fresh_splice_length pool result b q hnd hb hnew
            have h2 := hinv har
            omega
    · cases h

/-- For the default generator without repeats, after the pre-checks: whenever
`Generate` waits for a character draw, the loop has a byte of its class left
to insert and a byte of that class is not in the accumulator. -/
theorem default_starved_fresh {length numDigits numSymbols : Int} {noUppercase : Bool}
    {rng : RNG} {p : Phase} {k : DrawKind} {j : Int} {acc : GoString}
    (hpc : preCheck defaultGenerator length numDigits numSymbols noUppercase false = none)
    (h : Generate length numDigits numSymbols noUppercase false rng = .starved p k j acc) :
    j < phaseCount length numDigits numSymbols p ∧
      ∃ b, b ∈ phasePool defaultGenerator noUppercase p ∧ b ∉ acc := by
  obtain ⟨hl, hla, hd, hda, hs, hsa⟩ := default_pools noUppercase
  obtain ⟨hln, hdn, hsn⟩ := default_pools_nodup noUppercase
  have hchecks := (preCheck_none_bounds hpc).2 rfl
  have hfin : ∀ (pool : GoString) (count : Int), j < count →
      count - j ≤ ((fresh pool acc).length : Int) → ∃ b, b ∈ pool ∧ b ∉ acc := by
    intro pool count h1 h2
    have hpos : 0 < (fresh pool acc).length := by omega
    obtain ⟨b, hb⟩ := List.exists_mem_of_length_pos hpos
    exact ⟨b, (mem_fresh.1 hb).1, (mem_fresh.1 hb).2⟩
  rw [Generate_eq_default, Generate_preCheck_none hpc] at h
  split at h
  · rename_i o h1
    subst h
    obtain ⟨hp, hj, hf⟩ := phaseLoop_starved_fresh hla hln _ _ _ _ _ _ _ _
      (by intro _; rw [fresh_nil]; have := hchecks.1; omega) h1
    subst hp
    exact ⟨hj, hfin _ _ hj (hf rfl)⟩
  · rename_i r1 rng1 h1
    obtain ⟨la, hp1, hm1, _, _, _⟩ := phaseLoop_next hla _ _ _ _ _ _ h1
    have hr1 : ∀ b ∈ r1, b ∈ letterPool defaultGenerator noUppercase := by
      intro b hb
      have := hp1.subset hb
      simp only [List.append_nil] at this
      exact hm1 b this
    have hfd : fresh defaultGenerator.digits r1 = defaultGenerator.digits := by
      apply fresh_of_disjoint
      intro b hb hin
      have hbD : b ∈ Digits := by simpa [defaultGenerator_eq] using hb
      exact (default_digits_disjoint noUppercase b hbD).1 (hr1 b hin)
    split at h
    · rename_i o h2
      subst h
      obtain ⟨hp, hj, hf⟩ := phaseLoop_starved_fresh hda hdn _ _ _ _ _ _ _ _
        (by intro _; rw [hfd]; have := hchecks.2.1; omega) h2
      subst hp
      exact ⟨hj, hfin _ _ hj (hf rfl)⟩
    · rename_i r2 rng2 h2
      obtain ⟨da, hp2, hm2, _, _, _⟩ := phaseLoop_next hda _ _ _ _ _ _ h2
      have hr2 : ∀ b ∈ r2, b ∈ letterPool defaultGenerator noUppercase ∨ b ∈ Digits := by
        intro b hb
        rcases List.mem_append.1 (hp2.subset hb) with h | h
        · right; simpa [defaultGenerator_eq] using hm2 b h
        · left; exact hr1 b h
      have hfs : fresh defaultGenerator.symbols r2 = defaultGenerator.symbols := by
        apply fresh_of_disjoint
        intro b hb hin
        have hbS : b ∈ Symbols := by simpa [defaultGenerator_eq] using hb
        rcases hr2 b hin with h | h
        · exact (default_symbols_disjoint noUppercase b hbS).1 h
        · exact (default_symbols_disjoint noUppercase b hbS).2 h
      split at h
      · rename_i o h3
        subst h
        obtain ⟨hp, hj, hf⟩ := phaseLoop_starved_fresh hsa hsn _ _ _ _ _ _ _ _
          (by intro _; rw [hfs]; have := hchecks.2.2; omega) h3
        subst hp
        exact ⟨hj, hfin _ _ hj (hf rfl)⟩
      · cases h

/-- C12 (termination). For the default generator and every request that
passes the pre-checks of the code. With `allowRepeat = false`: at every
iteration of the letter, digit or symbol loop (whenever `Generate` waits for a
draw of loop `p`, with loop variable `j` and accumulator `acc`), fewer than the
required count have been inserted and some byte of the class of `p` is not in
`acc`, so the rejection test can be passed. With either value of
`allowRepeat`: after any successful draws (so from every loop state a run can
reach) there is a finite list of further successful draws on which `Generate`
returns a password and a nil error. With `allowRepeat = true`, on non-negative
machine integers that pass the table, no draw is rejected: `Generate` returns
a password of `length` bytes on every list of at least `2 * length - 1`
successful draws (`length` character draws and, but for the first, as many
position draws) and is short of a draw on every shorter one. -/
theorem generate_terminates :
    (∀ (length numDigits numSymbols : Int) (noUppercase : Bool) (rng0 : RNG) (p : Phase)
      (k : DrawKind) (j : Int) (acc : GoString),
      preCheck defaultGenerator length numDigits numSymbols noUppercase false = none →
      Generate length numDigits numSymbols noUppercase false rng0 = .starved p k j acc →
      j < phaseCount length numDigits numSymbols p ∧
        ∃ b, b ∈ phasePool defaultGenerator noUppercase p ∧ b ∉ acc) ∧
    (∀ (length numDigits numSymbols : Int) (noUppercase allowRepeat : Bool),
      preCheck defaultGenerator length numDigits numSymbols noUppercase allowRepeat = none →
      ∀ rng0 : RNG, allDrawsSucceed rng0 →
        ∃ ext : RNG, allDrawsSucceed ext ∧ ∃ pw : GoString,
          Generate length numDigits numSymbols noUppercase allowRepeat (rng0 ++ ext) =
            .returned pw none) ∧
    (∀ (length numDigits numSymbols : Int) (noUppercase : Bool) (rng : RNG),
      isInt64 length → 0 ≤ numDigits → 0 ≤ numSymbols →
      tablePreCheck defaultGenerator length numDigits numSymbols noUppercase true = none →
      allDrawsSucceed rng →
      (2 * length - 1 ≤ (rng.length : Int) →
        ∃ pw, Generate length numDigits numSymbols noUppercase true rng = .returned pw none ∧
          (pw.length : Int) = length) ∧
      ((rng.length : Int) < 2 * length - 1 →
        ∃ p k i acc,
          Generate length numDigits numSymbols noUppercase true rng = .starved p k i acc)) := by
  refine ⟨?_, ?_, ?_⟩
  · intro length numDigits numSymbols noUppercase rng0 p k j acc hpc h
    exact default_starved_fresh hpc h
  · intro length numDigits numSymbols noUppercase allowRepeat hpc rng0 hok
    exact default_resume hpc rng0 hok
  · intro length numDigits numSymbols noUppercase rng hlen hd hs hpre hok
    obtain ⟨_, hchars, hnn⟩ := table_pass hlen hd hs hpre
    obtain ⟨a, ha⟩ := Int.eq_ofNat_of_zero_le hnn
    obtain ⟨d, hd1⟩ := Int.eq_ofNat_of_zero_le hd
    obtain ⟨s, hs1⟩ := Int.eq_ofNat_of_zero_le hs
    obtain ⟨c1, c2⟩ := @default_count _ _ _ noUppercase a d s (hchars.trans ha) hd1 hs1
      rng hok
    have htot := drawsNeeded_total a d s
    have hL : length = (a : Int) + d + s := by omega
    constructor
    · intro h
      obtain ⟨pw, hpw, hlenpw⟩ := c1 (by omega)
      exact ⟨pw, hpw, by omega⟩
    · intro h
      exact c2 (by omega)

/-- Witness of C12: `Generate(10, 0, 0, true, false)` passes the pre-checks;
after the draws `a`, `a` (rejected) it waits for a letter draw with one letter
inserted, and a letter is not in the accumulator `a`; these draws can be
continued to a run that returns. `Generate(3, 1, 1, true, true)` returns a
3-byte password on five successful draws. -/
theorem generate_terminates_witness :
    (preCheck defaultGenerator 10 0 0 true false = none ∧
      Generate 10 0 0 true false [.value 0, .value 0] = .starved .letters .element 1 [97] ∧
      ((1 : Int) < phaseCount 10 0 0 .letters ∧
        ∃ b, b ∈ phasePool defaultGenerator true .letters ∧ b ∉ ([97] : GoString))) ∧
    (allDrawsSucceed [.value 0, .value 0] ∧
      ∃ ext : RNG, allDrawsSucceed ext ∧ ∃ pw : GoString,
        Generate 10 0 0 true false ([.value 0, .value 0] ++ ext) = .returned pw none) ∧
    (∃ pw, Generate 3 1 1 true true (drawsZero 5) = .returned pw none ∧
      (pw.length : Int) = 3) :=
  ⟨⟨by decide, by decide,
    generate_terminates.1 10 0 0 true [.value 0, .value 0] .letters .element 1 [97] (by decide)
      (by decide)⟩,
   ⟨by decide,
    generate_terminates.2.1 10 0 0 true false (by decide) [.value 0, .value 0] (by decide)⟩,
   (generate_terminates.2.2 3 1 1 true (drawsZero 5) (by decide) (by decide) (by decide)
      (by decide) (by decide)).1 (by decide)⟩

/-! ## The driver -/

theorem returned_no_linefeed {length numDigits numSymbols : Int} {noUppercase allowRepeat : Bool}
    {rng : RNG} {pw : GoString} {err : Option GoError}
    (h : Generate length numDigits numSymbols noUppercase allowRepeat rng = .returned pw err) :
    10 ∉ pw := by
  have hL : ∀ nu : Bool, 10 ∉ letterPool defaultGenerator nu := by
    intro nu; rw [default_letterPool]; cases nu <;> decide
  have hD : 10 ∉ Digits := by decide
  have hS : 10 ∉ Symbols := by decide
  rcases default_returned h with ⟨e, _, hpw, _⟩ | ⟨_, hpw, _, _⟩ | ⟨_, _, la, da, sa, hperm, hml, hmd, hms, _⟩
  · rw [hpw]; simp
  · rw [hpw]; simp
  · intro hin
    have hb1 : 10 ∈ sa ++ (da ++ la) := hperm.subset hin
    rcases List.mem_append.1 hb1 with h1 | h1
    · exact hS (hms 10 h1)
    · rcases List.mem_append.1 h1 with h2 | h2
      · exact hD (hmd 10 h2)
      · exact hL noUppercase (hml 10 h2)

theorem generateCopies_ok (f : Flags) (draws : Nat → RNG) :
    ∀ (n i : Nat) (acc ps : List GoString), generateCopies f draws n i acc = .ok ps →
      ∃ new : List GoString, ps = acc ++ new ∧ new.length = n ∧
        ∀ j (hj : j < new.length),
          Generate f.length f.numDigits f.numSymbols f.noUppercase f.allowRepeat (draws (i + j)) =
            .returned (new.get ⟨j, hj⟩) none := by
  intro n
  induction n with
  | zero =>
    intro i acc ps h
    simp only [generateCopies] at h
    cases h
    exact ⟨[], by simp, rfl, fun j hj => absurd hj (Nat.not_lt_zero _)⟩
  | succ n ih =>
    intro i acc ps h
    simp only [generateCopies] at h
    split at h
    · rename_i result hgen
      obtain ⟨new, hps, hlen, hall⟩ := ih (i + 1) (acc ++ [result]) ps h
      refine ⟨result :: new, by simp [hps], by simp [hlen], ?_⟩
      intro j hj
      cases j with
      | zero => simpa using hgen
      | succ j =>
        have := hall j (by simpa using hj)
        rw [show i + (j + 1) = i + 1 + j by omega]
        simpa using this
    · cases h
    · cases h

theorem stringsJoin_eq_intercalate (sep : GoString) :
    ∀ ps : List GoString, stringsJoin ps sep = sep.intercalate ps := by
  intro ps
  induction ps with
  | nil => rfl
  | cons a rest ih =>
    cases rest with
    | nil => simp [stringsJoin, List.intercalate]
    | cons b rest =>
      simp only [stringsJoin, ih]
      simp [List.intercalate]

theorem stringsJoin_count :
    ∀ ps : List GoString, (∀ p ∈ ps, 10 ∉ p) →
      (stringsJoin ps [10]).count 10 = ps.length - 1 := by
  intro ps
  induction ps with
  | nil => intro _; rfl
  | cons a rest ih =>
    intro h
    have ha : a.count 10 = 0 := List.count_eq_zero.2 (h a (List.mem_cons_self a rest))
    cases rest with
    | nil => simpa [stringsJoin] using ha
    | cons b rest =>
      have := ih (fun p hp => h p (List.mem_cons_of_mem a hp))
      simp only [stringsJoin, List.count_append, ha, this, List.length_cons]
      simp
      omega

/-- When the next calls of `pgen.Generate` return the strings of `new` with nil
errors, the loop of `main` appends them to `passwords` in order. -/
theorem generateCopies_of_calls (f : Flags) (draws : Nat → RNG) :
    ∀ (new : List GoString) (i : Nat) (acc : List GoString),
      (∀ j (hj : j < new.length),
        Generate f.length f.numDigits f.numSymbols f.noUppercase f.allowRepeat (draws (i + j)) =
          .returned (new.get ⟨j, hj⟩) none) →
      generateCopies f draws new.length i acc = .ok (acc ++ new) := by
  intro new
  induction new with
  | nil => intro i acc _; simp [generateCopies]
  | cons p rest ih =>
    intro i acc h
    have h0 := h 0 (by simp)
    simp only [Nat.add_zero, List.get_eq_getElem, List.getElem_cons_zero] at h0
    simp only [List.length_cons, generateCopies, h0]
    rw [ih (i + 1) (acc ++ [p])]
    · simp
    · intro j hj
      have h1 := h (j + 1) (by simpa using hj)
      rw [show i + 1 + j = i + (j + 1) by omega]
      simpa using h1

/-- What `main` does once its loop has collected `passwords`. -/
theorem main_of_copies {f : Flags} {host : Host} {passwords : List GoString}
    (hv : f.printVersion = false)
    (hcop : generateCopies f host.draws f.loops.toNat 0 [] = .ok passwords) :
    main f host =
      if clipboardAttempted f host && host.clipboardFails then .clipboardFatal
      else .printed (stringsJoin passwords [10] ++ [10]) := by
  unfold main clipboardAttempted
  simp only [hv, hcop]
  cases host.linux <;> cases host.clipboardFails <;> cases f.noClipboard <;>
    by_cases hd : host.display = [] <;> simp [hd]

/-- A run of `main` that reaches `fmt.Println` made `copies` calls of
`pgen.Generate`, each returning a nil error, and printed their join. -/
theorem main_printed_calls {f : Flags} {host : Host} {stdout : GoString}
    (hk : 1 ≤ f.loops) (hrun : main f host = .printed stdout) :
    ∃ passwords : List GoString,
      (passwords.length : Int) = f.loops ∧
      (∀ j (hj : j < passwords.length),
        Generate f.length f.numDigits f.numSymbols f.noUppercase f.allowRepeat (host.draws j) =
          .returned (passwords.get ⟨j, hj⟩) none) ∧
      stdout = stringsJoin passwords [10] ++ [10] := by
  have hv : ¬ f.printVersion = true := by
    intro hv
    simp [main, hv] at hrun
  unfold main at hrun
  rw [if_neg hv] at hrun
  split at hrun
  · rename_i r hcop
    exfalso
    have hne : ∀ (n i : Nat) (acc : List GoString) (s : GoString),
        generateCopies f host.draws n i acc ≠ .error (.printed s) := by
      intro n
      induction n with
      | zero => intro i acc s h; simp [generateCopies] at h
      | succ n ih =>
        intro i acc s h
        simp only [generateCopies] at h
        split at h
        · exact ih _ _ _ h
        · cases h
        · cases h
    rw [hrun] at hcop
    exact hne _ _ _ _ hcop
  · rename_i passwords hcop
    obtain ⟨new, hps, hlen, hall⟩ := generateCopies_ok f host.draws _ _ _ _ hcop
    simp only [List.nil_append] at hps
    subst hps
    have hout : stdout = stringsJoin passwords [10] ++ [10] := by
      simp only at hrun
      split_ifs at hrun <;> cases hrun <;> rfl
    refine ⟨passwords, by rw [hlen]; omega, ?_, hout⟩
    intro j hj
    simpa using hall j hj

/-- C11 (batch output). Let `copies = k ≥ 1`. On every run of `main` without
`--version` in which the `k` calls of `pgen.Generate` return `passwords` (in
generation order) with nil errors: `main` reaches `fmt.Println` unless it
calls the clipboard and the clipboard fails; the string it prints is
`passwords` joined by single line feeds, followed on standard output by the
line feed of `Println`; no password holds a line feed; the joined string
holds exactly `k - 1` line feeds; and splitting it on the line feed gives back
the `k` passwords in order. Conversely every run of `main` that prints is such
a run: the loop made `k` calls, each returning a nil error, and the output is
the join of the returned strings. -/
theorem main_batch_output (f : Flags) (host : Host) (hk : 1 ≤ f.loops) :
    (∀ passwords : List GoString, f.printVersion = false →
      (passwords.length : Int) = f.loops →
      (∀ j (hj : j < passwords.length),
        Generate f.length f.numDigits f.numSymbols f.noUppercase f.allowRepeat (host.draws j) =
          .returned (passwords.get ⟨j, hj⟩) none) →
      (clipboardAttempted f host = false ∨ host.clipboardFails = false →
        main f host = .printed (stringsJoin passwords [10] ++ [10])) ∧
      (clipboardAttempted f host = true ∧ host.clipboardFails = true →
        main f host = .clipboardFatal) ∧
      (∀ p ∈ passwords, 10 ∉ p) ∧
      (((stringsJoin passwords [10]).count 10 : Nat) : Int) = f.loops - 1 ∧
      (stringsJoin passwords [10]).splitOn 10 = passwords) ∧
    (∀ stdout : GoString, main f host = .printed stdout →
      ∃ passwords : List GoString,
        (passwords.length : Int) = f.loops ∧
        (∀ j (hj : j < passwords.length),
          Generate f.length f.numDigits f.numSymbols f.noUppercase f.allowRepeat (host.draws j) =
            .returned (passwords.get ⟨j, hj⟩) none) ∧
        stdout = stringsJoin passwords [10] ++ [10] ∧
        (∀ p ∈ passwords, 10 ∉ p) ∧
        (((stringsJoin passwords [10]).count 10 : Nat) : Int) = f.loops - 1 ∧
        (stringsJoin passwords [10]).splitOn 10 = passwords) := by
  have hshape : ∀ passwords : List GoString, (passwords.length : Int) = f.loops →
      (∀ j (hj : j < passwords.length),
        Generate f.length f.numDigits f.numSymbols f.noUppercase f.allowRepeat (host.draws j) =
          .returned (passwords.get ⟨j, hj⟩) none) →
      (∀ p ∈ passwords, 10 ∉ p) ∧
      (((stringsJoin passwords [10]).count 10 : Nat) : Int) = f.loops - 1 ∧
      (stringsJoin passwords [10]).splitOn 10 = passwords := by
    intro passwords hlen hcalls
    have hnolf : ∀ p ∈ passwords, 10 ∉ p := by
      intro p hp
      obtain ⟨j, hj, hget⟩ := List.getElem_of_mem hp
      have := hcalls j hj
      simp only [List.get_eq_getElem, hget] at this
      exact returned_no_linefeed this
    have hne : passwords ≠ [] := by
      intro h
      rw [h] at hlen
      simp at hlen
      omega
    refine ⟨hnolf, ?_, ?_⟩
    · rw [stringsJoin_count passwords hnolf]
      have : 1 ≤ passwords.length := List.length_pos.2 hne
      omega
    · rw [stringsJoin_eq_intercalate]
      exact List.splitOn_intercalate passwords 10 hnolf hne
  refine ⟨?_, ?_⟩
  · intro passwords hv hlen hcalls
    have hn : f.loops.toNat = passwords.length := by omega
    have hcop : generateCopies f host.draws f.loops.toNat 0 [] = .ok passwords := by
      rw [hn]
      have := generateCopies_of_calls f host.draws passwords 0 [] (by simpa using hcalls)
      simpa using this
    have hmain := main_of_copies hv hcop
    refine ⟨?_, ?_, hshape passwords hlen hcalls⟩
    · intro hclip
      rw [hmain]
      rcases hclip with h | h <;> simp [h]
    · intro hclip
      rw [hmain]
      simp [hclip.1, hclip.2]
  · intro stdout hrun
    obtain ⟨passwords, hlen, hcalls, hout⟩ := main_printed_calls hk hrun
    exact ⟨passwords, hlen, hcalls, hout, hshape passwords hlen hcalls⟩

/-- Witness of C11: with `-copies 2` and both calls returning `a@6`, `main`
prints `a@6`, a line feed, `a@6` and the line feed of `Println`, both on a
Linux host without display (no clipboard call) and on a desktop host whose
clipboard works. -/
theorem main_batch_output_witness :
    (main flagsTwoCopies hostSmall = .printed [97, 64, 54, 10, 97, 64, 54, 10] ∧
      main flagsTwoCopies hostDesktop = .printed [97, 64, 54, 10, 97, 64, 54, 10]) ∧
    (main flagsTwoCopies hostSmall =
        .printed (stringsJoin [[97, 64, 54], [97, 64, 54]] [10] ++ [10]) ∧
      (((stringsJoin [[97, 64, 54], [97, 64, 54]] [10]).count 10 : Nat) : Int) =
        flagsTwoCopies.loops - 1 ∧
      (stringsJoin [[97, 64, 54], [97, 64, 54]] [10]).splitOn 10 =
        [[97, 64, 54], [97, 64, 54]]) ∧
    (main flagsTwoCopies hostDesktop =
        .printed (stringsJoin [[97, 64, 54], [97, 64, 54]] [10] ++ [10])) ∧
    ∃ passwords : List GoString,
      (passwords.length : Int) = flagsTwoCopies.loops ∧
      (∀ j (hj : j < passwords.length),
        Generate flagsTwoCopies.length flagsTwoCopies.numDigits flagsTwoCopies.numSymbols
            flagsTwoCopies.noUppercase flagsTwoCopies.allowRepeat (hostSmall.draws j) =
          .returned (passwords.get ⟨j, hj⟩) none) ∧
      [97, 64, 54, 10, 97, 64, 54, 10] = stringsJoin passwords [10] ++ [10] ∧
      (∀ p ∈ passwords, 10 ∉ p) ∧
      (((stringsJoin passwords [10]).count 10 : Nat) : Int) = flagsTwoCopies.loops - 1 ∧
      (stringsJoin passwords [10]).splitOn 10 = passwords :=
  have hs := (main_batch_output flagsTwoCopies hostSmall (by decide)).1
    [[97, 64, 54], [97, 64, 54]] (by decide) (by decide) (by decide)
  have hd := (main_batch_output flagsTwoCopies hostDesktop (by decide)).1
    [[97, 64, 54], [97, 64, 54]] (by decide) (by decide) (by decide)
  ⟨⟨by decide, by decide⟩,
   ⟨hs.1 (Or.inl (by decide)), hs.2.2.2.1, hs.2.2.2.2⟩,
   hd.1 (Or.inr (by decide)),
   (main_batch_output flagsTwoCopies hostSmall (by decide)).2
     [97, 64, 54, 10, 97, 64, 54, 10] (by decide)⟩

/-! ## Runs without rejection: the three loops -/

theorem nodup_length_le {l pool : GoString} (hnd : l.Nodup) (hsub : ∀ b ∈ l, b ∈ pool) :
    l.length ≤ pool.length :=
  (List.subperm_of_subset hnd hsub).length_le

theorem pick_mem {pool : GoString} (hne : pool ≠ []) (hascii : isAscii pool) (vs : List Nat) :
    ∀ b ∈ vs.map (pick pool), b ∈ pool := by
  intro b hb
  obtain ⟨v, _, hv⟩ := List.mem_map.1 hb
  rw [← hv]
  exact (pick_spec hne hascii v []).1

/-- A loop run on `interleave`, in which no draw is rejected (repeats are
allowed, or the drawn bytes are distinct and new), splices the drawn bytes at
the drawn positions and leaves the rest of the outcome list. -/
theorem phaseLoop_interleave {ph : Phase} {pool : GoString} {count : Int} {ar : Bool}
    (hne : pool ≠ []) (hascii : isAscii pool) :
    ∀ (vs ps : List Nat) (i : Int) (result : GoString) (fuel : Nat) (tail : RNG),
      vs.length = ps.length → count - i = (vs.length : Int) →
      validPositions result.length ps = true → vs.length < fuel →
      (ar = false → (vs.map (pick pool)).Nodup ∧ ∀ b ∈ vs.map (pick pool), b ∉ result) →
      phaseLoop ph pool count ar fuel i result (interleave result.length vs ps ++ tail) =
        .next (insertSeq result (vs.map (pick pool)) ps) tail := by
  intro vs
  induction vs with
  | nil =>
    intro ps i result fuel tail hlen hcount _ hfuel _
    obtain ⟨f, rfl⟩ : ∃ f, fuel = f + 1 := ⟨fuel - 1, by simp at hfuel; omega⟩
    have hge : ¬ i < count := by simp at hcount; omega
    have hil : interleave result.length [] ps = [] := by
      cases result <;> cases ps <;> rfl
    rw [hil, List.nil_append, phaseLoop_done hge]
    cases ps <;> rfl
  | cons v vs ih =>
    intro ps i result fuel tail hlen hcount hval hfuel hdist
    obtain ⟨f, rfl⟩ : ∃ f, fuel = f + 1 := ⟨fuel - 1, by simp at hfuel; omega⟩
    have hf : vs.length < f := by simp at hfuel; omega
    have hlt : i < count := by simp at hcount; omega
    cases ps with
    | nil => simp at hlen
    | cons p ps =>
      have hlen1 : vs.length = ps.length := by simpa using hlen
      have hcount1 : count - (i + 1) = (vs.length : Int) := by simp at hcount; omega
      rw [validPositions_cons, Bool.and_eq_true, decide_eq_true_eq] at hval
      have hacc : ar = true ∨ pick pool v ∉ result := by
        cases har : ar with
        | true => exact Or.inl rfl
        | false => exact Or.inr ((hdist har).2 _ (by simp))
      have hdist1 : ∀ k, ar = false → (vs.map (pick pool)).Nodup ∧
          ∀ b ∈ vs.map (pick pool), b ∉ splice result [pick pool v] k := by
        intro k har
        obtain ⟨hnd, hnew⟩ := hdist har
        rw [List.map_cons, List.nodup_cons] at hnd
        refine ⟨hnd.2, ?_⟩
        intro b hb hin
        rcases List.mem_cons.1 ((splice_perm_cons result (pick pool v) k).subset hin) with h | h
        · rw [h] at hb; exact hnd.1 hb
        · exact hnew b (by simp only [List.map_cons]; exact List.mem_cons_of_mem _ hb) h
      cases result with
      | nil =>
        have hp0 : p = 0 := by simpa using hval.1
        subst hp0
        rw [List.length_nil, interleave_zero, List.cons_append,
          phaseLoop_step_first hlt hne hascii, List.map_cons]
        have hsp : splice [] [pick pool v] 0 = [pick pool v] := by simp [splice]
        have := ih ps (i + 1) [pick pool v] f tail hlen1 hcount1 (by simpa using hval.2) hf
          (by intro har; have := hdist1 0 har; rwa [hsp] at this)
        simp only [List.length_singleton] at this
        rw [this]
        simp only [insertSeq, hsp]
      | cons a t =>
        have hres : (a :: t) ≠ [] := by simp
        have hpmod : p % ((a :: t).length + 1) = p :=
          Nat.mod_eq_of_lt (Nat.lt_succ_of_le hval.1)
        rw [List.length_cons, interleave_succ, List.cons_append, List.cons_append,
          phaseLoop_step_insert hlt hne hascii f (a :: t) hres v p _ hacc, hpmod, List.map_cons]
        have := ih ps (i + 1) (splice (a :: t) [pick pool v] p) f tail hlen1 hcount1
          (by rw [splice_length]; exact hval.2) hf (hdist1 p)
        rw [splice_length, List.length_cons] at this
        rw [this]
        simp only [insertSeq]

/-- For classes that are non-empty and ASCII, `Generate` on the outcome list of
a run without failure and without rejection returns the drawn letters, then
digits, then symbols, each spliced at its drawn position. -/
theorem Generate_interleave {g : Generator} (noUppercase allowRepeat : Bool)
    (hl : letterPool g noUppercase ≠ []) (hla : isAscii (letterPool g noUppercase))
    (hd : g.digits ≠ []) (hda : isAscii g.digits)
    (hs : g.symbols ≠ []) (hsa : isAscii g.symbols)
    (lv dv sv pl pd py : List Nat)
    (h1 : lv.length = pl.length) (h2 : dv.length = pd.length) (h3 : sv.length = py.length)
    (hfit : ((lv.length + dv.length + sv.length : Nat) : Int) ≤ maxInt64)
    (hval : validPositions 0 (pl ++ (pd ++ py)) = true)
    (hdist : allowRepeat = false →
      (lv.map (pick (letterPool g noUppercase)) ++
        (dv.map (pick g.digits) ++ sv.map (pick g.symbols))).Nodup) :
    g.Generate ((lv.length + dv.length + sv.length : Nat) : Int) (dv.length : Int) (sv.length : Int)
        noUppercase allowRepeat (interleave 0 (lv ++ (dv ++ sv)) (pl ++ (pd ++ py))) =
      .returned (insertSeq [] (lv.map (pick (letterPool g noUppercase)) ++
        (dv.map (pick g.digits) ++ sv.map (pick g.symbols))) (pl ++ (pd ++ py))) none := by
  have hchars : wrap64 (wrap64 (((lv.length + dv.length + sv.length : Nat) : Int) - (dv.length : Int))
      - (sv.length : Int)) = (lv.length : Int) := by
    rw [wrap64_sub, wrap64_of_isInt64]
    · push_cast; omega
    · unfold isInt64; unfold maxInt64 at hfit; push_cast at hfit ⊢; omega
  -- distinct draws fit their classes
  have hbound : allowRepeat = false →
      lv.length ≤ (letterPool g noUppercase).length ∧ dv.length ≤ g.digits.length ∧
        sv.length ≤ g.symbols.length := by
    intro har
    have hall := hdist har
    have hnl := (List.nodup_append.1 hall).1
    have hnds := (List.nodup_append.1 hall).2.1
    have hnd := (List.nodup_append.1 hnds).1
    have hns := (List.nodup_append.1 hnds).2.1
    have b1 := nodup_length_le hnl (pick_mem hl hla lv)
    have b2 := nodup_length_le hnd (pick_mem hd hda dv)
    have b3 := nodup_length_le hns (pick_mem hs hsa sv)
    simp only [List.length_map] at b1 b2 b3
    exact ⟨b1, b2, b3⟩
  have hpc : preCheck g ((lv.length + dv.length + sv.length : Nat) : Int) (dv.length : Int)
      (sv.length : Int) noUppercase allowRepeat = none := by
    unfold preCheck
    simp only [hchars]
    cases har : allowRepeat with
    | true => simp
    | false =>
      obtain ⟨b1, b2, b3⟩ := hbound har
      unfold letterPool at b1
      simp only [Bool.not_false, Bool.true_and, decide_eq_true_eq]
      rw [if_neg (by omega), if_neg (by omega), if_neg (by omega), if_neg (by omega)]
  rw [validPositions_append, validPositions_append, Bool.and_eq_true, Bool.and_eq_true] at hval
  obtain ⟨hv1, hv2, hv3⟩ := hval
  simp only [Nat.zero_add] at hv2 hv3
  rw [← h1] at hv2 hv3
  rw [← h2] at hv3
  rw [Generate_preCheck_none hpc, hchars]
  rw [interleave_append lv pl 0 _ _ h1, interleave_append dv pd _ _ _ h2]
  simp only [Nat.zero_add]
  have hl1 := interleave_length_ge lv pl 0 h1
  have hl2 := interleave_length_ge dv pd lv.length h2
  have hl3 := interleave_length_ge sv py (lv.length + dv.length) h3
  have hr1 : (insertSeq [] (lv.map (pick (letterPool g noUppercase))) pl).Perm
      (lv.map (pick (letterPool g noUppercase))) := by
    simpa using insertSeq_perm (lv.map (pick (letterPool g noUppercase))) [] pl
      (by simpa using h1.symm)
  have hr2 : (insertSeq (insertSeq [] (lv.map (pick (letterPool g noUppercase))) pl)
      (dv.map (pick g.digits)) pd).Perm
      (lv.map (pick (letterPool g noUppercase)) ++ dv.map (pick g.digits)) :=
    (insertSeq_perm (dv.map (pick g.digits)) _ pd (by simpa using h2.symm)).trans
      (hr1.append_right _)
  have e1 := @phaseLoop_interleave .letters _ (lv.length : Int) allowRepeat hl hla lv pl 0 []
    ((interleave 0 lv pl ++
      (interleave lv.length dv pd ++ interleave (lv.length + dv.length) sv py)).length + 1)
    (interleave lv.length dv pd ++ interleave (lv.length + dv.length) sv py)
    h1 (by simp) hv1 (by rw [List.length_append]; omega)
    (by intro har; exact ⟨(List.nodup_append.1 (hdist har)).1, by simp⟩)
  simp only [List.length_nil] at e1
  rw [e1]
  simp only
  have hlen1 : (insertSeq [] (lv.map (pick (letterPool g noUppercase))) pl).length =
      lv.length := by
    rw [insertSeq_length _ _ _ (by simpa using h1.symm)]; simp
  have e2 := @phaseLoop_interleave .digits _ (dv.length : Int) allowRepeat hd hda dv pd 0
    (insertSeq [] (lv.map (pick (letterPool g noUppercase))) pl)
    ((interleave lv.length dv pd ++ interleave (lv.length + dv.length) sv py).length + 1)
    (interleave (lv.length + dv.length) sv py)
    h2 (by simp) (by rw [hlen1]; exact hv2) (by rw [List.length_append]; omega)
    (by
      intro har
      have hall := hdist har
      have hdis := (List.nodup_append.1 hall).2.2
      have hnds := (List.nodup_append.1 hall).2.1
      refine ⟨(List.nodup_append.1 hnds).1, ?_⟩
      intro b hb hin
      exact hdis (hr1.subset hin) (List.mem_append_left _ hb))
  rw [hlen1] at e2
  rw [e2]
  simp only
  have hlen2 : (insertSeq (insertSeq [] (lv.map (pick (letterPool g noUppercase))) pl)
      (dv.map (pick g.digits)) pd).length = lv.length + dv.length := by
    rw [insertSeq_length _ _ _ (by simpa using h2.symm), hlen1]; simp
  have e3 := @phaseLoop_interleave .symbols _ (sv.length : Int) allowRepeat hs hsa sv py 0
    (insertSeq (insertSeq [] (lv.map (pick (letterPool g noUppercase))) pl)
      (dv.map (pick g.digits)) pd)
    ((interleave (lv.length + dv.length) sv py).length + 1) []
    h3 (by simp) (by rw [hlen2]; exact hv3) (by omega)
    (by
      intro har
      have hall := hdist har
      have hdis := (List.nodup_append.1 hall).2.2
      have hnds := (List.nodup_append.1 hall).2.1
      have hdis2 := (List.nodup_append.1 hnds).2.2
      refine ⟨(List.nodup_append.1 hnds).2.1, ?_⟩
      intro b hb hin
      rcases List.mem_append.1 (hr2.subset hin) with h | h
      · exact hdis h (List.mem_append_right _ hb)
      · exact hdis2 h hb)
  rw [hlen2, List.append_nil] at e3
  rw [e3]
  simp only
  rw [insertSeq_append _ _ _ _ _ (by simpa using h1), insertSeq_append _ _ _ _ _ (by simpa using h2)]

/-! ## Phase order -/

/-- C15 (phase order and splice). For the default generator, on the outcome
list of a run in which the letter, digit and symbol loops draw the entropies
`lv`, `dv`, `sv` and no draw is rejected (`allowRepeat = true`, or the drawn
bytes are pairwise distinct): for all positions `pl`, `pd`, `py` drawn in the
three loops, each a slot of the accumulator, `Generate` returns the drawn
letters, then digits, then symbols, each spliced as `acc[0:i] + c + acc[i:]`
at its position. When every position is the last slot the password is the
letters in draw order, then the digits, then the symbols; when every position
is 0 it is the reverse of that string. -/
theorem generate_phase_order (lv dv sv : List Nat) (noUppercase allowRepeat : Bool)
    (hfit : ((lv.length + dv.length + sv.length : Nat) : Int) ≤ maxInt64)
    (hdist : allowRepeat = false →
      (lv.map (pick (if noUppercase then Lowercase else Lowercase ++ Uppercase)) ++
        dv.map (pick Digits) ++ sv.map (pick Symbols)).Nodup) :
    (∀ pl pd py : List Nat,
      pl.length = lv.length → pd.length = dv.length → py.length = sv.length →
      validPositions 0 (pl ++ pd ++ py) = true →
      Generate ((lv.length + dv.length + sv.length : Nat) : Int) (dv.length : Int)
          (sv.length : Int) noUppercase allowRepeat
          (interleave 0 (lv ++ dv ++ sv) (pl ++ pd ++ py)) =
        .returned (insertSeq []
          (lv.map (pick (if noUppercase then Lowercase else Lowercase ++ Uppercase)) ++
            dv.map (pick Digits) ++ sv.map (pick Symbols)) (pl ++ pd ++ py)) none) ∧
    Generate ((lv.length + dv.length + sv.length : Nat) : Int) (dv.length : Int)
        (sv.length : Int) noUppercase allowRepeat
        (interleave 0 (lv ++ dv ++ sv) (List.range (lv.length + dv.length + sv.length))) =
      .returned (lv.map (pick (if noUppercase then Lowercase else Lowercase ++ Uppercase)) ++
        dv.map (pick Digits) ++ sv.map (pick Symbols)) none ∧
    Generate ((lv.length + dv.length + sv.length : Nat) : Int) (dv.length : Int)
        (sv.length : Int) noUppercase allowRepeat
        (interleave 0 (lv ++ dv ++ sv) (List.replicate (lv.length + dv.length + sv.length) 0)) =
      .returned (lv.map (pick (if noUppercase then Lowercase else Lowercase ++ Uppercase)) ++
        dv.map (pick Digits) ++ sv.map (pick Symbols)).reverse none := by
  obtain ⟨hl, hla, hd, hda, hs, hsa⟩ := default_pools noUppercase
  have hgen : ∀ pl pd py : List Nat,
      pl.length = lv.length → pd.length = dv.length → py.length = sv.length →
      validPositions 0 (pl ++ pd ++ py) = true →
      Generate ((lv.length + dv.length + sv.length : Nat) : Int) (dv.length : Int)
          (sv.length : Int) noUppercase allowRepeat
          (interleave 0 (lv ++ dv ++ sv) (pl ++ pd ++ py)) =
        .returned (insertSeq []
          (lv.map (pick (if noUppercase then Lowercase else Lowercase ++ Uppercase)) ++
            dv.map (pick Digits) ++ sv.map (pick Symbols)) (pl ++ pd ++ py)) none := by
    intro pl pd py h1 h2 h3 hval
    rw [List.append_assoc] at hval
    have hdist1 : allowRepeat = false →
        (lv.map (pick (letterPool defaultGenerator noUppercase)) ++
          (dv.map (pick defaultGenerator.digits) ++
            sv.map (pick defaultGenerator.symbols))).Nodup := by
      intro har
      have := hdist har
      rw [List.append_assoc] at this
      rw [default_letterPool]
      simpa [defaultGenerator_eq] using this
    have key := Generate_interleave noUppercase allowRepeat hl hla hd hda hs hsa lv dv sv pl pd py
      h1.symm h2.symm h3.symm hfit hval hdist1
    rw [default_letterPool] at key
    rw [Generate_eq_default]
    simp only [List.append_assoc]
    simpa [defaultGenerator_eq] using key
  refine ⟨hgen, ?_, ?_⟩
  · have hr : List.range (lv.length + dv.length + sv.length) =
        List.range' 0 lv.length ++ List.range' lv.length dv.length ++
          List.range' (lv.length + dv.length) sv.length := by
      rw [List.range_eq_range']
      have e1 := List.range'_append_1 0 lv.length dv.length
      have e2 := List.range'_append_1 0 (dv.length + lv.length) sv.length
      simp only [Nat.zero_add] at e1 e2
      rw [e1, show lv.length + dv.length = dv.length + lv.length by omega, e2]
      congr 1
      omega
    have hv : validPositions 0 (List.range (lv.length + dv.length + sv.length)) = true := by
      rw [List.range_eq_range']; exact validPositions_last _ 0
    rw [hr] at hv
    rw [hr, hgen _ _ _ (by simp) (by simp) (by simp) hv, ← hr, List.range_eq_range']
    have := insertSeq_last (lv.map (pick (if noUppercase then Lowercase else Lowercase ++ Uppercase)) ++
      dv.map (pick Digits) ++ sv.map (pick Symbols)) []
    simp only [List.length_nil, List.length_append, List.length_map, List.nil_append] at this
    rw [this]
  · have hr : List.replicate (lv.length + dv.length + sv.length) 0 =
        List.replicate lv.length 0 ++ List.replicate dv.length 0 ++
          List.replicate sv.length 0 := by
      simp
    have hv : validPositions 0 (List.replicate (lv.length + dv.length + sv.length) 0) = true :=
      validPositions_first _ 0
    rw [hr] at hv
    rw [hr, hgen _ _ _ (by simp) (by simp) (by simp) hv, ← hr]
    have := insertSeq_first (lv.map (pick (if noUppercase then Lowercase else Lowercase ++ Uppercase)) ++
      dv.map (pick Digits) ++ sv.map (pick Symbols)) []
    simp only [List.length_append, List.length_map, List.append_nil] at this
    rw [this]

/-- Witness of C15: for `Generate(3, 1, 1, true, false)` with entropies 0, 5, 2
(the distinct bytes `a`, `6`, `@`) and positions 0, 1, 1 the password is `a@6`:
`a`, then `6` after it, then `@` between them. -/
theorem generate_phase_order_witness :
    Generate 3 1 1 true false drawsOrder = .returned [97, 64, 54] none ∧
    Generate (([0].length + [5].length + [2].length : Nat) : Int) (([5] : List Nat).length : Int)
        (([2] : List Nat).length : Int) true false
        (interleave 0 ([0] ++ [5] ++ [2]) ([0] ++ [1] ++ [1])) =
      .returned (insertSeq []
        (([0] : List Nat).map (pick (if true then Lowercase else Lowercase ++ Uppercase)) ++
          ([5] : List Nat).map (pick Digits) ++ ([2] : List Nat).map (pick Symbols))
        ([0] ++ [1] ++ [1])) none :=
  ⟨by decide,
   (generate_phase_order [0] [5] [2] true false (by decide) (by decide)).1 [0] [1] [1] rfl rfl rfl
     (by decide)⟩

end PwdGen
